import Mathlib

set_option linter.dupNamespace false

/-!
# gopher-lua value cloning and snapshots

A shallow embedding of `value.go` and `snapshot.go`.

Go pointers are addresses into typed stores of an explicit heap; a nil pointer
is `none`.  Slices and maps are reference values in Go, so they live in stores
of their own and records hold their addresses.  A slice header is modelled by
the address of its backing array, whose length is the length of the slice
(capacity is not modelled).  Every allocation appends to a store, so the
address it returns is the old length of that store.

`Clone` is dynamically dispatched and mutually recursive in the source; here
the recursive dispatch is passed to each method as the argument `cl`, and
`LValue.Clone` ties the knot with a recursion budget that is spent only on
dynamic dispatch.
-/

/-! ## Faults -/

/-- The ways in which an embedded Go computation can fail to return. -/
inductive Fault where
  | nilDeref
  | typeAssert
  | dangling
  | outOfRange
  | outOfFuel
  deriving DecidableEq, Repr

abbrev Res := Except Fault

abbrev Addr := Nat

/-! ## Value tags (value.go 9-27) -/

abbrev LValueType := Int

def LTNil : LValueType := 0
def LTBool : LValueType := 1
def LTNumber : LValueType := 2
def LTString : LValueType := 3
def LTFunction : LValueType := 4
def LTUserData : LValueType := 5
def LTThread : LValueType := 6
def LTTable : LValueType := 7
def LTChannel : LValueType := 8

def lValueNames : List String :=
  ["nil", "boolean", "number", "string", "function", "userdata", "thread", "table", "channel"]

/-- Method `String` of `LValueType`: `lValueNames[int(vt)]`, which panics outside the table. -/
def LValueType.String (vt : LValueType) : Res String :=
  if vt < 0 then .error .outOfRange
  else match lValueNames[vt.toNat]? with
    | some s => .ok s
    | none => .error .outOfRange

/-! ## Values (value.go 29-39)

`LValue` is an interface.  `iface_nil` is the nil interface value; `lnil` is
the singleton `LNil`; a number carries the bit pattern of its float64; the
pointer variants carry the address of their record; a channel carries its
handle (`none` for the nil channel). -/

inductive LValue where
  | iface_nil
  | lnil
  | lbool (b : Bool)
  | lnumber (bits : Nat)
  | lstring (s : String)
  | function (p : Addr)
  | userdata (p : Addr)
  | thread (p : Addr)
  | table (p : Addr)
  | channel (ch : Option Nat)
  deriving DecidableEq, Repr

def LNil : LValue := .lnil
def LTrue : LValue := .lbool true
def LFalse : LValue := .lbool false

/-- Method `Type` of every variant; calling it on the nil interface panics. -/
def LValue.Type : LValue → Res LValueType
  | .iface_nil => .error .nilDeref
  | .lnil => .ok LTNil
  | .lbool _ => .ok LTBool
  | .lnumber _ => .ok LTNumber
  | .lstring _ => .ok LTString
  | .function _ => .ok LTFunction
  | .userdata _ => .ok LTUserData
  | .thread _ => .ok LTThread
  | .table _ => .ok LTTable
  | .channel _ => .ok LTChannel

def LVIsFalse (v : LValue) : Bool := v == LNil || v == LFalse

def LVAsBool (v : LValue) : Bool := v != LNil && v != LFalse

/-- Method `assertFloat64`: the float64 (as its bit pattern) and the success flag. -/
def LValue.assertFloat64 : LValue → Res (Nat × Bool)
  | .iface_nil => .error .nilDeref
  | .lnumber x => .ok (x, true)
  | _ => .ok (0, false)

def LValue.assertString : LValue → Res (String × Bool)
  | .iface_nil => .error .nilDeref
  | .lstring s => .ok (s, true)
  | _ => .ok ("", false)

def LValue.assertFunction : LValue → Res (Option Addr × Bool)
  | .iface_nil => .error .nilDeref
  | .function p => .ok (some p, true)
  | _ => .ok (none, false)

/-! ## Scalar clones (value.go 89, 105-110, 122, 149, 387) -/

def LNilType.Clone : LValue := LNil

def LBool.Clone (bl : Bool) : LValue := if bl then LTrue else LFalse

def LString.Clone (st : String) : LValue := .lstring st

def LNumber.Clone (nm : Nat) : LValue := .lnumber nm

def LChannel.Clone (ch : Option Nat) : LValue := .channel ch

/-! ## Go maps

A map object is its list of entries, with pairwise distinct keys.  `set` drops the
entry for the key, if any, and adds the new one; `range` visits the entries in list
order (Go leaves the order unspecified). -/

structure GoMap (K V : Type) where
  entries : List (K × V)
  nodup : (entries.map Prod.fst).Nodup
  deriving DecidableEq, Repr

namespace GoMap

variable {K V : Type}

def empty : GoMap K V := ⟨[], List.nodup_nil⟩

def get [DecidableEq K] (m : GoMap K V) (k : K) : Option V :=
  (m.entries.find? (fun e => decide (e.1 = k))).map Prod.snd

def set [DecidableEq K] (m : GoMap K V) (k : K) (v : V) : GoMap K V :=
  ⟨m.entries.filter (fun e => decide (e.1 ≠ k)) ++ [(k, v)], by
    rw [List.map_append, List.nodup_append]
    refine ⟨(m.nodup.sublist (List.Sublist.map _ (List.filter_sublist _))), by simp, ?_⟩
    intro a ha hb
    simp only [List.map_cons, List.map_nil, List.mem_singleton] at hb
    subst hb
    simp [List.mem_filter] at ha⟩

def delete [DecidableEq K] (m : GoMap K V) (k : K) : GoMap K V :=
  ⟨m.entries.filter (fun e => decide (e.1 ≠ k)),
    m.nodup.sublist (List.Sublist.map _ (List.filter_sublist _))⟩

end GoMap

/-! ## Records (value.go 171-179, 223-229, 260-269, 295-313, 355-359) -/

structure LTable where
  Metatable : LValue
  array : Option Addr
  dict : Option Addr
  strdict : Option Addr
  keys : Option Addr
  k2i : Option Addr
  deriving DecidableEq, Repr

/-- The zero value `LTable{}`. -/
def LTable.zero : LTable := ⟨.iface_nil, none, none, none, none, none⟩

/-- Fields `Proto` and `GFunction` are carried as identities: the prototype and the host
callback are never inspected by the code embedded here. -/
structure LFunction where
  IsG : Bool
  Env : Option Addr
  Proto : Option Nat
  GFunction : Option Nat
  Upvalues : Option Addr
  deriving DecidableEq, Repr

def LFunction.zero : LFunction := ⟨false, none, none, none, none⟩

structure Global where
  MainThread : Option Addr
  CurrentThread : Option Addr
  Registry : Option Addr
  Global : Option Addr
  builtinMts : Option Addr
  tempFiles : Option Addr
  gccount : Int
  deriving DecidableEq, Repr

/-- The record type `Global`, named apart from its field `Global`. -/
abbrev GlobalRecord := Global

def Global.zero : GlobalRecord := ⟨none, none, none, none, none, none, 0⟩

/-- Modelled from the spec: the configuration record `Options` is declared outside the
embedded files; the fields are those the tests set (registry size, call-stack size,
Go stack traces). -/
structure Options where
  RegistrySize : Int
  CallStackSize : Int
  IncludeGoStackTrace : Bool
  deriving DecidableEq, Repr

def Options.zero : Options := ⟨0, 0, false⟩

/-- Fields `Panic`, `mainLoop` and `ctx` are carried as identities of the function or context
value; `alloc` is the address of the allocator, which is never dereferenced here. -/
structure LState where
  G : Option Addr
  Parent : Option Addr
  Env : Option Addr
  Panic : Option Nat
  Dead : Bool
  Options : Options
  stop : Int
  reg : Option Addr
  stack : Option Addr
  alloc : Option Nat
  currentFrame : Option Addr
  wrapped : Bool
  uvcache : Option Addr
  hasErrorFunc : Bool
  mainLoop : Option Nat
  ctx : Option Nat
  deriving DecidableEq, Repr

def LState.zero : LState :=
  ⟨none, none, none, none, false, Options.zero, 0, none, none, none, none, false, none, false,
    none, none⟩

/-- Field `Value` is the host payload (`interface{}`), carried as an identity. -/
structure LUserData where
  Value : Option Nat
  Env : Option Addr
  Metatable : LValue
  deriving DecidableEq, Repr

def LUserData.zero : LUserData := ⟨none, none, .iface_nil⟩

/-- Modelled from the spec: the register stack (`registry`) is declared outside the
embedded files.  It is the thread's value stack (its contents and its top), with the
back-reference `handler` that `LState.Clone` assigns. -/
structure registry where
  array : List LValue
  top : Int
  handler : Option Addr
  deriving DecidableEq, Repr

/-- Modelled from the spec: a call frame is declared outside the embedded files.  It is
one activation record: the executing function and its window into the value stack. -/
structure callFrame where
  Fn : Option Addr
  Pc : Int
  Base : Int
  deriving DecidableEq, Repr

/-- Modelled from the spec: the call-frame stack is declared outside the embedded files.
It is a bounded stack of frames with its depth `sp`; `fixed` records the chosen
implementation strategy (the fixed-capacity array-backed one or the growable one). -/
structure callFrameStack where
  frames : List callFrame
  sp : Int
  fixed : Bool
  deriving DecidableEq, Repr

/-- Modelled from the spec: an upvalue is declared outside the embedded files.  It is a
captured-variable box holding a value. -/
structure Upvalue where
  value : LValue
  closed : Bool
  deriving DecidableEq, Repr

/-- Record `Snapshot` (snapshot.go 3-6). -/
structure Snapshot where
  LPtr : Option Addr
  LData : LState
  deriving DecidableEq, Repr

/-! ## The heap -/

structure Heap where
  tables : List LTable
  values : List (List LValue)
  dicts : List (GoMap LValue LValue)
  strdicts : List (GoMap String LValue)
  k2is : List (GoMap LValue Int)
  functions : List LFunction
  upvalLists : List (List (Option Addr))
  userdata : List LUserData
  globals : List Global
  mtMaps : List (GoMap Int LValue)
  fileLists : List (List (Option Nat))
  threads : List LState
  regs : List registry
  frameStacks : List callFrameStack
  frames : List callFrame
  upvalues : List Upvalue
  deriving DecidableEq, Repr

def Heap.empty : Heap := ⟨[], [], [], [], [], [], [], [], [], [], [], [], [], [], [], []⟩

/-- In-place update of the cell at address `a` (no effect when nothing is allocated there). -/
def Store.upd {α : Type} (s : List α) (a : Addr) (f : α → α) : List α :=
  match s[a]? with
  | some x => s.set a (f x)
  | none => s

/-- Dereference of a pointer into store `s`. -/
def Store.load {α : Type} (s : List α) (p : Option Addr) : Res α :=
  match p with
  | none => .error .nilDeref
  | some a =>
    match s[a]? with
    | some x => .ok x
    | none => .error .dangling

/-- Assignment `*p = x` through a pointer into store `s`. -/
def Store.store {α : Type} (s : List α) (p : Option Addr) (x : α) : Res (List α) :=
  match p with
  | none => .error .nilDeref
  | some a =>
    match s[a]? with
    | some _ => .ok (s.set a x)
    | none => .error .dangling

/-- Contents of a slice: a nil slice is empty. -/
def Store.slice {α : Type} (s : List (List α)) (p : Option Addr) : Res (List α) :=
  match p with
  | none => .ok []
  | some a =>
    match s[a]? with
    | some xs => .ok xs
    | none => .error .dangling

/-- Entries of a map for `range`: a nil map has none. -/
def Store.range {K V : Type} (s : List (GoMap K V)) (p : Option Addr) : Res (List (K × V)) :=
  match p with
  | none => .ok []
  | some a =>
    match s[a]? with
    | some m => .ok m.entries
    | none => .error .dangling

/-- Builtin `copy(dst, src)` on the contents of two slices: the first
`min (len dst) (len src)` cells of `dst` are overwritten. -/
def copySlice {α : Type} (dst src : List α) : List α :=
  src.take (min dst.length src.length) ++ dst.drop (min dst.length src.length)

/-! ## Allocation and slice primitives -/

/-- Builtin `make([]LValue, n)`: a new backing array of `n` zero values. -/
def Heap.makeValues (h : Heap) (n : Nat) : Addr × Heap :=
  (h.values.length, { h with values := h.values ++ [List.replicate n LValue.iface_nil] })

/-- Builtin `copy(dst, src)` for `[]LValue`, `dst` being a slice made in the same call. -/
def Heap.copyValues (h : Heap) (dst : Addr) (src : Option Addr) : Res Heap := do
  let xs ← Store.slice h.values src
  pure { h with values := Store.upd h.values dst (fun ys => copySlice ys xs) }

/-- Builtin `make(map[LValue]LValue)`. -/
def Heap.makeDict (h : Heap) : Addr × Heap :=
  (h.dicts.length, { h with dicts := h.dicts ++ [GoMap.empty] })

/-- Assignment `m[k] = v` on the `map[LValue]LValue` at address `d`. -/
def Heap.dictSet (h : Heap) (d : Addr) (k v : LValue) : Heap :=
  { h with dicts := Store.upd h.dicts d (fun m => m.set k v) }

/-- Builtin `make(map[string]LValue)`. -/
def Heap.makeStrDict (h : Heap) : Addr × Heap :=
  (h.strdicts.length, { h with strdicts := h.strdicts ++ [GoMap.empty] })

/-- Assignment `m[k] = v` on the `map[string]LValue` at address `d`. -/
def Heap.strdictSet (h : Heap) (d : Addr) (k : String) (v : LValue) : Heap :=
  { h with strdicts := Store.upd h.strdicts d (fun m => m.set k v) }

/-- Builtin `make([]*Upvalue, n)`. -/
def Heap.makeUpvalList (h : Heap) (n : Nat) : Addr × Heap :=
  (h.upvalLists.length, { h with upvalLists := h.upvalLists ++ [List.replicate n none] })

/-- Builtin `copy(dst, src)` for `[]*Upvalue`. -/
def Heap.copyUpvalList (h : Heap) (dst : Addr) (src : Option Addr) : Res Heap := do
  let xs ← Store.slice h.upvalLists src
  pure { h with upvalLists := Store.upd h.upvalLists dst (fun ys => copySlice ys xs) }

/-- Builtin `make(map[int]LValue)`. -/
def Heap.makeMtMap (h : Heap) : Addr × Heap :=
  (h.mtMaps.length, { h with mtMaps := h.mtMaps ++ [GoMap.empty] })

/-- Assignment `m[k] = v` on the `map[int]LValue` at address `d`. -/
def Heap.mtMapSet (h : Heap) (d : Addr) (k : Int) (v : LValue) : Heap :=
  { h with mtMaps := Store.upd h.mtMaps d (fun m => m.set k v) }

/-- Builtin `make([]*os.File, n)`. -/
def Heap.makeFileList (h : Heap) (n : Nat) : Addr × Heap :=
  (h.fileLists.length, { h with fileLists := h.fileLists ++ [List.replicate n none] })

/-- Builtin `copy(dst, src)` for `[]*os.File`. -/
def Heap.copyFileList (h : Heap) (dst : Addr) (src : Option Addr) : Res Heap := do
  let xs ← Store.slice h.fileLists src
  pure { h with fileLists := Store.upd h.fileLists dst (fun ys => copySlice ys xs) }

/-- Type assertion `v.(*LTable)`. -/
def LValue.toTable : LValue → Res Addr
  | .table p => .ok p
  | _ => .error .typeAssert

/-- Type assertion `v.(*LState)`. -/
def LValue.toThread : LValue → Res Addr
  | .thread p => .ok p
  | _ => .error .typeAssert

/-! ## LTable.Clone (value.go 186-221)

Each statement (or pair of statements on one field) of the method is a function of its
own, named after the field it assigns; `LTable.Clone` runs them in source order. -/

/-- Statements `result := &LTable{}; *result = *tb`. -/
def LTable.copyRecord (h : Heap) (tb : Addr) : Res (Addr × Heap) := do
  let result := h.tables.length
  let h : Heap := { h with tables := h.tables ++ [LTable.zero] }
  let t ← Store.load h.tables (some tb)
  pure (result, { h with tables := Store.upd h.tables result (fun _ => t) })

/-- Statements `result.Metatable = tb.Metatable.Clone()`. -/
def LTable.cloneMetatable (cl : Heap → LValue → Res (LValue × Heap)) (h : Heap)
    (result tb : Addr) : Res Heap := do
  let t ← Store.load h.tables (some tb)
  let (mt, h) ← cl h t.Metatable
  pure { h with tables := Store.upd h.tables result (fun r => { r with Metatable := mt }) }

/-- Statements `result.array = make([]LValue, len(tb.array)); copy(result.array, tb.array)`. -/
def LTable.cloneArray (h : Heap) (result tb : Addr) : Res Heap := do
  let t ← Store.load h.tables (some tb)
  let xs ← Store.slice h.values t.array
  let (arr, h) := h.makeValues xs.length
  let h : Heap :=
    { h with tables := Store.upd h.tables result (fun r => { r with array := some arr }) }
  let t ← Store.load h.tables (some tb)
  h.copyValues arr t.array

/-- Statements `result.dict = make(map[LValue]LValue);
for k, v := range tb.dict { result.dict[k] = v }`. -/
def LTable.cloneDict (h : Heap) (result tb : Addr) : Res Heap := do
  let (d, h) := h.makeDict
  let h : Heap :=
    { h with tables := Store.upd h.tables result (fun r => { r with dict := some d }) }
  let t ← Store.load h.tables (some tb)
  let es ← Store.range h.dicts t.dict
  pure (es.foldl (fun h e => h.dictSet d e.1 e.2) h)

/-- Statements `result.strdict = make(map[string]LValue);
for k, v := range tb.strdict { result.strdict[k] = v }`. -/
def LTable.cloneStrdict (h : Heap) (result tb : Addr) : Res Heap := do
  let (d, h) := h.makeStrDict
  let h : Heap :=
    { h with tables := Store.upd h.tables result (fun r => { r with strdict := some d }) }
  let t ← Store.load h.tables (some tb)
  let es ← Store.range h.strdicts t.strdict
  pure (es.foldl (fun h e => h.strdictSet d e.1 e.2) h)

/-- Statements `result.keys = make([]LValue, len(tb.keys)); copy(result.keys, tb.keys)`. -/
def LTable.cloneKeys (h : Heap) (result tb : Addr) : Res Heap := do
  let t ← Store.load h.tables (some tb)
  let ks ← Store.slice h.values t.keys
  let (arr, h) := h.makeValues ks.length
  let h : Heap :=
    { h with tables := Store.upd h.tables result (fun r => { r with keys := some arr }) }
  let t ← Store.load h.tables (some tb)
  h.copyValues arr t.keys

def LTable.Clone (cl : Heap → LValue → Res (LValue × Heap)) (h : Heap) (tb : Addr) :
    Res (LValue × Heap) := do
  let (result, h) ← LTable.copyRecord h tb
  let h ← LTable.cloneMetatable cl h result tb
  let h ← LTable.cloneArray h result tb
  let h ← LTable.cloneDict h result tb
  let h ← LTable.cloneStrdict h result tb
  let h ← LTable.cloneKeys h result tb
  pure (.table result, h)

/-! ## LFunction.Clone (value.go 237-258) -/

/-- Statements `result := &LFunction{}; *result = *fn`. -/
def LFunction.copyRecord (h : Heap) (fn : Addr) : Res (Addr × Heap) := do
  let result := h.functions.length
  let h : Heap := { h with functions := h.functions ++ [LFunction.zero] }
  let f ← Store.load h.functions (some fn)
  pure (result, { h with functions := Store.upd h.functions result (fun _ => f) })

/-- Statements `result.Upvalues = make([]*Upvalue, len(fn.Upvalues));
copy(result.Upvalues, fn.Upvalues)`. -/
def LFunction.cloneUpvalues (h : Heap) (result fn : Addr) : Res Heap := do
  let f ← Store.load h.functions (some fn)
  let us ← Store.slice h.upvalLists f.Upvalues
  let (ul, h) := h.makeUpvalList us.length
  let h : Heap :=
    { h with functions := Store.upd h.functions result (fun r => { r with Upvalues := some ul }) }
  let f ← Store.load h.functions (some fn)
  h.copyUpvalList ul f.Upvalues

def LFunction.Clone (h : Heap) (fn : Addr) : Res (LValue × Heap) := do
  let (result, h) ← LFunction.copyRecord h fn
  let h ← LFunction.cloneUpvalues h result fn
  pure (.function result, h)

/-! ## LUserData.Clone (value.go 366-378) -/

/-- Statements `result := &LUserData{}; *result = *ud`. -/
def LUserData.copyRecord (h : Heap) (ud : Addr) : Res (Addr × Heap) := do
  let result := h.userdata.length
  let h : Heap := { h with userdata := h.userdata ++ [LUserData.zero] }
  let u ← Store.load h.userdata (some ud)
  pure (result, { h with userdata := Store.upd h.userdata result (fun _ => u) })

/-- Statements `if ud.Env != nil { result.Env = ud.Env.Clone().(*LTable) }`. -/
def LUserData.cloneEnv (cl : Heap → LValue → Res (LValue × Heap)) (h : Heap)
    (result ud : Addr) : Res Heap := do
  let u ← Store.load h.userdata (some ud)
  match u.Env with
  | none => pure h
  | some env => do
    let (c, h) ← LTable.Clone cl h env
    let p ← c.toTable
    pure { h with userdata := Store.upd h.userdata result (fun r => { r with Env := some p }) }

/-- Statements `if ud.Metatable != nil { result.Metatable = ud.Metatable.Clone() }`. -/
def LUserData.cloneMetatable (cl : Heap → LValue → Res (LValue × Heap)) (h : Heap)
    (result ud : Addr) : Res Heap := do
  let u ← Store.load h.userdata (some ud)
  match u.Metatable with
  | .iface_nil => pure h
  | mt => do
    let (c, h) ← cl h mt
    pure { h with userdata := Store.upd h.userdata result (fun r => { r with Metatable := c }) }

def LUserData.Clone (cl : Heap → LValue → Res (LValue × Heap)) (h : Heap) (ud : Addr) :
    Res (LValue × Heap) := do
  let (result, h) ← LUserData.copyRecord h ud
  let h ← LUserData.cloneEnv cl h result ud
  let h ← LUserData.cloneMetatable cl h result ud
  pure (.userdata result, h)

/-! ## Global.Clone (value.go 271-293)

In `*result.Registry = *g.Registry.Clone().(*LTable)` the pointer `result.Registry` is an
operand of the assignment, read before the call; the assignment then overwrites the table
record it points to. -/

/-- Statements `result = &Global{}; *result = *g`. -/
def Global.copyRecord (h : Heap) (g : Addr) : Res (Addr × Heap) := do
  let result := h.globals.length
  let h : Heap := { h with globals := h.globals ++ [Global.zero] }
  let gr ← Store.load h.globals (some g)
  pure (result, { h with globals := Store.upd h.globals result (fun _ => gr) })

/-- Statements `if g.Registry != nil { *result.Registry = *g.Registry.Clone().(*LTable) }`. -/
def Global.cloneRegistry (cl : Heap → LValue → Res (LValue × Heap)) (h : Heap)
    (result g : Addr) : Res Heap := do
  let gr ← Store.load h.globals (some g)
  match gr.Registry with
  | none => pure h
  | some rt => do
    let r ← Store.load h.globals (some result)
    let (c, h) ← LTable.Clone cl h rt
    let p ← c.toTable
    let t ← Store.load h.tables (some p)
    let ts ← Store.store h.tables r.Registry t
    pure { h with tables := ts }

/-- Statements `if g.Global != nil { *result.Global = *g.Global.Clone().(*LTable) }`. -/
def Global.cloneGlobal (cl : Heap → LValue → Res (LValue × Heap)) (h : Heap)
    (result g : Addr) : Res Heap := do
  let gr ← Store.load h.globals (some g)
  match gr.Global with
  | none => pure h
  | some gt => do
    let r ← Store.load h.globals (some result)
    let (c, h) ← LTable.Clone cl h gt
    let p ← c.toTable
    let t ← Store.load h.tables (some p)
    let ts ← Store.store h.tables r.Global t
    pure { h with tables := ts }

/-- One iteration of the loop over `g.builtinMts`:
`if v != nil { result.builtinMts[k] = v.Clone() }`, the new map being at address `m`. -/
def Global.cloneMt (cl : Heap → LValue → Res (LValue × Heap)) (m : Addr) (h : Heap)
    (e : Int × LValue) : Res Heap :=
  match e.2 with
  | .iface_nil => pure h
  | v => do
    let (c, h) ← cl h v
    pure (h.mtMapSet m e.1 c)

/-- Statements `result.builtinMts = make(map[int]LValue)` and the loop over `g.builtinMts`. -/
def Global.cloneBuiltinMts (cl : Heap → LValue → Res (LValue × Heap)) (h : Heap)
    (result g : Addr) : Res Heap := do
  let (m, h) := h.makeMtMap
  let h : Heap :=
    { h with globals := Store.upd h.globals result (fun r => { r with builtinMts := some m }) }
  let gr ← Store.load h.globals (some g)
  let es ← Store.range h.mtMaps gr.builtinMts
  es.foldlM (Global.cloneMt cl m) h

/-- Statements `result.tempFiles = make([]*os.File, len(g.tempFiles));
copy(result.tempFiles, g.tempFiles)`. -/
def Global.cloneTempFiles (h : Heap) (result g : Addr) : Res Heap := do
  let gr ← Store.load h.globals (some g)
  let fs ← Store.slice h.fileLists gr.tempFiles
  let (fl, h) := h.makeFileList fs.length
  let h : Heap :=
    { h with globals := Store.upd h.globals result (fun r => { r with tempFiles := some fl }) }
  let gr ← Store.load h.globals (some g)
  h.copyFileList fl gr.tempFiles

def Global.Clone (cl : Heap → LValue → Res (LValue × Heap)) (h : Heap) (g : Addr) :
    Res (Addr × Heap) := do
  let (result, h) ← Global.copyRecord h g
  let h ← Global.cloneRegistry cl h result g
  let h ← Global.cloneGlobal cl h result g
  let h ← Global.cloneBuiltinMts cl h result g
  let h ← Global.cloneTempFiles h result g
  pure (result, h)

/-! ## Clones of the records declared outside the embedded files -/

/-- Modelled from the spec: `registry.clone` is defined outside the embedded files.  It
returns a new register stack with the same depth and contents ("a deep copy of the
register/value stack ... preserving depth, contents"). -/
def registry.clone (h : Heap) (rg : Addr) : Res (Addr × Heap) := do
  let r ← Store.load h.regs (some rg)
  pure (h.regs.length, { h with regs := h.regs ++ [r] })

/-- Modelled from the spec: `callFrameStack.Clone` is defined outside the embedded files.
It returns a new call-frame stack with the same frames, depth and strategy. -/
def callFrameStack.Clone (h : Heap) (st : Addr) : Res (Addr × Heap) := do
  let s ← Store.load h.frameStacks (some st)
  pure (h.frameStacks.length, { h with frameStacks := h.frameStacks ++ [s] })

/-- Modelled from the spec: `callFrame.clone` is defined outside the embedded files.  It
returns a new frame record with the same contents. -/
def callFrame.clone (h : Heap) (cf : Addr) : Res (Addr × Heap) := do
  let f ← Store.load h.frames (some cf)
  pure (h.frames.length, { h with frames := h.frames ++ [f] })

/-- Modelled from the spec: `Upvalue.Clone` is defined outside the embedded files.  It
returns a new box holding the same value ("a duplicated upvalue cache entry"). -/
def Upvalue.Clone (h : Heap) (uv : Addr) : Res (Addr × Heap) := do
  let u ← Store.load h.upvalues (some uv)
  pure (h.upvalues.length, { h with upvalues := h.upvalues ++ [u] })

/-! ## LState.Clone (value.go 320-353) -/

/-- Statements `result := &LState{}; *result = *l`. -/
def LState.copyRecord (h : Heap) (l : Addr) : Res (Addr × Heap) := do
  let result := h.threads.length
  let h : Heap := { h with threads := h.threads ++ [LState.zero] }
  let ls ← Store.load h.threads (some l)
  pure (result, { h with threads := Store.upd h.threads result (fun _ => ls) })

/-- Statements `if l.G != nil { *result.G = *l.G.Clone() }`. -/
def LState.cloneG (cl : Heap → LValue → Res (LValue × Heap)) (h : Heap)
    (result l : Addr) : Res Heap := do
  let ls ← Store.load h.threads (some l)
  match ls.G with
  | none => pure h
  | some g => do
    let r ← Store.load h.threads (some result)
    let (c, h) ← Global.Clone cl h g
    let gr ← Store.load h.globals (some c)
    let gs ← Store.store h.globals r.G gr
    pure { h with globals := gs }

/-- Statements `if l.Env != nil { *result.Env = *l.Env.Clone().(*LTable);
result.Env = result.G.Global }`. -/
def LState.cloneEnv (cl : Heap → LValue → Res (LValue × Heap)) (h : Heap)
    (result l : Addr) : Res Heap := do
  let ls ← Store.load h.threads (some l)
  match ls.Env with
  | none => pure h
  | some env => do
    let r ← Store.load h.threads (some result)
    let (c, h) ← LTable.Clone cl h env
    let p ← c.toTable
    let t ← Store.load h.tables (some p)
    let ts ← Store.store h.tables r.Env t
    let h : Heap := { h with tables := ts }
    let r ← Store.load h.threads (some result)
    let gr ← Store.load h.globals r.G
    pure { h with threads := Store.upd h.threads result (fun r => { r with Env := gr.Global }) }

/-- Statements `if l.reg != nil { *result.reg = *l.reg.clone(); result.reg.handler = result }`. -/
def LState.cloneReg (h : Heap) (result l : Addr) : Res Heap := do
  let ls ← Store.load h.threads (some l)
  match ls.reg with
  | none => pure h
  | some rg => do
    let r ← Store.load h.threads (some result)
    let (c, h) ← registry.clone h rg
    let x ← Store.load h.regs (some c)
    let rs ← Store.store h.regs r.reg x
    let h : Heap := { h with regs := rs }
    let r ← Store.load h.threads (some result)
    let x ← Store.load h.regs r.reg
    let rs ← Store.store h.regs r.reg { x with handler := some result }
    pure { h with regs := rs }

/-- Statements `if l.stack != nil { result.stack = l.stack.Clone() }`. -/
def LState.cloneStack (h : Heap) (result l : Addr) : Res Heap := do
  let ls ← Store.load h.threads (some l)
  match ls.stack with
  | none => pure h
  | some st => do
    let (c, h) ← callFrameStack.Clone h st
    pure { h with threads := Store.upd h.threads result (fun r => { r with stack := some c }) }

/-- Statements `if l.currentFrame != nil { *result.currentFrame = *l.currentFrame.clone() }`. -/
def LState.cloneCurrentFrame (h : Heap) (result l : Addr) : Res Heap := do
  let ls ← Store.load h.threads (some l)
  match ls.currentFrame with
  | none => pure h
  | some cf => do
    let r ← Store.load h.threads (some result)
    let (c, h) ← callFrame.clone h cf
    let x ← Store.load h.frames (some c)
    let fs ← Store.store h.frames r.currentFrame x
    pure { h with frames := fs }

/-- Statements `if l.uvcache != nil { *result.uvcache = *l.uvcache.Clone() }`. -/
def LState.cloneUvcache (h : Heap) (result l : Addr) : Res Heap := do
  let ls ← Store.load h.threads (some l)
  match ls.uvcache with
  | none => pure h
  | some uv => do
    let r ← Store.load h.threads (some result)
    let (c, h) ← Upvalue.Clone h uv
    let x ← Store.load h.upvalues (some c)
    let us ← Store.store h.upvalues r.uvcache x
    pure { h with upvalues := us }

def LState.Clone (cl : Heap → LValue → Res (LValue × Heap)) (h : Heap) (l : Addr) :
    Res (LValue × Heap) := do
  let (result, h) ← LState.copyRecord h l
  let h ← LState.cloneG cl h result l
  let h ← LState.cloneEnv cl h result l
  let h ← LState.cloneReg h result l
  let h ← LState.cloneStack h result l
  let h ← LState.cloneCurrentFrame h result l
  let h ← LState.cloneUvcache h result l
  pure (.thread result, h)

/-! ## Dynamic dispatch of `Clone` on the interface `LValue` -/

/-- The method call `v.Clone()` on an interface value.  Calling it on the nil interface
panics; the scalar variants return without touching the heap; the pointer variants
spend one unit of the recursion budget. -/
def LValue.Clone : Nat → Heap → LValue → Res (LValue × Heap)
  | _, _, .iface_nil => .error .nilDeref
  | _, h, .lnil => .ok (LNilType.Clone, h)
  | _, h, .lbool b => .ok (LBool.Clone b, h)
  | _, h, .lnumber x => .ok (LNumber.Clone x, h)
  | _, h, .lstring s => .ok (LString.Clone s, h)
  | _, h, .channel c => .ok (LChannel.Clone c, h)
  | 0, _, .function _ => .error .outOfFuel
  | 0, _, .userdata _ => .error .outOfFuel
  | 0, _, .thread _ => .error .outOfFuel
  | 0, _, .table _ => .error .outOfFuel
  | _ + 1, h, .function p => LFunction.Clone h p
  | n + 1, h, .userdata p => LUserData.Clone (LValue.Clone n) h p
  | n + 1, h, .thread p => LState.Clone (LValue.Clone n) h p
  | n + 1, h, .table p => LTable.Clone (LValue.Clone n) h p

/-! ## Snapshots (snapshot.go 8-15) -/

/-- Function `SaveSnapshot`, with the recursion budget `fuel` for the dynamic calls of `Clone`. -/
def SaveSnapshot (fuel : Nat) (h : Heap) (st : Option Addr) : Res (Snapshot × Heap) :=
  match st with
  | none => .error .nilDeref
  | some l => do
    let (c, h) ← LState.Clone (LValue.Clone fuel) h l
    let p ← c.toThread
    let d ← Store.load h.threads (some p)
    pure ({ LPtr := st, LData := d }, h)

def LoadSnapshot (h : Heap) (sn : Snapshot) : Res (Option Addr × Heap) := do
  -- *sn.LPtr = sn.LData
  let ts ← Store.store h.threads sn.LPtr sn.LData
  -- return sn.LPtr
  pure (sn.LPtr, { h with threads := ts })

/-! ## Observations on heaps -/

/-- The map a pointer denotes for reading: a nil map reads as the empty map. -/
def Store.mapOf {K V : Type} (s : List (GoMap K V)) (p : Option Addr) : Res (GoMap K V) :=
  match p with
  | none => .ok GoMap.empty
  | some a =>
    match s[a]? with
    | some m => .ok m
    | none => .error .dangling

/-- What a table holds, read through its four element containers. -/
structure TableView where
  array : List LValue
  dict : GoMap LValue LValue
  strdict : GoMap String LValue
  keys : List LValue
  deriving DecidableEq, Repr

/-- The elements of table record `t` in heap `h`. -/
def LTable.view (h : Heap) (t : LTable) : Res TableView := do
  let a ← Store.slice h.values t.array
  let d ← Store.mapOf h.dicts t.dict
  let s ← Store.mapOf h.strdicts t.strdict
  let k ← Store.slice h.values t.keys
  pure ⟨a, d, s, k⟩

/-- The elements of the table a pointer denotes: `none` for a nil pointer (and for a pointer
that denotes no readable table). -/
def Heap.entries (h : Heap) (p : Option Addr) : Option TableView :=
  match p with
  | none => none
  | some a =>
    match h.tables[a]? with
    | none => none
    | some t =>
      match t.view h with
      | .ok v => some v
      | .error _ => none

/-- The Go assignment `tb.strdict[key] = value` on the table `tb` points to (assigning into a
nil map panics). -/
def LTable.setStr (h : Heap) (tb : Option Addr) (key : String) (value : LValue) : Res Heap := do
  let t ← Store.load h.tables tb
  let m ← Store.load h.strdicts t.strdict
  let ms ← Store.store h.strdicts t.strdict (m.set key value)
  pure { h with strdicts := ms }

/-- The Go index expression `tb.strdict[key]` on the table `tb` points to. -/
def LTable.getStr (h : Heap) (tb : Option Addr) (key : String) : Res (Option LValue) := do
  let t ← Store.load h.tables tb
  let m ← Store.mapOf h.strdicts t.strdict
  pure (m.get key)

/-- The pointer `l.G`. -/
def LState.getG (h : Heap) (l : Option Addr) : Res (Option Addr) := do
  let ls ← Store.load h.threads l
  pure ls.G

/-- The pointer `l.G.Registry`. -/
def LState.getRegistry (h : Heap) (l : Option Addr) : Res (Option Addr) := do
  let ls ← Store.load h.threads l
  let g ← Store.load h.globals ls.G
  pure g.Registry

/-- The pointer `l.G.Global`. -/
def LState.getGlobal (h : Heap) (l : Option Addr) : Res (Option Addr) := do
  let ls ← Store.load h.threads l
  let g ← Store.load h.globals ls.G
  pure g.Global

/-- The pointer `l.Env`. -/
def LState.getEnv (h : Heap) (l : Option Addr) : Res (Option Addr) := do
  let ls ← Store.load h.threads l
  pure ls.Env

/-- The contents of the register stack `l.reg`. -/
def LState.getRegs (h : Heap) (l : Option Addr) : Res (List LValue) := do
  let ls ← Store.load h.threads l
  let r ← Store.load h.regs ls.reg
  pure r.array

/-- A write of `v` to slot `i` of the register stack `l.reg` (out of range panics). -/
def LState.setReg (h : Heap) (l : Option Addr) (i : Nat) (v : LValue) : Res Heap := do
  let ls ← Store.load h.threads l
  let r ← Store.load h.regs ls.reg
  if i < r.array.length then
    let rs ← Store.store h.regs ls.reg { r with array := r.array.set i v }
    pure { h with regs := rs }
  else .error .outOfRange

/-! ## A thread as `NewState` leaves it

Thread 0 with its Global 0: registry table 0, variables table 1 (which is also the
thread's environment), the string metatable (table 2) among the built-in metatables, one
open temporary file, a register stack holding two values, one call frame and a cached
upvalue.  Table 3 is a further table.  Numbers stand for float64 bit patterns and are only
compared. -/

def demoHeap : Heap :=
  { tables :=
      [⟨LNil, some 0, none, some 0, some 1, none⟩,
       ⟨LNil, none, none, some 1, some 2, some 0⟩,
       ⟨LNil, none, none, some 2, none, none⟩,
       ⟨LNil, none, none, some 3, none, none⟩]
    values := [[.lnumber 7], [.lstring "r"], [.lstring "x"]]
    dicts := []
    strdicts :=
      [⟨[("r", .lnumber 1)], by decide⟩, ⟨[("x", .lnumber 2)], by decide⟩,
       ⟨[("len", .lnumber 4)], by decide⟩, ⟨[("e", .lnumber 3)], by decide⟩]
    k2is := [⟨[(.lstring "x", 0)], by decide⟩]
    functions := []
    upvalLists := []
    userdata := []
    globals := [⟨some 0, some 0, some 0, some 1, some 0, some 0, 0⟩]
    mtMaps := [⟨[(3, .table 2)], by decide⟩]
    fileLists := [[some 5]]
    threads :=
      [{ LState.zero with
          G := some 0, Env := some 1, Options := ⟨20480, 1024, true⟩, reg := some 0,
          stack := some 0, currentFrame := some 0, uvcache := some 0 }]
    regs := [⟨[.lnumber 10, .lstring "99.9"], 2, some 0⟩]
    frameStacks := [⟨[⟨none, 0, 0⟩], 1, true⟩]
    frames := [⟨none, 0, 0⟩]
    upvalues := [⟨.lnumber 9, false⟩] }

/-- The same thread after its environment was set to table 3, which is not the variables
table of its Global. -/
def demoHeapEnv : Heap :=
  { demoHeap with
    threads :=
      [{ LState.zero with
          G := some 0, Env := some 3, Options := ⟨20480, 1024, true⟩, reg := some 0,
          stack := some 0, currentFrame := some 0, uvcache := some 0 }] }

/-- Every cell allocated in `s` is still there, unchanged, in `s'`. -/
def Store.Pres {α : Type} (s s' : List α) : Prop :=
  ∀ (a : Nat) (x : α), s[a]? = some x → s'[a]? = some x

/-- Every cell of `s` at an address below `n` is still there, unchanged, in `s'`. -/
def Store.PresBelow {α : Type} (n : Nat) (s s' : List α) : Prop :=
  ∀ (a : Nat) (x : α), a < n → s[a]? = some x → s'[a]? = some x

/-- Every table of `s` is still allocated in `s'`, with the same key index. -/
def LTable.Keep (s s' : List LTable) : Prop :=
  ∀ (a : Nat) (t : LTable), s[a]? = some t → ∃ t', s'[a]? = some t' ∧ t'.k2i = t.k2i

/-- Every Global of `s` is still allocated in `s'`, with the same threads, tables and
counter. -/
def Global.Keep (s s' : List GlobalRecord) : Prop :=
  ∀ (a : Nat) (g : GlobalRecord), s[a]? = some g →
    ∃ g', s'[a]? = some g' ∧ g'.MainThread = g.MainThread ∧
      g'.CurrentThread = g.CurrentThread ∧ g'.Registry = g.Registry ∧
      g'.Global = g.Global ∧ g'.gccount = g.gccount

/-- Every thread of `s` is still allocated in `s'`, with the same fields but for `Env` and
`stack`. -/
def LState.Keep (s s' : List LState) : Prop :=
  ∀ (a : Nat) (x : LState), s[a]? = some x →
    ∃ x', s'[a]? = some x' ∧ { x' with Env := x.Env, stack := x.stack } = x

/-- Every register stack of `s` is still allocated in `s'`, with the same contents and top. -/
def registry.Keep (s s' : List registry) : Prop :=
  ∀ (a : Nat) (r : registry), s[a]? = some r →
    ∃ r', s'[a]? = some r' ∧ r'.array = r.array ∧ r'.top = r.top

/-- One stretch of a `Clone` run, from heap `h` to heap `h'`, seen from the heap `b` in
which the run started.  Nothing is freed.  Slices, element maps, key indexes, call-frame
stacks, frames and upvalues that exist are not changed.  The functions, user data, threads
and maps of built-in metatables allocated in `b` are not changed, and a table allocated in
`b` keeps its elements.  Every table keeps its key index, every Global keeps its threads,
tables and counter, every thread keeps all its fields but `Env` and `stack`, and every
register stack keeps its contents and its top. -/
structure Heap.Step (b h h' : Heap) : Prop where
  values : Store.Pres h.values h'.values
  dicts : Store.Pres h.dicts h'.dicts
  strdicts : Store.Pres h.strdicts h'.strdicts
  k2is : Store.Pres h.k2is h'.k2is
  upvalLists : Store.Pres h.upvalLists h'.upvalLists
  mtMaps : Store.PresBelow b.mtMaps.length h.mtMaps h'.mtMaps
  fileLists : Store.Pres h.fileLists h'.fileLists
  frameStacks : Store.Pres h.frameStacks h'.frameStacks
  frames : Store.Pres h.frames h'.frames
  upvalues : Store.Pres h.upvalues h'.upvalues
  functions : Store.PresBelow b.functions.length h.functions h'.functions
  userdata : Store.PresBelow b.userdata.length h.userdata h'.userdata
  threads : Store.PresBelow b.threads.length h.threads h'.threads
  tables : ∀ (a : Nat) (t : LTable), a < b.tables.length → h.tables[a]? = some t →
    ∃ t', h'.tables[a]? = some t' ∧ ∀ v, t.view h = .ok v → t'.view h' = .ok v
  tablesKeep : LTable.Keep h.tables h'.tables
  globals : Global.Keep h.globals h'.globals
  threadsKeep : LState.Keep h.threads h'.threads
  regs : registry.Keep h.regs h'.regs

/-- The effect of a whole `Clone` run from `h` to `h'` on what was allocated in `h`. -/
def Heap.Ext (h h' : Heap) : Prop := Heap.Step h h h'

/-! ## Metatable chains, well-formed heaps and further example heaps -/

/-- The variants that are plain values (nil, booleans, numbers, strings, channels), as
opposed to the variants that point to a record. -/
def LValue.isScalar : LValue → Bool
  | .lnil => true
  | .lbool _ => true
  | .lnumber _ => true
  | .lstring _ => true
  | .channel _ => true
  | _ => false

/-- The Go assignment `tb.k2i[key] = i` on the table `tb` points to (assigning into a nil
map panics). -/
def LTable.setK2i (h : Heap) (tb : Option Addr) (key : LValue) (i : Int) : Res Heap := do
  let t ← Store.load h.tables tb
  let m ← Store.load h.k2is t.k2i
  let ms ← Store.store h.k2is t.k2i (m.set key i)
  pure { h with k2is := ms }

/-- The Go index expression `tb.k2i[key]` on the table `tb` points to. -/
def LTable.getK2i (h : Heap) (tb : Option Addr) (key : LValue) : Res (Option Int) := do
  let t ← Store.load h.tables tb
  let m ← Store.mapOf h.k2is t.k2i
  pure (m.get key)

/-- The heap `demoHeap` with further objects: table 4, whose metatable is table 2; table 5,
whose metatable is table 4; table 6, whose metatable is function 0; function 0 with two
upvalue slots (one nil); user data 0 with environment table 3 and metatable table 2; user
data 1 with neither. -/
def objHeap : Heap :=
  { demoHeap with
    tables :=
      [⟨LNil, some 0, none, some 0, some 1, none⟩,
       ⟨LNil, none, none, some 1, some 2, some 0⟩,
       ⟨LNil, none, none, some 2, none, none⟩,
       ⟨LNil, none, none, some 3, none, none⟩,
       ⟨.table 2, none, none, some 4, none, none⟩,
       ⟨.table 4, some 3, none, none, none, none⟩,
       ⟨.function 0, none, none, none, none, none⟩]
    values := [[.lnumber 7], [.lstring "r"], [.lstring "x"], [.lnumber 1, .lnumber 2]]
    strdicts :=
      [⟨[("r", .lnumber 1)], by decide⟩, ⟨[("x", .lnumber 2)], by decide⟩,
       ⟨[("len", .lnumber 4)], by decide⟩, ⟨[("e", .lnumber 3)], by decide⟩,
       ⟨[("__index", .table 2)], by decide⟩]
    functions := [⟨false, some 1, some 7, none, some 0⟩]
    upvalLists := [[some 0, none]]
    userdata := [⟨some 11, some 3, .table 2⟩, ⟨some 12, none, .iface_nil⟩] }

/-- The heap without its tables and their element containers: what a `Clone` of a table
never touches. -/
def Heap.rest (h : Heap) : Heap :=
  { h with tables := [], values := [], dicts := [], strdicts := [] }

/-- Whether following `Metatable` from `v` goes through exactly `n` tables, each allocated at
an address not below `lo` and with allocated element containers, and then reaches a scalar
value (such as `LNil`).  A chain on which a table repeats never reaches a scalar, so it is a
chain of no length. -/
def LValue.isChain (lo : Nat) : Nat → Heap → LValue → Bool
  | 0, _, v => v.isScalar
  | n + 1, h, .table a =>
    decide (lo ≤ a) &&
      match h.tables[a]? with
      | some t =>
        match t.view h with
        | .ok _ => LValue.isChain lo n h t.Metatable
        | .error _ => false
      | none => false
  | _ + 1, _, _ => false

/-- The chain of `n` metatables from `r` in heap `h'` mirrors the chain from `v` in heap `h`:
both go through `n` tables, the tables of `r` are allocated at increasing addresses not below
`lo`, the `i`-th table of `r` holds the same elements as the `i`-th table of `v`, and both
chains end in the same scalar value. -/
def LValue.Mirror : Nat → Nat → Heap → Heap → LValue → LValue → Prop
  | _, 0, _, _, v, r => v.isScalar = true ∧ r = v
  | lo, n + 1, h, h', .table a, .table a' =>
    lo ≤ a' ∧ ∃ t t' w, h.tables[a]? = some t ∧ h'.tables[a']? = some t' ∧
      t.view h = .ok w ∧ t'.view h' = .ok w ∧
      LValue.Mirror (a' + 1) n h h' t.Metatable t'.Metatable
  | _, _ + 1, _, _, _, _ => False

/-- Heap `h'` is heap `h` with more tables and element containers: every table and element
container of `h` is unchanged, and so is every other store. -/
structure Heap.Grow (h h' : Heap) : Prop where
  rest : h'.rest = h.rest
  tables : Store.Pres h.tables h'.tables
  values : Store.Pres h.values h'.values
  dicts : Store.Pres h.dicts h'.dicts
  strdicts : Store.Pres h.strdicts h'.strdicts

/-- Every metatable chain of `h` is a chain of the same length in `h'`. -/
def Heap.Chains (h h' : Heap) : Prop :=
  ∀ (k : Nat) (v : LValue), LValue.isChain 0 k h v = true → LValue.isChain 0 k h' v = true

/-- Whether the metatable chain from `v` reaches a scalar value after at most `n` tables. -/
def Heap.chainWithin (n : Nat) (h : Heap) (v : LValue) : Bool :=
  (List.range (n + 1)).any (fun k => LValue.isChain 0 k h v)

/-- Whether the pointer `p` is nil or points to a table whose chain of metatables reaches a
scalar value after at most `n` metatables. -/
def Heap.tableOk (n : Nat) (h : Heap) (p : Option Addr) : Bool :=
  match p with
  | none => true
  | some a => Heap.chainWithin (n + 1) h (.table a)

/-- Whether the metatable value `v` is the nil interface or has a chain of at most `n` tables
that reaches a scalar value. -/
def Heap.mtOk (n : Nat) (h : Heap) (v : LValue) : Bool :=
  v == .iface_nil || Heap.chainWithin n h v

/-- Whether the pointer `p` is nil or points into store `s`. -/
def Store.ptrOk {α : Type} (s : List α) (p : Option Addr) : Bool :=
  match p with
  | none => true
  | some a => decide (a < s.length)

/-- A well-formed Global, for clones with budget `n`: it is allocated, its registry and its
variables table have metatable chains that reach a scalar value within `n` metatables, every
built-in metatable is the nil interface or has such a chain of at most `n` tables, and its
list of temporary files is allocated. -/
def Global.wellFormed (n : Nat) (h : Heap) (g : Addr) : Bool :=
  match h.globals[g]? with
  | none => false
  | some gr =>
    Heap.tableOk n h gr.Registry && Heap.tableOk n h gr.Global &&
      (match Store.range h.mtMaps gr.builtinMts with
        | .ok es => es.all (fun e => Heap.mtOk n h e.2)
        | .error _ => false) &&
      Store.ptrOk h.fileLists gr.tempFiles

/-- A well-formed thread, for clones with budget `n`: it is allocated, its `G` is non-nil and
a well-formed Global, its environment is nil or a table whose metatable chain reaches a
scalar value within `n` metatables, and its register stack, call-frame stack, current frame
and upvalue cache are nil or allocated. -/
def LState.wellFormed (n : Nat) (h : Heap) (l : Addr) : Bool :=
  match h.threads[l]? with
  | none => false
  | some ls =>
    (match ls.G with
      | none => false
      | some g => Global.wellFormed n h g) &&
    Heap.tableOk n h ls.Env && Store.ptrOk h.regs ls.reg &&
    Store.ptrOk h.frameStacks ls.stack && Store.ptrOk h.frames ls.currentFrame &&
    Store.ptrOk h.upvalues ls.uvcache

/-- The heap `demoHeap` after `setmetatable(_G, _G)`: the variables table (table 1), which is
also the environment of thread 0, is its own metatable. -/
def cyclicHeap : Heap :=
  { demoHeap with
    tables :=
      [⟨LNil, some 0, none, some 0, some 1, none⟩,
       ⟨.table 1, none, none, some 1, some 2, some 0⟩,
       ⟨LNil, none, none, some 2, none, none⟩,
       ⟨LNil, none, none, some 3, none, none⟩] }

/-- The pointer `l.reg.handler`: the thread the register stack of `l` refers back to. -/
def LState.getHandler (h : Heap) (l : Option Addr) : Res (Option Addr) := do
  let ls ← Store.load h.threads l
  let r ← Store.load h.regs ls.reg
  pure r.handler

/-- The heap `cyclicHeap` with user data 0, whose environment is table 1, the table that is
its own metatable. -/
def cyclicEnvHeap : Heap :=
  { cyclicHeap with userdata := [⟨some 11, some 1, LNil⟩] }

/-- The heap `objHeap` with user data 2, which has no environment and whose metatable is
function 0. -/
def fnMetaHeap : Heap :=
  { objHeap with
    userdata :=
      [⟨some 11, some 3, .table 2⟩, ⟨some 12, none, .iface_nil⟩, ⟨some 13, none, .function 0⟩] }

/-! # Theorems -/

/-! ## Stores -/

theorem Store.upd_length {α : Type} (s : List α) (a : Nat) (f : α → α) :
    (Store.upd s a f).length = s.length := by
  unfold Store.upd
  split <;> simp

theorem Store.getElem?_upd {α : Type} (s : List α) (a b : Nat) (f : α → α) :
    (Store.upd s a f)[b]? = if a = b then (s[b]?).map f else s[b]? := by
  unfold Store.upd
  split
  · rename_i x hx
    rw [List.getElem?_set]
    by_cases hab : a = b
    · subst hab
      have hlt : a < s.length := by
        rcases List.getElem?_eq_some.mp hx with ⟨hl, _⟩
        exact hl
      simp [hlt, hx]
    · simp [hab]
  · rename_i hx
    by_cases hab : a = b
    · subst hab
      simp [hx]
    · simp [hab]

theorem Store.getElem?_upd_ne {α : Type} (s : List α) {a b : Nat} (f : α → α) (hab : a ≠ b) :
    (Store.upd s a f)[b]? = s[b]? := by
  rw [Store.getElem?_upd, if_neg hab]

theorem Store.getElem?_upd_self {α : Type} (s : List α) (a : Nat) (f : α → α) :
    (Store.upd s a f)[a]? = (s[a]?).map f := by
  rw [Store.getElem?_upd, if_pos rfl]

theorem Store.load_eq_ok {α : Type} {s : List α} {p : Option Nat} {x : α} :
    Store.load s p = .ok x ↔ ∃ a, p = some a ∧ s[a]? = some x := by
  unfold Store.load
  cases p with
  | none => simp
  | some a =>
    dsimp only
    split
    · rename_i y hy
      simp [hy]
    · rename_i hy
      simp [hy]

theorem Store.store_eq_ok {α : Type} {s s' : List α} {p : Option Nat} {x : α} :
    Store.store s p x = .ok s' ↔ ∃ a y, p = some a ∧ s[a]? = some y ∧ s' = s.set a x := by
  unfold Store.store
  cases p with
  | none => simp
  | some a =>
    dsimp only
    split
    · rename_i y hy
      simp [hy]
      exact eq_comm
    · rename_i hy
      simp [hy]

theorem Store.slice_eq_ok {α : Type} {s : List (List α)} {p : Option Nat} {xs : List α} :
    Store.slice s p = .ok xs ↔ (p = none ∧ xs = []) ∨ ∃ a, p = some a ∧ s[a]? = some xs := by
  unfold Store.slice
  cases p with
  | none =>
    simp
  | some a =>
    dsimp only
    split
    · rename_i y hy
      simp [hy]
    · rename_i hy
      simp [hy]

theorem Store.mapOf_eq_ok {K V : Type} {s : List (GoMap K V)} {p : Option Nat} {m : GoMap K V} :
    Store.mapOf s p = .ok m ↔ (p = none ∧ m = GoMap.empty) ∨ ∃ a, p = some a ∧ s[a]? = some m := by
  unfold Store.mapOf
  cases p with
  | none =>
    simp
    exact eq_comm
  | some a =>
    dsimp only
    split
    · rename_i y hy
      simp [hy]
    · rename_i hy
      simp [hy]

theorem Store.range_eq_ok {K V : Type} {s : List (GoMap K V)} {p : Option Nat}
    {es : List (K × V)} :
    Store.range s p = .ok es ↔ ∃ m, Store.mapOf s p = .ok m ∧ es = m.entries := by
  unfold Store.range Store.mapOf
  cases p with
  | none =>
    simp [GoMap.empty]
  | some a =>
    dsimp only
    split
    · rename_i y hy
      simp [hy]
      exact eq_comm
    · rename_i hy
      simp [hy]

/-! ## Results -/

theorem Res.bind_eq_ok {α β : Type} {x : Res α} {f : α → Res β} {b : β} :
    (x >>= f) = .ok b ↔ ∃ a, x = .ok a ∧ f a = .ok b := by
  cases x <;> simp [bind, Except.bind]

theorem Res.pure_eq_ok {α : Type} {a b : α} : (pure a : Res α) = .ok b ↔ a = b := by
  simp [pure, Except.pure]

/-! ## Preservation of stores -/

theorem Store.lt_of_getElem? {α : Type} {s : List α} {a : Nat} {x : α} (h : s[a]? = some x) :
    a < s.length := by
  rcases List.getElem?_eq_some.mp h with ⟨hl, _⟩
  exact hl

theorem Store.Pres.pres_refl {α : Type} (s : List α) : Store.Pres s s := fun _ _ h => h

theorem Store.Pres.pres_trans {α : Type} {s1 s2 s3 : List α} (h12 : Store.Pres s1 s2)
    (h23 : Store.Pres s2 s3) : Store.Pres s1 s3 :=
  fun a x h => h23 a x (h12 a x h)

theorem Store.Pres.length_le {α : Type} {s s' : List α} (hp : Store.Pres s s') :
    s.length ≤ s'.length := by
  cases hs : s.length with
  | zero => exact Nat.zero_le _
  | succ n =>
    have hlt : n < s.length := by omega
    have h1 : s[n]? = some s[n] := List.getElem?_eq_getElem hlt
    have h2 := Store.lt_of_getElem? (hp n _ h1)
    omega

theorem Store.Pres.append {α : Type} (s l : List α) : Store.Pres s (s ++ l) := by
  intro a x h
  rw [List.getElem?_append_left (Store.lt_of_getElem? h)]
  exact h

theorem Store.Pres.append_upd {α : Type} (s l : List α) (f : α → α) :
    Store.Pres s (Store.upd (s ++ l) s.length f) := by
  intro a x h
  have hlt := Store.lt_of_getElem? h
  rw [Store.getElem?_upd_ne _ _ (by omega), List.getElem?_append_left hlt]
  exact h

theorem Store.Pres.below {α : Type} {s s' : List α} (n : Nat) (hp : Store.Pres s s') :
    Store.PresBelow n s s' := fun a x _ h => hp a x h

theorem Store.PresBelow.below_refl {α : Type} (n : Nat) (s : List α) : Store.PresBelow n s s :=
  fun _ _ _ h => h

theorem Store.PresBelow.below_trans {α : Type} {n : Nat} {s1 s2 s3 : List α}
    (h12 : Store.PresBelow n s1 s2) (h23 : Store.PresBelow n s2 s3) : Store.PresBelow n s1 s3 :=
  fun a x hn h => h23 a x hn (h12 a x hn h)

theorem Store.PresBelow.below_upd {α : Type} {n : Nat} (s : List α) {r : Nat} (f : α → α)
    (hr : n ≤ r) : Store.PresBelow n s (Store.upd s r f) := by
  intro a x hn h
  rw [Store.getElem?_upd_ne _ _ (by omega)]
  exact h

theorem Store.PresBelow.pres {α : Type} {s s' : List α}
    (hp : Store.PresBelow s.length s s') : Store.Pres s s' :=
  fun a x h => hp a x (Store.lt_of_getElem? h) h

/-! ## Reading through pointers is stable under preservation -/

theorem Store.load_mono {α : Type} {s s' : List α} (hp : Store.Pres s s') {p : Option Nat}
    {x : α} (h : Store.load s p = .ok x) : Store.load s' p = .ok x := by
  rcases Store.load_eq_ok.mp h with ⟨a, rfl, ha⟩
  exact Store.load_eq_ok.mpr ⟨a, rfl, hp a x ha⟩

theorem Store.slice_mono {α : Type} {s s' : List (List α)} (hp : Store.Pres s s')
    {p : Option Nat} {xs : List α} (h : Store.slice s p = .ok xs) :
    Store.slice s' p = .ok xs := by
  rcases Store.slice_eq_ok.mp h with ⟨rfl, rfl⟩ | ⟨a, rfl, ha⟩
  · rfl
  · exact Store.slice_eq_ok.mpr (Or.inr ⟨a, rfl, hp a xs ha⟩)

theorem Store.mapOf_mono {K V : Type} {s s' : List (GoMap K V)} (hp : Store.Pres s s')
    {p : Option Nat} {m : GoMap K V} (h : Store.mapOf s p = .ok m) :
    Store.mapOf s' p = .ok m := by
  rcases Store.mapOf_eq_ok.mp h with ⟨rfl, rfl⟩ | ⟨a, rfl, ha⟩
  · rfl
  · exact Store.mapOf_eq_ok.mpr (Or.inr ⟨a, rfl, hp a m ha⟩)

theorem LTable.view_eq_ok {h : Heap} {t : LTable} {v : TableView} :
    t.view h = .ok v ↔
      Store.slice h.values t.array = .ok v.array ∧ Store.mapOf h.dicts t.dict = .ok v.dict ∧
      Store.mapOf h.strdicts t.strdict = .ok v.strdict ∧
      Store.slice h.values t.keys = .ok v.keys := by
  unfold LTable.view
  simp only [Res.bind_eq_ok, Res.pure_eq_ok]
  constructor
  · rintro ⟨a, ha, d, hd, s, hs, k, hk, rfl⟩
    exact ⟨ha, hd, hs, hk⟩
  · rintro ⟨ha, hd, hs, hk⟩
    exact ⟨_, ha, _, hd, _, hs, _, hk, rfl⟩

theorem LTable.view_mono {h h' : Heap} (hv : Store.Pres h.values h'.values)
    (hd : Store.Pres h.dicts h'.dicts) (hs : Store.Pres h.strdicts h'.strdicts)
    {t : LTable} {v : TableView} (ht : t.view h = .ok v) : t.view h' = .ok v := by
  rw [LTable.view_eq_ok] at ht ⊢
  exact ⟨Store.slice_mono hv ht.1, Store.mapOf_mono hd ht.2.1, Store.mapOf_mono hs ht.2.2.1,
    Store.slice_mono hv ht.2.2.2⟩

/-! ## Steps of a run -/

theorem Heap.Step.step_of_pres {b h h' : Heap}
    (values : Store.Pres h.values h'.values) (dicts : Store.Pres h.dicts h'.dicts)
    (strdicts : Store.Pres h.strdicts h'.strdicts) (k2is : Store.Pres h.k2is h'.k2is)
    (upvalLists : Store.Pres h.upvalLists h'.upvalLists)
    (mtMaps : Store.PresBelow b.mtMaps.length h.mtMaps h'.mtMaps)
    (fileLists : Store.Pres h.fileLists h'.fileLists)
    (frameStacks : Store.Pres h.frameStacks h'.frameStacks)
    (frames : Store.Pres h.frames h'.frames) (upvalues : Store.Pres h.upvalues h'.upvalues)
    (functions : Store.PresBelow b.functions.length h.functions h'.functions)
    (userdata : Store.PresBelow b.userdata.length h.userdata h'.userdata)
    (threads : Store.PresBelow b.threads.length h.threads h'.threads)
    (threadsKeep : LState.Keep h.threads h'.threads)
    (tables : Store.PresBelow b.tables.length h.tables h'.tables)
    (tablesKeep : LTable.Keep h.tables h'.tables)
    (globals : Global.Keep h.globals h'.globals)
    (regs : registry.Keep h.regs h'.regs) : Heap.Step b h h' where
  values := values
  dicts := dicts
  strdicts := strdicts
  k2is := k2is
  upvalLists := upvalLists
  mtMaps := mtMaps
  fileLists := fileLists
  frameStacks := frameStacks
  frames := frames
  upvalues := upvalues
  functions := functions
  userdata := userdata
  threads := threads
  tables := fun a t ha ht => ⟨t, tables a t ha ht, fun _ hv =>
    LTable.view_mono values dicts strdicts hv⟩
  tablesKeep := tablesKeep
  globals := globals
  threadsKeep := threadsKeep
  regs := regs

theorem LTable.Keep.table_of_pres {s s' : List LTable} (hp : Store.Pres s s') : LTable.Keep s s' :=
  fun a t ht => ⟨t, hp a t ht, rfl⟩

theorem LTable.Keep.table_refl (s : List LTable) : LTable.Keep s s :=
  LTable.Keep.table_of_pres (Store.Pres.pres_refl s)

theorem LTable.Keep.table_trans {s1 s2 s3 : List LTable} (h12 : LTable.Keep s1 s2)
    (h23 : LTable.Keep s2 s3) : LTable.Keep s1 s3 := by
  intro a t ht
  obtain ⟨t2, ht2, hk2⟩ := h12 a t ht
  obtain ⟨t3, ht3, hk3⟩ := h23 a t2 ht2
  exact ⟨t3, ht3, hk3.trans hk2⟩

theorem LTable.Keep.table_upd (s : List LTable) (r : Nat) (f : LTable → LTable)
    (hf : ∀ x, (f x).k2i = x.k2i) : LTable.Keep s (Store.upd s r f) := by
  intro a t ht
  rw [Store.getElem?_upd, ht]
  by_cases hra : r = a
  · exact ⟨f t, by simp [hra], hf t⟩
  · exact ⟨t, by simp [hra], rfl⟩

theorem Global.Keep.global_of_pres {s s' : List GlobalRecord} (hp : Store.Pres s s') :
    Global.Keep s s' :=
  fun a g hg => ⟨g, hp a g hg, rfl, rfl, rfl, rfl, rfl⟩

theorem Global.Keep.global_refl (s : List GlobalRecord) : Global.Keep s s :=
  Global.Keep.global_of_pres (Store.Pres.pres_refl s)

theorem Global.Keep.global_trans {s1 s2 s3 : List GlobalRecord} (h12 : Global.Keep s1 s2)
    (h23 : Global.Keep s2 s3) : Global.Keep s1 s3 := by
  intro a g hg
  obtain ⟨g2, hg2, h21, h22, h23', h24, h25⟩ := h12 a g hg
  obtain ⟨g3, hg3, h31, h32, h33, h34, h35⟩ := h23 a g2 hg2
  exact ⟨g3, hg3, h31.trans h21, h32.trans h22, h33.trans h23', h34.trans h24, h35.trans h25⟩

theorem Global.Keep.global_upd (s : List GlobalRecord) (r : Nat) (f : GlobalRecord → GlobalRecord)
    (hf : ∀ x, (f x).MainThread = x.MainThread ∧ (f x).CurrentThread = x.CurrentThread ∧
      (f x).Registry = x.Registry ∧ (f x).Global = x.Global ∧ (f x).gccount = x.gccount) :
    Global.Keep s (Store.upd s r f) := by
  intro a g hg
  rw [Store.getElem?_upd, hg]
  by_cases hra : r = a
  · exact ⟨f g, by simp [hra], hf g⟩
  · exact ⟨g, by simp [hra], rfl, rfl, rfl, rfl, rfl⟩

theorem LState.Keep.thread_of_pres {s s' : List LState} (hp : Store.Pres s s') : LState.Keep s s' :=
  fun a x hx => ⟨x, hp a x hx, rfl⟩

theorem LState.Keep.thread_refl (s : List LState) : LState.Keep s s :=
  LState.Keep.thread_of_pres (Store.Pres.pres_refl s)

theorem LState.Keep.thread_trans {s1 s2 s3 : List LState} (h12 : LState.Keep s1 s2)
    (h23 : LState.Keep s2 s3) : LState.Keep s1 s3 := by
  intro a x hx
  obtain ⟨x2, hx2, h2⟩ := h12 a x hx
  obtain ⟨x3, hx3, h3⟩ := h23 a x2 hx2
  refine ⟨x3, hx3, ?_⟩
  rw [← h2, ← h3]

theorem LState.Keep.thread_upd (s : List LState) (r : Nat) (f : LState → LState)
    (hf : ∀ x, { f x with Env := x.Env, stack := x.stack } = x) :
    LState.Keep s (Store.upd s r f) := by
  intro a x hx
  rw [Store.getElem?_upd, hx]
  by_cases hra : r = a
  · exact ⟨f x, by simp [hra], hf x⟩
  · exact ⟨x, by simp [hra], rfl⟩

theorem registry.Keep.reg_of_pres {s s' : List registry} (hp : Store.Pres s s') :
    registry.Keep s s' :=
  fun a r hr => ⟨r, hp a r hr, rfl, rfl⟩

theorem registry.Keep.reg_refl (s : List registry) : registry.Keep s s :=
  registry.Keep.reg_of_pres (Store.Pres.pres_refl s)

theorem registry.Keep.reg_trans {s1 s2 s3 : List registry} (h12 : registry.Keep s1 s2)
    (h23 : registry.Keep s2 s3) : registry.Keep s1 s3 := by
  intro a r hr
  obtain ⟨r2, hr2, h21, h22⟩ := h12 a r hr
  obtain ⟨r3, hr3, h31, h32⟩ := h23 a r2 hr2
  exact ⟨r3, hr3, h31.trans h21, h32.trans h22⟩

theorem Heap.Step.step_refl (b h : Heap) : Heap.Step b h h :=
  Heap.Step.step_of_pres (Store.Pres.pres_refl _) (Store.Pres.pres_refl _) (Store.Pres.pres_refl _)
    (Store.Pres.pres_refl _) (Store.Pres.pres_refl _) (Store.PresBelow.below_refl _ _) (Store.Pres.pres_refl _)
    (Store.Pres.pres_refl _) (Store.Pres.pres_refl _) (Store.Pres.pres_refl _) (Store.PresBelow.below_refl _ _)
    (Store.PresBelow.below_refl _ _) (Store.PresBelow.below_refl _ _) (LState.Keep.thread_refl _)
    (Store.PresBelow.below_refl _ _) (LTable.Keep.table_refl _) (Global.Keep.global_refl _)
    (registry.Keep.reg_refl _)

theorem Heap.Step.step_trans {b h1 h2 h3 : Heap} (s12 : Heap.Step b h1 h2) (s23 : Heap.Step b h2 h3) :
    Heap.Step b h1 h3 where
  values := s12.values.pres_trans s23.values
  dicts := s12.dicts.pres_trans s23.dicts
  strdicts := s12.strdicts.pres_trans s23.strdicts
  k2is := s12.k2is.pres_trans s23.k2is
  upvalLists := s12.upvalLists.pres_trans s23.upvalLists
  mtMaps := s12.mtMaps.below_trans s23.mtMaps
  fileLists := s12.fileLists.pres_trans s23.fileLists
  frameStacks := s12.frameStacks.pres_trans s23.frameStacks
  frames := s12.frames.pres_trans s23.frames
  upvalues := s12.upvalues.pres_trans s23.upvalues
  functions := s12.functions.below_trans s23.functions
  userdata := s12.userdata.below_trans s23.userdata
  threads := s12.threads.below_trans s23.threads
  tables := by
    intro a t ha ht
    obtain ⟨t2, ht2, hv2⟩ := s12.tables a t ha ht
    obtain ⟨t3, ht3, hv3⟩ := s23.tables a t2 ha ht2
    exact ⟨t3, ht3, fun v hv => hv3 v (hv2 v hv)⟩
  tablesKeep := s12.tablesKeep.table_trans s23.tablesKeep
  globals := s12.globals.global_trans s23.globals
  threadsKeep := s12.threadsKeep.thread_trans s23.threadsKeep
  regs := s12.regs.reg_trans s23.regs

/-- A whole run seen from any earlier heap. -/
theorem Heap.Ext.toStep {h h' : Heap} (e : Heap.Ext h h') (b : Heap) : Heap.Step b h h' where
  values := e.values
  dicts := e.dicts
  strdicts := e.strdicts
  k2is := e.k2is
  upvalLists := e.upvalLists
  mtMaps := fun a x _ hx => e.mtMaps a x (Store.lt_of_getElem? hx) hx
  fileLists := e.fileLists
  frameStacks := e.frameStacks
  frames := e.frames
  upvalues := e.upvalues
  functions := fun a x _ hx => e.functions a x (Store.lt_of_getElem? hx) hx
  userdata := fun a x _ hx => e.userdata a x (Store.lt_of_getElem? hx) hx
  threads := fun a x _ hx => e.threads a x (Store.lt_of_getElem? hx) hx
  tables := fun a t _ ht => e.tables a t (Store.lt_of_getElem? ht) ht
  tablesKeep := e.tablesKeep
  globals := e.globals
  threadsKeep := e.threadsKeep
  regs := e.regs

theorem Heap.Ext.ext_refl (h : Heap) : Heap.Ext h h := Heap.Step.step_refl h h

theorem Heap.Ext.ext_trans {h1 h2 h3 : Heap} (e12 : Heap.Ext h1 h2) (e23 : Heap.Ext h2 h3) :
    Heap.Ext h1 h3 :=
  Heap.Step.step_trans e12 (e23.toStep h1)

theorem Heap.Ext.threads_pres {h h' : Heap} (e : Heap.Ext h h') :
    Store.Pres h.threads h'.threads := Store.PresBelow.pres e.threads

theorem Heap.Ext.mtMaps_pres {h h' : Heap} (e : Heap.Ext h h') :
    Store.Pres h.mtMaps h'.mtMaps := Store.PresBelow.pres e.mtMaps

theorem Heap.Ext.functions_pres {h h' : Heap} (e : Heap.Ext h h') :
    Store.Pres h.functions h'.functions := Store.PresBelow.pres e.functions

theorem Heap.Ext.userdata_pres {h h' : Heap} (e : Heap.Ext h h') :
    Store.Pres h.userdata h'.userdata := Store.PresBelow.pres e.userdata

theorem Heap.Ext.table {h h' : Heap} (e : Heap.Ext h h') {a : Nat} {t : LTable}
    (ht : h.tables[a]? = some t) :
    ∃ t', h'.tables[a]? = some t' ∧ t'.k2i = t.k2i ∧
      ∀ v, t.view h = .ok v → t'.view h' = .ok v := by
  obtain ⟨t1, ht1, hv1⟩ := e.tables a t (Store.lt_of_getElem? ht) ht
  obtain ⟨t2, ht2, hk2⟩ := e.tablesKeep a t ht
  rw [ht1] at ht2
  cases ht2
  exact ⟨t1, ht1, hk2, hv1⟩

theorem Heap.Ext.global {h h' : Heap} (e : Heap.Ext h h') {a : Nat} {g : GlobalRecord}
    (hg : h.globals[a]? = some g) :
    ∃ g', h'.globals[a]? = some g' ∧ g'.MainThread = g.MainThread ∧
      g'.CurrentThread = g.CurrentThread ∧ g'.Registry = g.Registry ∧
      g'.Global = g.Global ∧ g'.gccount = g.gccount :=
  e.globals a g hg

/-! ## More on stores -/

theorem Store.upd_upd {α : Type} (s : List α) (a : Nat) (f g : α → α) :
    Store.upd (Store.upd s a f) a g = Store.upd s a (fun x => g (f x)) := by
  apply List.ext_getElem?
  intro n
  simp only [Store.getElem?_upd]
  by_cases han : a = n
  · simp [han]
    rfl
  · simp [han]

theorem Store.upd_append_new {α : Type} (s : List α) (z : α) (f : α → α) :
    Store.upd (s ++ [z]) s.length f = s ++ [f z] := by
  apply List.ext_getElem?
  intro n
  simp only [Store.getElem?_upd]
  by_cases han : s.length = n
  · subst han
    simp
  · simp only [han, if_false]
    rcases Nat.lt_or_gt_of_ne han with hlt | hgt
    · rw [List.getElem?_append_right (by omega), List.getElem?_append_right (by omega)]
      have : n - s.length ≠ 0 := by omega
      cases hk : n - s.length with
      | zero => omega
      | succ k => simp
    · rw [List.getElem?_append_left hgt, List.getElem?_append_left hgt]

theorem Store.upd_of_lt_append {α : Type} (s l : List α) {a : Nat} (f : α → α)
    (ha : a < s.length) : Store.upd (s ++ l) a f = Store.upd s a f ++ l := by
  apply List.ext_getElem?
  intro n
  by_cases hn : n < s.length
  · rw [List.getElem?_append_left (by rw [Store.upd_length]; exact hn)]
    simp only [Store.getElem?_upd]
    rw [List.getElem?_append_left hn]
  · have hn' : s.length ≤ n := by omega
    rw [List.getElem?_append_right (by rw [Store.upd_length]; exact hn'),
      Store.getElem?_upd_ne _ _ (by omega), List.getElem?_append_right hn', Store.upd_length]

theorem copySlice_replicate {α : Type} (z : α) (xs : List α) :
    copySlice (List.replicate xs.length z) xs = xs := by
  simp [copySlice]

/-! ## Go maps -/

theorem GoMap.ext {K V : Type} {m m' : GoMap K V} (h : m.entries = m'.entries) : m = m' := by
  cases m
  cases m'
  cases h
  rfl

theorem GoMap.foldl_set_entries {K V : Type} [DecidableEq K] (es : List (K × V))
    (acc : GoMap K V) (hn : ((acc.entries ++ es).map Prod.fst).Nodup) :
    (es.foldl (fun m e => m.set e.1 e.2) acc).entries = acc.entries ++ es := by
  induction es generalizing acc with
  | nil => simp
  | cons e rest ih =>
    have hk : ∀ p ∈ acc.entries, p.1 ≠ e.1 := by
      intro p hp heq
      rw [List.map_append, List.nodup_append] at hn
      exact hn.2.2 (List.mem_map_of_mem _ hp) (by simp [heq])
    have hset : (acc.set e.1 e.2).entries = acc.entries ++ [e] := by
      simp only [GoMap.set]
      rw [List.filter_eq_self.mpr]
      intro p hp
      simpa using hk p hp
    rw [List.foldl_cons, ih]
    · rw [hset]
      simp
    · rw [hset]
      simpa using hn

theorem GoMap.foldl_set_empty {K V : Type} [DecidableEq K] (m : GoMap K V) :
    m.entries.foldl (fun acc e => acc.set e.1 e.2) GoMap.empty = m := by
  apply GoMap.ext
  rw [GoMap.foldl_set_entries]
  · simp [GoMap.empty]
  · simpa [GoMap.empty] using m.nodup

theorem Store.upd_id {α : Type} (s : List α) (a : Nat) : Store.upd s a (fun x => x) = s := by
  apply List.ext_getElem?
  intro n
  simp only [Store.getElem?_upd]
  by_cases han : a = n
  · simp [han]
  · simp [han]

theorem Heap.foldl_dictSet (es : List (LValue × LValue)) (d : Nat) (h : Heap) :
    es.foldl (fun h e => h.dictSet d e.1 e.2) h =
      { h with dicts := Store.upd h.dicts d (fun m => es.foldl (fun m e => m.set e.1 e.2) m) } := by
  induction es generalizing h with
  | nil => simp [Store.upd_id]
  | cons e rest ih =>
    rw [List.foldl_cons, ih]
    simp [Heap.dictSet, Store.upd_upd]

theorem Heap.foldl_strdictSet (es : List (String × LValue)) (d : Nat) (h : Heap) :
    es.foldl (fun h e => h.strdictSet d e.1 e.2) h =
      { h with
        strdicts := Store.upd h.strdicts d (fun m => es.foldl (fun m e => m.set e.1 e.2) m) } := by
  induction es generalizing h with
  | nil => simp [Store.upd_id]
  | cons e rest ih =>
    rw [List.foldl_cons, ih]
    simp [Heap.strdictSet, Store.upd_upd]

/-! ## LTable.Clone, statement by statement -/

theorem LTable.table_copyRecord_step {b h h1 : Heap} {tb r : Nat}
    (hc : LTable.copyRecord h tb = .ok (r, h1)) :
    r = h.tables.length ∧ Heap.Step b h h1 ∧
      ∃ t, (h.tables ++ [LTable.zero])[tb]? = some t ∧
        h1 = { h with tables := h.tables ++ [t] } := by
  simp only [LTable.copyRecord, Res.bind_eq_ok, Res.pure_eq_ok, Store.load_eq_ok,
    Prod.mk.injEq] at hc
  obtain ⟨t, ⟨a, ha, ht⟩, rfl, rfl⟩ := hc
  cases ha
  refine ⟨rfl, ?_, t, ht, by simp [Store.upd_append_new]⟩
  apply Heap.Step.step_of_pres <;>
    first
      | exact Store.Pres.pres_refl _
      | exact Store.PresBelow.below_refl _ _
      | exact LState.Keep.thread_refl _
      | exact Global.Keep.global_refl _
      | exact registry.Keep.reg_refl _
      | exact (Store.Pres.append_upd _ _ _).below _
      | exact LTable.Keep.table_of_pres (Store.Pres.append_upd _ _ _)

theorem LTable.table_cloneMetatable_step {cl : Heap → LValue → Res (LValue × Heap)}
    (hcl : ∀ h v r h', cl h v = .ok (r, h') → Heap.Ext h h')
    {b h h1 : Heap} {result tb : Nat} (hb : b.tables.length ≤ result)
    (hc : LTable.cloneMetatable cl h result tb = .ok h1) : Heap.Step b h h1 := by
  simp only [LTable.cloneMetatable, Res.bind_eq_ok, Res.pure_eq_ok, Prod.exists] at hc
  obtain ⟨t, _, mt, h3, hm, rfl⟩ := hc
  refine ((hcl _ _ _ _ hm).toStep b).step_trans ?_
  apply Heap.Step.step_of_pres <;>
    first
      | exact Store.Pres.pres_refl _
      | exact Store.PresBelow.below_refl _ _
      | exact LState.Keep.thread_refl _
      | exact Global.Keep.global_refl _
      | exact registry.Keep.reg_refl _
      | exact Store.PresBelow.below_upd _ _ hb
      | exact LTable.Keep.table_refl _
      | exact LTable.Keep.table_upd _ _ _ (fun _ => rfl)

theorem LTable.cloneArray_step {b h h1 : Heap} {result tb : Nat} (hb : b.tables.length ≤ result)
    (hc : LTable.cloneArray h result tb = .ok h1) : Heap.Step b h h1 := by
  simp only [LTable.cloneArray, Heap.makeValues, Heap.copyValues, Res.bind_eq_ok,
    Res.pure_eq_ok] at hc
  obtain ⟨t, _, xs, _, t2, _, ys, _, rfl⟩ := hc
  apply Heap.Step.step_of_pres <;>
    first
      | exact Store.Pres.pres_refl _
      | exact Store.PresBelow.below_refl _ _
      | exact LState.Keep.thread_refl _
      | exact Global.Keep.global_refl _
      | exact registry.Keep.reg_refl _
      | exact Store.PresBelow.below_upd _ _ hb
      | exact LTable.Keep.table_refl _
      | exact LTable.Keep.table_upd _ _ _ (fun _ => rfl)
      | exact Store.Pres.append_upd _ _ _

theorem LTable.cloneKeys_step {b h h1 : Heap} {result tb : Nat} (hb : b.tables.length ≤ result)
    (hc : LTable.cloneKeys h result tb = .ok h1) : Heap.Step b h h1 := by
  simp only [LTable.cloneKeys, Heap.makeValues, Heap.copyValues, Res.bind_eq_ok,
    Res.pure_eq_ok] at hc
  obtain ⟨t, _, xs, _, t2, _, ys, _, rfl⟩ := hc
  apply Heap.Step.step_of_pres <;>
    first
      | exact Store.Pres.pres_refl _
      | exact Store.PresBelow.below_refl _ _
      | exact LState.Keep.thread_refl _
      | exact Global.Keep.global_refl _
      | exact registry.Keep.reg_refl _
      | exact Store.PresBelow.below_upd _ _ hb
      | exact LTable.Keep.table_refl _
      | exact LTable.Keep.table_upd _ _ _ (fun _ => rfl)
      | exact Store.Pres.append_upd _ _ _

theorem LTable.cloneDict_step {b h h1 : Heap} {result tb : Nat} (hb : b.tables.length ≤ result)
    (hc : LTable.cloneDict h result tb = .ok h1) : Heap.Step b h h1 := by
  simp only [LTable.cloneDict, Heap.makeDict, Res.bind_eq_ok, Res.pure_eq_ok,
    Heap.foldl_dictSet] at hc
  obtain ⟨t, _, es, _, rfl⟩ := hc
  apply Heap.Step.step_of_pres <;>
    first
      | exact Store.Pres.pres_refl _
      | exact Store.PresBelow.below_refl _ _
      | exact LState.Keep.thread_refl _
      | exact Global.Keep.global_refl _
      | exact registry.Keep.reg_refl _
      | exact Store.PresBelow.below_upd _ _ hb
      | exact LTable.Keep.table_refl _
      | exact LTable.Keep.table_upd _ _ _ (fun _ => rfl)
      | exact Store.Pres.append_upd _ _ _

theorem LTable.cloneStrdict_step {b h h1 : Heap} {result tb : Nat}
    (hb : b.tables.length ≤ result)
    (hc : LTable.cloneStrdict h result tb = .ok h1) : Heap.Step b h h1 := by
  simp only [LTable.cloneStrdict, Heap.makeStrDict, Res.bind_eq_ok, Res.pure_eq_ok,
    Heap.foldl_strdictSet] at hc
  obtain ⟨t, _, es, _, rfl⟩ := hc
  apply Heap.Step.step_of_pres <;>
    first
      | exact Store.Pres.pres_refl _
      | exact Store.PresBelow.below_refl _ _
      | exact LState.Keep.thread_refl _
      | exact Global.Keep.global_refl _
      | exact registry.Keep.reg_refl _
      | exact Store.PresBelow.below_upd _ _ hb
      | exact LTable.Keep.table_refl _
      | exact LTable.Keep.table_upd _ _ _ (fun _ => rfl)
      | exact Store.Pres.append_upd _ _ _

theorem LTable.table_Clone_ext {cl : Heap → LValue → Res (LValue × Heap)}
    (hcl : ∀ h v r h', cl h v = .ok (r, h') → Heap.Ext h h')
    {h h1 : Heap} {tb : Nat} {c : LValue} (hc : LTable.Clone cl h tb = .ok (c, h1)) :
    c = .table h.tables.length ∧ Heap.Ext h h1 := by
  simp only [LTable.Clone, Res.bind_eq_ok, Res.pure_eq_ok, Prod.exists, Prod.mk.injEq] at hc
  obtain ⟨r, h2, h0, h3, h4, h5, h6, h7, h8, h9, h10, h11, h12, rfl, rfl⟩ := hc
  obtain ⟨hr, s1, _⟩ := LTable.table_copyRecord_step (b := h) h0
  subst hr
  exact ⟨rfl, s1.step_trans ((LTable.table_cloneMetatable_step hcl (Nat.le_refl _) h4).step_trans
    ((LTable.cloneArray_step (Nat.le_refl _) h6).step_trans
      ((LTable.cloneDict_step (Nat.le_refl _) h8).step_trans
        ((LTable.cloneStrdict_step (Nat.le_refl _) h10).step_trans
          (LTable.cloneKeys_step (Nat.le_refl _) h12)))))⟩

/-! ### What the statements write, on a table whose containers are allocated -/

theorem Store.load_upd_ne {α : Type} {s : List α} {a r : Nat} {x : α} (f : α → α)
    (hne : a ≠ r) (hx : s[a]? = some x) : Store.load (Store.upd s r f) (some a) = .ok x :=
  Store.load_eq_ok.mpr ⟨a, rfl, by rw [Store.getElem?_upd_ne _ _ (Ne.symm hne)]; exact hx⟩

theorem LTable.copyRecord_ok {h : Heap} {tb : Nat} {t : LTable} (ht : h.tables[tb]? = some t) :
    LTable.copyRecord h tb = .ok (h.tables.length, { h with tables := h.tables ++ [t] }) := by
  have h1 : Store.load (h.tables ++ [LTable.zero]) (some tb) = .ok t :=
    Store.load_mono (Store.Pres.append _ _) (Store.load_eq_ok.mpr ⟨tb, rfl, ht⟩)
  simp [LTable.copyRecord, h1, bind, Except.bind, pure, Except.pure, Store.upd_append_new]

theorem LTable.cloneMetatable_ok (cl : Heap → LValue → Res (LValue × Heap)) (h : Heap)
    (result tb : Nat) {h3 : Heap} {t : LTable} {mt : LValue} (ht : h.tables[tb]? = some t)
    (hm : cl h t.Metatable = .ok (mt, h3)) :
    LTable.cloneMetatable cl h result tb =
      .ok { h3 with tables := Store.upd h3.tables result (fun r => { r with Metatable := mt }) } := by
  have h1 : Store.load h.tables (some tb) = .ok t := Store.load_eq_ok.mpr ⟨tb, rfl, ht⟩
  simp [LTable.cloneMetatable, h1, hm, bind, Except.bind, pure, Except.pure]

theorem LTable.cloneArray_ok (h : Heap) (result tb : Nat) {t : LTable} {xs : List LValue}
    (hne : tb ≠ result) (ht : h.tables[tb]? = some t)
    (hxs : Store.slice h.values t.array = .ok xs) :
    LTable.cloneArray h result tb =
      .ok { h with
        tables := Store.upd h.tables result (fun r => { r with array := some h.values.length })
        values := h.values ++ [xs] } := by
  have h1 : Store.load h.tables (some tb) = .ok t := Store.load_eq_ok.mpr ⟨tb, rfl, ht⟩
  have h2 := Store.load_upd_ne (fun r => { r with array := some h.values.length }) hne ht
  have h3 := Store.slice_mono
    (Store.Pres.append h.values [List.replicate xs.length LValue.iface_nil]) hxs
  simp [LTable.cloneArray, Heap.makeValues, Heap.copyValues, h1, h2, h3, hxs, bind, Except.bind,
    pure, Except.pure, Store.upd_append_new, copySlice_replicate]

theorem LTable.cloneKeys_ok (h : Heap) (result tb : Nat) {t : LTable} {xs : List LValue}
    (hne : tb ≠ result) (ht : h.tables[tb]? = some t)
    (hxs : Store.slice h.values t.keys = .ok xs) :
    LTable.cloneKeys h result tb =
      .ok { h with
        tables := Store.upd h.tables result (fun r => { r with keys := some h.values.length })
        values := h.values ++ [xs] } := by
  have h1 : Store.load h.tables (some tb) = .ok t := Store.load_eq_ok.mpr ⟨tb, rfl, ht⟩
  have h2 := Store.load_upd_ne (fun r => { r with keys := some h.values.length }) hne ht
  have h3 := Store.slice_mono
    (Store.Pres.append h.values [List.replicate xs.length LValue.iface_nil]) hxs
  simp [LTable.cloneKeys, Heap.makeValues, Heap.copyValues, h1, h2, h3, hxs, bind, Except.bind,
    pure, Except.pure, Store.upd_append_new, copySlice_replicate]

theorem LTable.cloneDict_ok (h : Heap) (result tb : Nat) {t : LTable}
    {m : GoMap LValue LValue} (hne : tb ≠ result) (ht : h.tables[tb]? = some t)
    (hm : Store.mapOf h.dicts t.dict = .ok m) :
    LTable.cloneDict h result tb =
      .ok { h with
        tables := Store.upd h.tables result (fun r => { r with dict := some h.dicts.length })
        dicts := h.dicts ++ [m] } := by
  have h2 := Store.load_upd_ne (fun r => { r with dict := some h.dicts.length }) hne ht
  have h3 : Store.range (h.dicts ++ [GoMap.empty]) t.dict = .ok m.entries :=
    Store.range_eq_ok.mpr ⟨m, Store.mapOf_mono (Store.Pres.append _ _) hm, rfl⟩
  simp [LTable.cloneDict, Heap.makeDict, h2, h3, bind, Except.bind, pure, Except.pure,
    Heap.foldl_dictSet, Store.upd_append_new, GoMap.foldl_set_empty]

theorem LTable.cloneStrdict_ok (h : Heap) (result tb : Nat) {t : LTable}
    {m : GoMap String LValue} (hne : tb ≠ result) (ht : h.tables[tb]? = some t)
    (hm : Store.mapOf h.strdicts t.strdict = .ok m) :
    LTable.cloneStrdict h result tb =
      .ok { h with
        tables := Store.upd h.tables result (fun r => { r with strdict := some h.strdicts.length })
        strdicts := h.strdicts ++ [m] } := by
  have h2 := Store.load_upd_ne (fun r => { r with strdict := some h.strdicts.length }) hne ht
  have h3 : Store.range (h.strdicts ++ [GoMap.empty]) t.strdict = .ok m.entries :=
    Store.range_eq_ok.mpr ⟨m, Store.mapOf_mono (Store.Pres.append _ _) hm, rfl⟩
  simp [LTable.cloneStrdict, Heap.makeStrDict, h2, h3, bind, Except.bind, pure, Except.pure,
    Heap.foldl_strdictSet, Store.upd_append_new, GoMap.foldl_set_empty]

theorem LTable.Clone_ok {cl : Heap → LValue → Res (LValue × Heap)} {h h3 : Heap} {tb : Nat}
    {t t3 : LTable} {mt : LValue} {v : TableView} (ht : h.tables[tb]? = some t)
    (hm : cl { h with tables := h.tables ++ [t] } t.Metatable = .ok (mt, h3))
    (ht3 : h3.tables[tb]? = some t3) (hv3 : t3.view h3 = .ok v) :
    LTable.Clone cl h tb = .ok (.table h.tables.length,
      { h3 with
        tables := Store.upd h3.tables h.tables.length (fun r =>
          { Metatable := mt, array := some h3.values.length, dict := some h3.dicts.length,
            strdict := some h3.strdicts.length, keys := some (h3.values.length + 1),
            k2i := r.k2i })
        values := h3.values ++ [v.array, v.keys]
        dicts := h3.dicts ++ [v.dict]
        strdicts := h3.strdicts ++ [v.strdict] }) := by
  have hne : tb ≠ h.tables.length := Nat.ne_of_lt (Store.lt_of_getElem? ht)
  have hup : ∀ f : LTable → LTable, (Store.upd h3.tables h.tables.length f)[tb]? = some t3 := by
    intro f
    rw [Store.getElem?_upd_ne _ _ (Ne.symm hne)]
    exact ht3
  rw [LTable.view_eq_ok] at hv3
  obtain ⟨ha, hd, hs, hk⟩ := hv3
  have e1 := LTable.copyRecord_ok ht
  have e2 := LTable.cloneMetatable_ok cl { h with tables := h.tables ++ [t] } h.tables.length tb
    (Store.Pres.append _ _ _ _ ht) hm
  have e3 := LTable.cloneArray_ok
    { h3 with tables := Store.upd h3.tables h.tables.length (fun r => { r with Metatable := mt }) }
    h.tables.length tb hne (hup _) ha
  simp only [Store.upd_upd] at e3
  have e4 := LTable.cloneDict_ok
    { h3 with
      tables := Store.upd h3.tables h.tables.length (fun r =>
        { Metatable := mt, array := some h3.values.length, dict := r.dict, strdict := r.strdict,
          keys := r.keys, k2i := r.k2i })
      values := h3.values ++ [v.array] }
    h.tables.length tb hne (hup _) hd
  simp only [Store.upd_upd] at e4
  have e5 := LTable.cloneStrdict_ok
    { h3 with
      tables := Store.upd h3.tables h.tables.length (fun r =>
        { Metatable := mt, array := some h3.values.length, dict := some h3.dicts.length,
          strdict := r.strdict, keys := r.keys, k2i := r.k2i })
      values := h3.values ++ [v.array]
      dicts := h3.dicts ++ [v.dict] }
    h.tables.length tb hne (hup _) hs
  simp only [Store.upd_upd] at e5
  have e6 := LTable.cloneKeys_ok
    { h3 with
      tables := Store.upd h3.tables h.tables.length (fun r =>
        { Metatable := mt, array := some h3.values.length, dict := some h3.dicts.length,
          strdict := some h3.strdicts.length, keys := r.keys, k2i := r.k2i })
      values := h3.values ++ [v.array]
      dicts := h3.dicts ++ [v.dict]
      strdicts := h3.strdicts ++ [v.strdict] }
    h.tables.length tb hne (hup _) (Store.slice_mono (Store.Pres.append _ [v.array]) hk)
  simp only [Store.upd_upd, List.length_append, List.length_singleton, List.append_assoc,
    List.singleton_append] at e6
  simp only [LTable.Clone, e1, e2, e3, e4, e5, e6, bind, Except.bind, pure, Except.pure]

theorem LTable.table_Clone_spec {cl : Heap → LValue → Res (LValue × Heap)}
    (hcl : ∀ h v r h', cl h v = .ok (r, h') → Heap.Ext h h')
    {h h1 : Heap} {tb : Nat} {c : LValue} {t : LTable}
    (hc : LTable.Clone cl h tb = .ok (c, h1)) (ht : h.tables[tb]? = some t) :
    ∃ c1, h1.tables[h.tables.length]? = some c1 ∧ c1.k2i = t.k2i ∧
      ∀ v, t.view h = .ok v → c1.view h1 = .ok v := by
  have hc0 := hc
  simp only [LTable.Clone, Res.bind_eq_ok, Res.pure_eq_ok, Prod.exists, Prod.mk.injEq] at hc0
  obtain ⟨r, h2, h0, h3', h4, h5, h6, h7, h8, h9, h10, h11, h12, -, rfl⟩ := hc0
  rw [LTable.copyRecord_ok ht] at h0
  cases h0
  have hk : LTable.Keep (h.tables ++ [t]) h11.tables :=
    Heap.Step.tablesKeep ((LTable.table_cloneMetatable_step hcl (Nat.le_refl _) h4).step_trans
      ((LTable.cloneArray_step (Nat.le_refl _) h6).step_trans
        ((LTable.cloneDict_step (Nat.le_refl _) h8).step_trans
          ((LTable.cloneStrdict_step (Nat.le_refl _) h10).step_trans
            (LTable.cloneKeys_step (b := h) (Nat.le_refl _) h12)))))
  obtain ⟨c1, hc1, hk1⟩ := hk h.tables.length t (List.getElem?_concat_length _ _)
  refine ⟨c1, hc1, hk1, ?_⟩
  intro v hv
  simp only [LTable.cloneMetatable, Res.bind_eq_ok, Res.pure_eq_ok, Prod.exists,
    Store.load_eq_ok] at h4
  obtain ⟨t2, ⟨a, ha, ht2⟩, mt, h3, hm, -⟩ := h4
  cases ha
  have ht' : (h.tables ++ [t])[tb]? = some t := Store.Pres.append _ _ _ _ ht
  rw [ht'] at ht2
  cases ht2
  have he := hcl _ _ _ _ hm
  obtain ⟨t3, ht3, -, hv3⟩ := he.table ht'
  have hv3' := hv3 v (LTable.view_mono (Store.Pres.pres_refl _) (Store.Pres.pres_refl _)
    (Store.Pres.pres_refl _) hv)
  obtain ⟨r3, hr3, -⟩ := he.tablesKeep h.tables.length t (List.getElem?_concat_length _ _)
  have hok := LTable.Clone_ok ht hm ht3 hv3'
  rw [hc] at hok
  simp only [Except.ok.injEq, Prod.mk.injEq] at hok
  obtain ⟨-, rfl⟩ := hok
  simp only [Store.getElem?_upd_self, hr3, Option.map_some', Option.some.injEq] at hc1
  subst hc1
  rw [LTable.view_eq_ok]
  simp [Store.slice, Store.mapOf]
  constructor <;> simp [List.getElem_append_right]

/-! ## LFunction.Clone -/

theorem LFunction.function_copyRecord_step {b h h1 : Heap} {fn r : Nat}
    (hc : LFunction.copyRecord h fn = .ok (r, h1)) :
    r = h.functions.length ∧ Heap.Step b h h1 := by
  simp only [LFunction.copyRecord, Res.bind_eq_ok, Res.pure_eq_ok, Prod.mk.injEq] at hc
  obtain ⟨f, _, rfl, rfl⟩ := hc
  refine ⟨rfl, ?_⟩
  apply Heap.Step.step_of_pres <;>
    first
      | exact Store.Pres.pres_refl _
      | exact Store.PresBelow.below_refl _ _
      | exact LState.Keep.thread_refl _
      | exact Global.Keep.global_refl _
      | exact registry.Keep.reg_refl _
      | exact LTable.Keep.table_refl _
      | exact (Store.Pres.append_upd _ _ _).below _

theorem LFunction.cloneUpvalues_step {b h h1 : Heap} {result fn : Nat}
    (hb : b.functions.length ≤ result)
    (hc : LFunction.cloneUpvalues h result fn = .ok h1) : Heap.Step b h h1 := by
  simp only [LFunction.cloneUpvalues, Heap.makeUpvalList, Heap.copyUpvalList, Res.bind_eq_ok,
    Res.pure_eq_ok] at hc
  obtain ⟨f, _, us, _, f2, _, ys, _, rfl⟩ := hc
  apply Heap.Step.step_of_pres <;>
    first
      | exact Store.Pres.pres_refl _
      | exact Store.PresBelow.below_refl _ _
      | exact LState.Keep.thread_refl _
      | exact Global.Keep.global_refl _
      | exact registry.Keep.reg_refl _
      | exact LTable.Keep.table_refl _
      | exact Store.PresBelow.below_upd _ _ hb
      | exact Store.Pres.append_upd _ _ _

theorem LFunction.function_Clone_ext {h h1 : Heap} {fn : Nat} {c : LValue}
    (hc : LFunction.Clone h fn = .ok (c, h1)) :
    c = .function h.functions.length ∧ Heap.Ext h h1 := by
  simp only [LFunction.Clone, Res.bind_eq_ok, Res.pure_eq_ok, Prod.exists, Prod.mk.injEq] at hc
  obtain ⟨r, h2, h0, h3, h4, rfl, rfl⟩ := hc
  obtain ⟨hr, s1⟩ := LFunction.function_copyRecord_step (b := h) h0
  subst hr
  exact ⟨rfl, s1.step_trans (LFunction.cloneUpvalues_step (Nat.le_refl _) h4)⟩

/-! ## LUserData.Clone -/

theorem LUserData.userdata_copyRecord_step {b h h1 : Heap} {ud r : Nat}
    (hc : LUserData.copyRecord h ud = .ok (r, h1)) :
    r = h.userdata.length ∧ Heap.Step b h h1 := by
  simp only [LUserData.copyRecord, Res.bind_eq_ok, Res.pure_eq_ok, Prod.mk.injEq] at hc
  obtain ⟨f, _, rfl, rfl⟩ := hc
  refine ⟨rfl, ?_⟩
  apply Heap.Step.step_of_pres <;>
    first
      | exact Store.Pres.pres_refl _
      | exact Store.PresBelow.below_refl _ _
      | exact LState.Keep.thread_refl _
      | exact Global.Keep.global_refl _
      | exact registry.Keep.reg_refl _
      | exact LTable.Keep.table_refl _
      | exact (Store.Pres.append_upd _ _ _).below _

theorem Heap.Step.upd_userdata (b h : Heap) {r : Nat} (f : LUserData → LUserData)
    (hb : b.userdata.length ≤ r) :
    Heap.Step b h { h with userdata := Store.upd h.userdata r f } := by
  apply Heap.Step.step_of_pres <;>
    first
      | exact Store.Pres.pres_refl _
      | exact Store.PresBelow.below_refl _ _
      | exact LState.Keep.thread_refl _
      | exact Global.Keep.global_refl _
      | exact registry.Keep.reg_refl _
      | exact LTable.Keep.table_refl _
      | exact Store.PresBelow.below_upd _ _ hb

theorem LUserData.userdata_cloneEnv_step {cl : Heap → LValue → Res (LValue × Heap)}
    (hcl : ∀ h v r h', cl h v = .ok (r, h') → Heap.Ext h h')
    {b h h1 : Heap} {result ud : Nat} (hb : b.userdata.length ≤ result)
    (hc : LUserData.cloneEnv cl h result ud = .ok h1) : Heap.Step b h h1 := by
  simp only [LUserData.cloneEnv, Res.bind_eq_ok] at hc
  obtain ⟨u, _, hc⟩ := hc
  split at hc
  · cases hc
    exact Heap.Step.step_refl _ _
  · simp only [Res.bind_eq_ok, Res.pure_eq_ok, Prod.exists] at hc
    obtain ⟨c, h2, hcl2, p, _, rfl⟩ := hc
    exact ((LTable.table_Clone_ext hcl hcl2).2.toStep b).step_trans (Heap.Step.upd_userdata _ _ _ hb)

theorem LUserData.userdata_cloneMetatable_step {cl : Heap → LValue → Res (LValue × Heap)}
    (hcl : ∀ h v r h', cl h v = .ok (r, h') → Heap.Ext h h')
    {b h h1 : Heap} {result ud : Nat} (hb : b.userdata.length ≤ result)
    (hc : LUserData.cloneMetatable cl h result ud = .ok h1) : Heap.Step b h h1 := by
  simp only [LUserData.cloneMetatable, Res.bind_eq_ok] at hc
  obtain ⟨u, _, hc⟩ := hc
  split at hc
  · cases hc
    exact Heap.Step.step_refl _ _
  · simp only [Res.bind_eq_ok, Res.pure_eq_ok, Prod.exists] at hc
    obtain ⟨c, h2, hcl2, rfl⟩ := hc
    exact ((hcl _ _ _ _ hcl2).toStep b).step_trans (Heap.Step.upd_userdata _ _ _ hb)

theorem LUserData.userdata_Clone_ext {cl : Heap → LValue → Res (LValue × Heap)}
    (hcl : ∀ h v r h', cl h v = .ok (r, h') → Heap.Ext h h')
    {h h1 : Heap} {ud : Nat} {c : LValue} (hc : LUserData.Clone cl h ud = .ok (c, h1)) :
    c = .userdata h.userdata.length ∧ Heap.Ext h h1 := by
  simp only [LUserData.Clone, Res.bind_eq_ok, Res.pure_eq_ok, Prod.exists, Prod.mk.injEq] at hc
  obtain ⟨r, h2, h0, h3, h4, h5, h6, rfl, rfl⟩ := hc
  obtain ⟨hr, s1⟩ := LUserData.userdata_copyRecord_step (b := h) h0
  subst hr
  exact ⟨rfl, s1.step_trans ((LUserData.userdata_cloneEnv_step hcl (Nat.le_refl _) h4).step_trans
    (LUserData.userdata_cloneMetatable_step hcl (Nat.le_refl _) h6))⟩

/-! ## Overwriting a table with its own clone -/

theorem LValue.toTable_eq_ok {c : LValue} {p : Nat} : c.toTable = .ok p ↔ c = .table p := by
  cases c <;> simp [LValue.toTable]

theorem LValue.toThread_eq_ok {c : LValue} {p : Nat} : c.toThread = .ok p ↔ c = .thread p := by
  cases c <;> simp [LValue.toThread]

/-- The assignment `*p = *q.Clone().(*LTable)` with `p = q`: the table at `q` gets new
containers and a cloned metatable, and keeps its elements. -/
theorem Heap.Ext.clone_in_place {cl : Heap → LValue → Res (LValue × Heap)}
    (hcl : ∀ h v r h', cl h v = .ok (r, h') → Heap.Ext h h')
    {h h2 : Heap} {rt p : Nat} {c : LValue} {t : LTable} {ts : List LTable}
    (hc : LTable.Clone cl h rt = .ok (c, h2)) (hp : c.toTable = .ok p)
    (ht : Store.load h2.tables (some p) = .ok t)
    (hs : Store.store h2.tables (some rt) t = .ok ts) :
    Heap.Ext h { h2 with tables := ts } := by
  obtain ⟨hc1, e⟩ := LTable.table_Clone_ext hcl hc
  subst hc1
  cases LValue.toTable_eq_ok.mp hp
  obtain ⟨a, ha, ht⟩ := Store.load_eq_ok.mp ht
  cases ha
  obtain ⟨a, y, ha, hy, rfl⟩ := Store.store_eq_ok.mp hs
  cases ha
  have hlt := Store.lt_of_getElem? hy
  have key : ∀ t0, h.tables[rt]? = some t0 →
      t.k2i = t0.k2i ∧ ∀ v, t0.view h = .ok v → t.view h2 = .ok v := by
    intro t0 ht0
    obtain ⟨c1, hc1, hk1, hv1⟩ := LTable.table_Clone_spec hcl hc ht0
    rw [ht] at hc1
    cases hc1
    exact ⟨hk1, hv1⟩
  refine { e with tables := ?_, tablesKeep := ?_ }
  · intro a' t0 ha' ht0
    by_cases haa : rt = a'
    · subst haa
      refine ⟨t, by simp [hlt], ?_⟩
      intro v hv
      exact LTable.view_mono (Store.Pres.pres_refl _) (Store.Pres.pres_refl _) (Store.Pres.pres_refl _)
        ((key t0 ht0).2 v hv)
    · obtain ⟨t1, ht1, hv1⟩ := e.tables a' t0 ha' ht0
      refine ⟨t1, by simp [List.getElem?_set_ne haa, ht1], ?_⟩
      intro v hv
      exact LTable.view_mono (Store.Pres.pres_refl _) (Store.Pres.pres_refl _) (Store.Pres.pres_refl _)
        (hv1 v hv)
  · intro a' t0 ht0
    by_cases haa : rt = a'
    · subst haa
      exact ⟨t, by simp [hlt], (key t0 ht0).1⟩
    · obtain ⟨t1, ht1, hk1⟩ := e.tablesKeep a' t0 ht0
      exact ⟨t1, by simp [List.getElem?_set_ne haa, ht1], hk1⟩

/-! ## Global.Clone -/

theorem Store.copy_link {α : Type} {s : List α} {z x : α} {g : Nat}
    (hx : (s ++ [z])[g]? = some x) : (s ++ [x])[g]? = some x := by
  by_cases hg : g < s.length
  · rw [List.getElem?_append_left hg] at hx ⊢
    exact hx
  · have hlt := Store.lt_of_getElem? hx
    simp only [List.length_append, List.length_singleton] at hlt
    have hgl : g = s.length := by omega
    subst hgl
    simp

theorem Global.global_copyRecord_step {b h h1 : Heap} {g r : Nat}
    (hc : Global.copyRecord h g = .ok (r, h1)) :
    r = h.globals.length ∧ Heap.Step b h h1 ∧
      ∃ x0, (h.globals ++ [Global.zero])[g]? = some x0 ∧ h1.globals[g]? = some x0 ∧
        h1.globals[r]? = some x0 := by
  simp only [Global.copyRecord, Res.bind_eq_ok, Res.pure_eq_ok, Prod.mk.injEq,
    Store.load_eq_ok] at hc
  obtain ⟨x0, ⟨a, ha, hx0⟩, rfl, rfl⟩ := hc
  cases ha
  refine ⟨rfl, ?_, x0, hx0, ?_, ?_⟩
  · apply Heap.Step.step_of_pres <;>
      first
        | exact Store.Pres.pres_refl _
        | exact Store.PresBelow.below_refl _ _
        | exact LState.Keep.thread_refl _
        | exact registry.Keep.reg_refl _
        | exact LTable.Keep.table_refl _
        | exact Global.Keep.global_of_pres (Store.Pres.append_upd _ _ _)
  · simp only [Store.upd_append_new]
    exact Store.copy_link hx0
  · simp [Store.upd_append_new]

theorem Global.cloneRegistry_ext {cl : Heap → LValue → Res (LValue × Heap)}
    (hcl : ∀ h v r h', cl h v = .ok (r, h') → Heap.Ext h h')
    {h h1 : Heap} {result g : Nat}
    (hlink : ∀ gr r, h.globals[g]? = some gr → h.globals[result]? = some r →
      r.Registry = gr.Registry)
    (hc : Global.cloneRegistry cl h result g = .ok h1) : Heap.Ext h h1 := by
  simp only [Global.cloneRegistry, Res.bind_eq_ok, Store.load_eq_ok] at hc
  obtain ⟨gr, ⟨a, ha, hgr⟩, hc⟩ := hc
  cases ha
  split at hc
  · cases hc
    exact Heap.Ext.ext_refl _
  · rename_i rt hrt
    simp only [Res.bind_eq_ok, Res.pure_eq_ok, Prod.exists, Store.load_eq_ok] at hc
    obtain ⟨r, ⟨a, ha, hr⟩, c, h2, hcl2, p, hp, t, ht, ts, hs, rfl⟩ := hc
    cases ha
    rw [hlink gr r hgr hr, hrt] at hs
    exact Heap.Ext.clone_in_place hcl hcl2 hp (Store.load_eq_ok.mpr ht) hs

theorem Global.cloneGlobal_ext {cl : Heap → LValue → Res (LValue × Heap)}
    (hcl : ∀ h v r h', cl h v = .ok (r, h') → Heap.Ext h h')
    {h h1 : Heap} {result g : Nat}
    (hlink : ∀ gr r, h.globals[g]? = some gr → h.globals[result]? = some r →
      r.Global = gr.Global)
    (hc : Global.cloneGlobal cl h result g = .ok h1) : Heap.Ext h h1 := by
  simp only [Global.cloneGlobal, Res.bind_eq_ok, Store.load_eq_ok] at hc
  obtain ⟨gr, ⟨a, ha, hgr⟩, hc⟩ := hc
  cases ha
  split at hc
  · cases hc
    exact Heap.Ext.ext_refl _
  · rename_i rt hrt
    simp only [Res.bind_eq_ok, Res.pure_eq_ok, Prod.exists, Store.load_eq_ok] at hc
    obtain ⟨r, ⟨a, ha, hr⟩, c, h2, hcl2, p, hp, t, ht, ts, hs, rfl⟩ := hc
    cases ha
    rw [hlink gr r hgr hr, hrt] at hs
    exact Heap.Ext.clone_in_place hcl hcl2 hp (Store.load_eq_ok.mpr ht) hs

theorem Global.cloneMt_step {cl : Heap → LValue → Res (LValue × Heap)}
    (hcl : ∀ h v r h', cl h v = .ok (r, h') → Heap.Ext h h')
    {b h h1 : Heap} {m : Nat} {e : Int × LValue} (hm : b.mtMaps.length ≤ m)
    (hc : Global.cloneMt cl m h e = .ok h1) : Heap.Step b h h1 := by
  unfold Global.cloneMt at hc
  split at hc
  · cases hc
    exact Heap.Step.step_refl _ _
  · simp only [Res.bind_eq_ok, Res.pure_eq_ok, Prod.exists] at hc
    obtain ⟨c, h2, hcl2, rfl⟩ := hc
    refine ((hcl _ _ _ _ hcl2).toStep b).step_trans ?_
    apply Heap.Step.step_of_pres <;>
      first
        | exact Store.Pres.pres_refl _
        | exact Store.PresBelow.below_refl _ _
        | exact LState.Keep.thread_refl _
        | exact registry.Keep.reg_refl _
        | exact LTable.Keep.table_refl _
        | exact Global.Keep.global_refl _
        | exact Store.PresBelow.below_upd _ _ hm

theorem Global.cloneMts_step {cl : Heap → LValue → Res (LValue × Heap)}
    (hcl : ∀ h v r h', cl h v = .ok (r, h') → Heap.Ext h h')
    {b : Heap} {m : Nat} (hm : b.mtMaps.length ≤ m) (es : List (Int × LValue)) :
    ∀ {h h1 : Heap}, es.foldlM (Global.cloneMt cl m) h = .ok h1 → Heap.Step b h h1 := by
  induction es with
  | nil =>
    intro h h1 hc
    simp only [List.foldlM_nil, Res.pure_eq_ok] at hc
    subst hc
    exact Heap.Step.step_refl _ _
  | cons e rest ih =>
    intro h h1 hc
    simp only [List.foldlM_cons, Res.bind_eq_ok] at hc
    obtain ⟨h2, hc2, hc3⟩ := hc
    exact (Global.cloneMt_step hcl hm hc2).step_trans (ih hc3)

theorem Global.cloneBuiltinMts_step {cl : Heap → LValue → Res (LValue × Heap)}
    (hcl : ∀ h v r h', cl h v = .ok (r, h') → Heap.Ext h h')
    {b h h1 : Heap} {result g : Nat} (hm : b.mtMaps.length ≤ h.mtMaps.length)
    (hc : Global.cloneBuiltinMts cl h result g = .ok h1) : Heap.Step b h h1 := by
  simp only [Global.cloneBuiltinMts, Heap.makeMtMap, Res.bind_eq_ok] at hc
  obtain ⟨gr, _, es, _, hc⟩ := hc
  refine Heap.Step.step_trans ?_ (Global.cloneMts_step hcl hm es hc)
  apply Heap.Step.step_of_pres <;>
    first
      | exact Store.Pres.pres_refl _
      | exact Store.PresBelow.below_refl _ _
      | exact LState.Keep.thread_refl _
      | exact registry.Keep.reg_refl _
      | exact LTable.Keep.table_refl _
      | exact Global.Keep.global_upd _ _ _ (fun _ => ⟨rfl, rfl, rfl, rfl, rfl⟩)
      | exact (Store.Pres.append _ _).below _

theorem Global.cloneTempFiles_step {b h h1 : Heap} {result g : Nat}
    (hc : Global.cloneTempFiles h result g = .ok h1) : Heap.Step b h h1 := by
  simp only [Global.cloneTempFiles, Heap.makeFileList, Heap.copyFileList, Res.bind_eq_ok,
    Res.pure_eq_ok] at hc
  obtain ⟨gr, _, fs, _, gr2, _, ys, _, rfl⟩ := hc
  apply Heap.Step.step_of_pres <;>
    first
      | exact Store.Pres.pres_refl _
      | exact Store.PresBelow.below_refl _ _
      | exact LState.Keep.thread_refl _
      | exact registry.Keep.reg_refl _
      | exact LTable.Keep.table_refl _
      | exact Global.Keep.global_upd _ _ _ (fun _ => ⟨rfl, rfl, rfl, rfl, rfl⟩)
      | exact Store.Pres.append_upd _ _ _

theorem Global.global_Clone_ext {cl : Heap → LValue → Res (LValue × Heap)}
    (hcl : ∀ h v r h', cl h v = .ok (r, h') → Heap.Ext h h')
    {h h1 : Heap} {g c : Nat} (hc : Global.Clone cl h g = .ok (c, h1)) :
    c = h.globals.length ∧ Heap.Ext h h1 ∧
      ∃ x0 c1, (h.globals ++ [Global.zero])[g]? = some x0 ∧ h1.globals[c]? = some c1 ∧
        c1.MainThread = x0.MainThread ∧ c1.CurrentThread = x0.CurrentThread ∧
        c1.Registry = x0.Registry ∧ c1.Global = x0.Global ∧ c1.gccount = x0.gccount := by
  simp only [Global.Clone, Res.bind_eq_ok, Res.pure_eq_ok, Prod.exists, Prod.mk.injEq] at hc
  obtain ⟨r, h2, h0, h3, h4, h5, h6, h7, h8, h9, h10, rfl, rfl⟩ := hc
  obtain ⟨hr, s1, x0, hx0, hg2, hr2⟩ := Global.global_copyRecord_step (b := h) h0
  subst hr
  have e3 : Heap.Ext h2 h3 := Global.cloneRegistry_ext hcl (by
    intro gr r hgr hr
    rw [hg2] at hgr
    rw [hr2] at hr
    cases hgr
    cases hr
    rfl) h4
  obtain ⟨g3, hg3, -, -, -, hG3, -⟩ := e3.globals g x0 hg2
  obtain ⟨r3, hr3, -, -, -, hR3, -⟩ := e3.globals _ x0 hr2
  have e5 : Heap.Ext h3 h5 := Global.cloneGlobal_ext hcl (by
    intro gr r hgr hr
    rw [hg3] at hgr
    rw [hr3] at hr
    cases hgr
    cases hr
    rw [hR3, hG3]) h6
  have s13 : Heap.Step h h h3 := s1.step_trans (e3.toStep h)
  have s15 : Heap.Step h h h5 := s13.step_trans (e5.toStep h)
  have hm5 : h.mtMaps.length ≤ h5.mtMaps.length :=
    (Store.PresBelow.pres s15.mtMaps).length_le
  have s57 := Global.cloneBuiltinMts_step (b := h) hcl hm5 h8
  have s79 := Global.cloneTempFiles_step (b := h) h10
  have s29 : Heap.Step h h2 h9 := ((e3.toStep h).step_trans (e5.toStep h)).step_trans (s57.step_trans s79)
  obtain ⟨c1, hc1, k1, k2, k3, k4, k5⟩ := s29.globals _ x0 hr2
  exact ⟨rfl, s1.step_trans s29, x0, c1, hx0, hc1, k1, k2, k3, k4, k5⟩

/-! ## The clones declared outside the embedded files -/

theorem registry.registry_clone_eq_ok {h h1 : Heap} {rg c : Nat} :
    registry.clone h rg = .ok (c, h1) ↔
      ∃ x, h.regs[rg]? = some x ∧ c = h.regs.length ∧ h1 = { h with regs := h.regs ++ [x] } := by
  simp only [registry.clone, Res.bind_eq_ok, Res.pure_eq_ok, Store.load_eq_ok, Prod.mk.injEq]
  constructor
  · rintro ⟨x, ⟨a, ha, hx⟩, rfl, rfl⟩
    cases ha
    exact ⟨x, hx, rfl, rfl⟩
  · rintro ⟨x, hx, rfl, rfl⟩
    exact ⟨x, ⟨rg, rfl, hx⟩, rfl, rfl⟩

theorem callFrameStack.stack_Clone_eq_ok {h h1 : Heap} {st c : Nat} :
    callFrameStack.Clone h st = .ok (c, h1) ↔
      ∃ x, h.frameStacks[st]? = some x ∧ c = h.frameStacks.length ∧
        h1 = { h with frameStacks := h.frameStacks ++ [x] } := by
  simp only [callFrameStack.Clone, Res.bind_eq_ok, Res.pure_eq_ok, Store.load_eq_ok,
    Prod.mk.injEq]
  constructor
  · rintro ⟨x, ⟨a, ha, hx⟩, rfl, rfl⟩
    cases ha
    exact ⟨x, hx, rfl, rfl⟩
  · rintro ⟨x, hx, rfl, rfl⟩
    exact ⟨x, ⟨st, rfl, hx⟩, rfl, rfl⟩

theorem callFrame.frame_clone_eq_ok {h h1 : Heap} {cf c : Nat} :
    callFrame.clone h cf = .ok (c, h1) ↔
      ∃ x, h.frames[cf]? = some x ∧ c = h.frames.length ∧
        h1 = { h with frames := h.frames ++ [x] } := by
  simp only [callFrame.clone, Res.bind_eq_ok, Res.pure_eq_ok, Store.load_eq_ok, Prod.mk.injEq]
  constructor
  · rintro ⟨x, ⟨a, ha, hx⟩, rfl, rfl⟩
    cases ha
    exact ⟨x, hx, rfl, rfl⟩
  · rintro ⟨x, hx, rfl, rfl⟩
    exact ⟨x, ⟨cf, rfl, hx⟩, rfl, rfl⟩

theorem Upvalue.upvalue_Clone_eq_ok {h h1 : Heap} {uv c : Nat} :
    Upvalue.Clone h uv = .ok (c, h1) ↔
      ∃ x, h.upvalues[uv]? = some x ∧ c = h.upvalues.length ∧
        h1 = { h with upvalues := h.upvalues ++ [x] } := by
  simp only [Upvalue.Clone, Res.bind_eq_ok, Res.pure_eq_ok, Store.load_eq_ok, Prod.mk.injEq]
  constructor
  · rintro ⟨x, ⟨a, ha, hx⟩, rfl, rfl⟩
    cases ha
    exact ⟨x, hx, rfl, rfl⟩
  · rintro ⟨x, hx, rfl, rfl⟩
    exact ⟨x, ⟨uv, rfl, hx⟩, rfl, rfl⟩

/-- Overwriting an allocated cell with the contents of its own fresh copy changes no cell
that was there before the copy. -/
theorem Store.Pres.append_set_same {α : Type} {s : List α} {a : Nat} {x : α}
    (hx : s[a]? = some x) : Store.Pres s ((s ++ [x]).set a x) := by
  intro b y hy
  have hb := Store.lt_of_getElem? hy
  rw [List.getElem?_set]
  by_cases hab : a = b
  · subst hab
    rw [hx] at hy
    simp [hy]
    omega
  · simp only [hab, if_false]
    rw [List.getElem?_append_left hb]
    exact hy

/-! ## LState.Clone -/

theorem LState.thread_copyRecord_step {b h h1 : Heap} {l r : Nat}
    (hc : LState.copyRecord h l = .ok (r, h1)) :
    r = h.threads.length ∧ Heap.Step b h h1 ∧
      ∃ x0, (h.threads ++ [LState.zero])[l]? = some x0 ∧ h1.threads[l]? = some x0 ∧
        h1.threads[r]? = some x0 := by
  simp only [LState.copyRecord, Res.bind_eq_ok, Res.pure_eq_ok, Prod.mk.injEq,
    Store.load_eq_ok] at hc
  obtain ⟨x0, ⟨a, ha, hx0⟩, rfl, rfl⟩ := hc
  cases ha
  refine ⟨rfl, ?_, x0, hx0, ?_, ?_⟩
  · apply Heap.Step.step_of_pres <;>
      first
        | exact Store.Pres.pres_refl _
        | exact Store.PresBelow.below_refl _ _
        | exact Global.Keep.global_refl _
        | exact registry.Keep.reg_refl _
        | exact LTable.Keep.table_refl _
        | exact LState.Keep.thread_of_pres (Store.Pres.append_upd _ _ _)
        | exact (Store.Pres.append_upd _ _ _).below _
  · simp only [Store.upd_append_new]
    exact Store.copy_link hx0
  · simp [Store.upd_append_new]

theorem LState.cloneG_ext {cl : Heap → LValue → Res (LValue × Heap)}
    (hcl : ∀ h v r h', cl h v = .ok (r, h') → Heap.Ext h h')
    {h h1 : Heap} {result l : Nat}
    (hlink : ∀ ls r, h.threads[l]? = some ls → h.threads[result]? = some r → r.G = ls.G)
    (hc : LState.cloneG cl h result l = .ok h1) : Heap.Ext h h1 := by
  simp only [LState.cloneG, Res.bind_eq_ok, Store.load_eq_ok] at hc
  obtain ⟨ls, ⟨a, ha, hls⟩, hc⟩ := hc
  cases ha
  split at hc
  · cases hc
    exact Heap.Ext.ext_refl _
  · rename_i g hg
    simp only [Res.bind_eq_ok, Res.pure_eq_ok, Prod.exists, Store.load_eq_ok,
      Store.store_eq_ok] at hc
    obtain ⟨r, ⟨a, ha, hr⟩, c, h2, hcl2, gr, ⟨a2, ha2, hgr⟩, gs, ⟨a3, y, ha3, hy, rfl⟩, rfl⟩ := hc
    cases ha
    cases ha2
    rw [hlink ls r hls hr, hg] at ha3
    cases ha3
    obtain ⟨hc1, e, x0, c1, hx0, hc1', k1, k2, k3, k4, k5⟩ := Global.global_Clone_ext hcl hcl2
    rw [hgr] at hc1'
    cases hc1'
    have hlt := Store.lt_of_getElem? hy
    refine { e with globals := ?_ }
    intro a' ga hga
    by_cases haa : g = a'
    · subst haa
      have hx0' : (h.globals ++ [Global.zero])[g]? = some ga := Store.Pres.append _ _ _ _ hga
      rw [hx0'] at hx0
      cases hx0
      exact ⟨gr, by simp [hlt], k1, k2, k3, k4, k5⟩
    · obtain ⟨g1, hg1, l1, l2, l3, l4, l5⟩ := e.globals a' ga hga
      exact ⟨g1, by simp [List.getElem?_set_ne haa, hg1], l1, l2, l3, l4, l5⟩

theorem Heap.Step.upd_thread (b h : Heap) {r : Nat} (f : LState → LState)
    (hb : b.threads.length ≤ r) (hf : ∀ x, { f x with Env := x.Env, stack := x.stack } = x) :
    Heap.Step b h { h with threads := Store.upd h.threads r f } := by
  apply Heap.Step.step_of_pres <;>
    first
      | exact Store.Pres.pres_refl _
      | exact Store.PresBelow.below_refl _ _
      | exact Global.Keep.global_refl _
      | exact registry.Keep.reg_refl _
      | exact LTable.Keep.table_refl _
      | exact Store.PresBelow.below_upd _ _ hb
      | exact LState.Keep.thread_upd _ _ _ hf

theorem LState.thread_cloneEnv_step {cl : Heap → LValue → Res (LValue × Heap)}
    (hcl : ∀ h v r h', cl h v = .ok (r, h') → Heap.Ext h h')
    {b h h1 : Heap} {result l : Nat} (hb : b.threads.length ≤ result)
    (hlink : ∀ ls r, h.threads[l]? = some ls → h.threads[result]? = some r → r.Env = ls.Env)
    (hc : LState.cloneEnv cl h result l = .ok h1) : Heap.Step b h h1 := by
  simp only [LState.cloneEnv, Res.bind_eq_ok, Store.load_eq_ok] at hc
  obtain ⟨ls, ⟨a, ha, hls⟩, hc⟩ := hc
  cases ha
  split at hc
  · cases hc
    exact Heap.Step.step_refl _ _
  · rename_i env henv
    simp only [Res.bind_eq_ok, Res.pure_eq_ok, Prod.exists, Store.load_eq_ok] at hc
    obtain ⟨r, ⟨a, ha, hr⟩, c, h2, hcl2, p, hp, t, ht, ts, hs, r2, -, gr, -, rfl⟩ := hc
    cases ha
    rw [hlink ls r hls hr, henv] at hs
    have e := Heap.Ext.clone_in_place hcl hcl2 hp (Store.load_eq_ok.mpr ht) hs
    exact (e.toStep b).step_trans (Heap.Step.upd_thread _ _ _ hb (fun _ => rfl))

theorem LState.cloneStack_step {b h h1 : Heap} {result l : Nat}
    (hb : b.threads.length ≤ result)
    (hc : LState.cloneStack h result l = .ok h1) : Heap.Step b h h1 := by
  simp only [LState.cloneStack, Res.bind_eq_ok] at hc
  obtain ⟨ls, -, hc⟩ := hc
  split at hc
  · cases hc
    exact Heap.Step.step_refl _ _
  · simp only [Res.bind_eq_ok, Res.pure_eq_ok, Prod.exists, callFrameStack.stack_Clone_eq_ok] at hc
    obtain ⟨c, h2, ⟨x, -, rfl, rfl⟩, rfl⟩ := hc
    apply Heap.Step.step_of_pres <;>
      first
        | exact Store.Pres.pres_refl _
        | exact Store.PresBelow.below_refl _ _
        | exact Global.Keep.global_refl _
        | exact registry.Keep.reg_refl _
        | exact LTable.Keep.table_refl _
        | exact Store.PresBelow.below_upd _ _ hb
        | exact LState.Keep.thread_upd _ _ _ (fun _ => rfl)
        | exact Store.Pres.append _ _

theorem LState.cloneCurrentFrame_step {b h h1 : Heap} {result l : Nat}
    (hlink : ∀ ls r, h.threads[l]? = some ls → h.threads[result]? = some r →
      r.currentFrame = ls.currentFrame)
    (hc : LState.cloneCurrentFrame h result l = .ok h1) : Heap.Step b h h1 := by
  simp only [LState.cloneCurrentFrame, Res.bind_eq_ok, Store.load_eq_ok] at hc
  obtain ⟨ls, ⟨a, ha, hls⟩, hc⟩ := hc
  cases ha
  split at hc
  · cases hc
    exact Heap.Step.step_refl _ _
  · rename_i cf hcf
    simp only [Res.bind_eq_ok, Res.pure_eq_ok, Prod.exists, Store.load_eq_ok,
      Store.store_eq_ok, callFrame.frame_clone_eq_ok] at hc
    obtain ⟨r, ⟨a, ha, hr⟩, c, h2, ⟨x, hx, rfl, rfl⟩, x', ⟨a2, ha2, hx'⟩, fs,
      ⟨a3, y, ha3, -, rfl⟩, rfl⟩ := hc
    cases ha
    cases ha2
    rw [hlink ls r hls hr, hcf] at ha3
    cases ha3
    simp only [List.getElem?_concat_length, Option.some.injEq] at hx'
    subst hx'
    apply Heap.Step.step_of_pres <;>
      first
        | exact Store.Pres.pres_refl _
        | exact Store.PresBelow.below_refl _ _
        | exact Global.Keep.global_refl _
        | exact registry.Keep.reg_refl _
        | exact LTable.Keep.table_refl _
        | exact LState.Keep.thread_refl _
        | exact Store.Pres.append_set_same hx

theorem LState.cloneUvcache_step {b h h1 : Heap} {result l : Nat}
    (hlink : ∀ ls r, h.threads[l]? = some ls → h.threads[result]? = some r →
      r.uvcache = ls.uvcache)
    (hc : LState.cloneUvcache h result l = .ok h1) : Heap.Step b h h1 := by
  simp only [LState.cloneUvcache, Res.bind_eq_ok, Store.load_eq_ok] at hc
  obtain ⟨ls, ⟨a, ha, hls⟩, hc⟩ := hc
  cases ha
  split at hc
  · cases hc
    exact Heap.Step.step_refl _ _
  · rename_i uv huv
    simp only [Res.bind_eq_ok, Res.pure_eq_ok, Prod.exists, Store.load_eq_ok,
      Store.store_eq_ok, Upvalue.upvalue_Clone_eq_ok] at hc
    obtain ⟨r, ⟨a, ha, hr⟩, c, h2, ⟨x, hx, rfl, rfl⟩, x', ⟨a2, ha2, hx'⟩, fs,
      ⟨a3, y, ha3, -, rfl⟩, rfl⟩ := hc
    cases ha
    cases ha2
    rw [hlink ls r hls hr, huv] at ha3
    cases ha3
    simp only [List.getElem?_concat_length, Option.some.injEq] at hx'
    subst hx'
    apply Heap.Step.step_of_pres <;>
      first
        | exact Store.Pres.pres_refl _
        | exact Store.PresBelow.below_refl _ _
        | exact Global.Keep.global_refl _
        | exact registry.Keep.reg_refl _
        | exact LTable.Keep.table_refl _
        | exact LState.Keep.thread_refl _
        | exact Store.Pres.append_set_same hx

theorem registry.Keep.reg_set {s s' : List registry} {a : Nat} {x : registry}
    (k : registry.Keep s s')
    (hx : ∀ y, s'[a]? = some y → x.array = y.array ∧ x.top = y.top) :
    registry.Keep s (s'.set a x) := by
  intro b r hr
  obtain ⟨r', hr', h1, h2⟩ := k b r hr
  have hlt := Store.lt_of_getElem? hr'
  by_cases hab : a = b
  · subst hab
    obtain ⟨e1, e2⟩ := hx r' hr'
    exact ⟨x, by simp [hlt], e1.trans h1, e2.trans h2⟩
  · exact ⟨r', by simp [List.getElem?_set_ne hab, hr'], h1, h2⟩

theorem LState.cloneReg_step {b h h1 : Heap} {result l : Nat}
    (hlink : ∀ ls r, h.threads[l]? = some ls → h.threads[result]? = some r → r.reg = ls.reg)
    (hc : LState.cloneReg h result l = .ok h1) : Heap.Step b h h1 := by
  simp only [LState.cloneReg, Res.bind_eq_ok, Store.load_eq_ok] at hc
  obtain ⟨ls, ⟨a, ha, hls⟩, hc⟩ := hc
  cases ha
  split at hc
  · cases hc
    exact Heap.Step.step_refl _ _
  · rename_i rg hrg
    simp only [Res.bind_eq_ok, Res.pure_eq_ok, Prod.exists, Store.load_eq_ok,
      Store.store_eq_ok, registry.registry_clone_eq_ok] at hc
    obtain ⟨r, ⟨a, ha, hr⟩, c, h2, ⟨x, hx, rfl, rfl⟩, x', ⟨a2, ha2, hx'⟩, rs,
      ⟨a3, y, ha3, hy, rfl⟩, r2, ⟨a4, ha4, hr2⟩, x2, ⟨a5, ha5, hx2⟩, rs2,
      ⟨a6, y2, ha6, hy2, rfl⟩, rfl⟩ := hc
    cases ha
    cases ha2
    cases ha4
    rw [hlink ls r hls hr, hrg] at ha3
    cases ha3
    simp only [List.getElem?_concat_length, Option.some.injEq] at hx'
    subst hx'
    rw [ha5] at ha6
    cases ha6
    have k1 : registry.Keep h.regs ((h.regs ++ [x]).set rg x) :=
      registry.Keep.reg_of_pres (Store.Pres.append_set_same hx)
    have k2 := registry.Keep.reg_set (a := a5) (x := { x2 with handler := some result }) k1
      (by
        intro y' hy'
        rw [hx2] at hy'
        cases hy'
        exact ⟨rfl, rfl⟩)
    apply Heap.Step.step_of_pres <;>
      first
        | exact Store.Pres.pres_refl _
        | exact Store.PresBelow.below_refl _ _
        | exact Global.Keep.global_refl _
        | exact LTable.Keep.table_refl _
        | exact LState.Keep.thread_refl _
        | exact k2

/-- Two records that both descend from `x0` through steps that keep every field but `Env`
and `stack` agree on all other fields. -/
theorem LState.link_of_keep {s s' : List LState} (k : LState.Keep s s') {l r : Nat}
    {x0 : LState} (hl : s[l]? = some x0) (hr : s[r]? = some x0) :
    ∀ ls r', s'[l]? = some ls → s'[r]? = some r' →
      r'.G = ls.G ∧ r'.reg = ls.reg ∧ r'.currentFrame = ls.currentFrame ∧
        r'.uvcache = ls.uvcache := by
  intro ls r' hls hr'
  obtain ⟨y, hy, ey⟩ := k l x0 hl
  obtain ⟨z, hz, ez⟩ := k r x0 hr
  rw [hls] at hy
  rw [hr'] at hz
  cases hy
  cases hz
  have e1 : ls.G = x0.G := by
    have e := congrArg LState.G ey
    exact e
  have e2 : r'.G = x0.G := by
    have e := congrArg LState.G ez
    exact e
  have e3 : ls.reg = x0.reg := by
    have e := congrArg LState.reg ey
    exact e
  have e4 : r'.reg = x0.reg := by
    have e := congrArg LState.reg ez
    exact e
  have e5 : ls.currentFrame = x0.currentFrame := by
    have e := congrArg LState.currentFrame ey
    exact e
  have e6 : r'.currentFrame = x0.currentFrame := by
    have e := congrArg LState.currentFrame ez
    exact e
  have e7 : ls.uvcache = x0.uvcache := by
    have e := congrArg LState.uvcache ey
    exact e
  have e8 : r'.uvcache = x0.uvcache := by
    have e := congrArg LState.uvcache ez
    exact e
  exact ⟨e2.trans e1.symm, e4.trans e3.symm, e6.trans e5.symm, e8.trans e7.symm⟩

theorem LState.thread_Clone_ext {cl : Heap → LValue → Res (LValue × Heap)}
    (hcl : ∀ h v r h', cl h v = .ok (r, h') → Heap.Ext h h')
    {h h1 : Heap} {l : Nat} {c : LValue} (hc : LState.Clone cl h l = .ok (c, h1)) :
    c = .thread h.threads.length ∧ Heap.Ext h h1 := by
  simp only [LState.Clone, Res.bind_eq_ok, Res.pure_eq_ok, Prod.exists, Prod.mk.injEq] at hc
  obtain ⟨r, h2, h0, h3, h4, h5, h6, h7, h8, h9, h10, h11, h12, h13, h14, rfl, rfl⟩ := hc
  obtain ⟨hr, s1, x0, -, hl2, hr2⟩ := LState.thread_copyRecord_step (b := h) h0
  subst hr
  have e23 : Heap.Ext h2 h3 := LState.cloneG_ext hcl (by
    intro ls r hls hr
    rw [hl2] at hls
    rw [hr2] at hr
    cases hls
    cases hr
    rfl) h4
  have hl3 := e23.threads_pres _ _ hl2
  have hr3 := e23.threads_pres _ _ hr2
  have s35 : Heap.Step h h3 h5 := LState.thread_cloneEnv_step hcl (Nat.le_refl _) (by
    intro ls r hls hr
    rw [hl3] at hls
    rw [hr3] at hr
    cases hls
    cases hr
    rfl) h6
  have s25 : Heap.Step h h2 h5 := (e23.toStep h).step_trans s35
  have s57 : Heap.Step h h5 h7 := LState.cloneReg_step (by
    intro ls r hls hr
    exact (LState.link_of_keep s25.threadsKeep hl2 hr2 ls r hls hr).2.1) h8
  have s27 := s25.step_trans s57
  have s79 : Heap.Step h h7 h9 := LState.cloneStack_step (Nat.le_refl _) h10
  have s29 := s27.step_trans s79
  have s911 : Heap.Step h h9 h11 := LState.cloneCurrentFrame_step (by
    intro ls r hls hr
    exact (LState.link_of_keep s29.threadsKeep hl2 hr2 ls r hls hr).2.2.1) h12
  have s211 := s29.step_trans s911
  have s1113 : Heap.Step h h11 h13 := LState.cloneUvcache_step (by
    intro ls r hls hr
    exact (LState.link_of_keep s211.threadsKeep hl2 hr2 ls r hls hr).2.2.2) h14
  exact ⟨rfl, s1.step_trans (s211.step_trans s1113)⟩

/-! ## Every run of `Clone` extends the heap -/

theorem LValue.value_Clone_ext (n : Nat) :
    ∀ (h : Heap) (v r : LValue) (h' : Heap), LValue.Clone n h v = .ok (r, h') →
      Heap.Ext h h' := by
  induction n with
  | zero =>
    intro h v r h' hc
    cases v <;> simp [LValue.Clone] at hc <;>
      (obtain ⟨-, rfl⟩ := hc; exact Heap.Ext.ext_refl _)
  | succ n ih =>
    intro h v r h' hc
    cases v with
    | function p => exact (LFunction.function_Clone_ext hc).2
    | userdata p => exact (LUserData.userdata_Clone_ext ih hc).2
    | thread p => exact (LState.thread_Clone_ext ih hc).2
    | table p => exact (LTable.table_Clone_ext ih hc).2
    | iface_nil => simp [LValue.Clone] at hc
    | lnil =>
      simp [LValue.Clone] at hc
      obtain ⟨-, rfl⟩ := hc
      exact Heap.Ext.ext_refl _
    | lbool b =>
      simp [LValue.Clone] at hc
      obtain ⟨-, rfl⟩ := hc
      exact Heap.Ext.ext_refl _
    | lnumber x =>
      simp [LValue.Clone] at hc
      obtain ⟨-, rfl⟩ := hc
      exact Heap.Ext.ext_refl _
    | lstring s =>
      simp [LValue.Clone] at hc
      obtain ⟨-, rfl⟩ := hc
      exact Heap.Ext.ext_refl _
    | channel ch =>
      simp [LValue.Clone] at hc
      obtain ⟨-, rfl⟩ := hc
      exact Heap.Ext.ext_refl _

/-! ## The `Env` field of the clone of a thread -/

theorem LState.cloneEnv_spec {cl : Heap → LValue → Res (LValue × Heap)}
    (hcl : ∀ h v r h', cl h v = .ok (r, h') → Heap.Ext h h')
    {h h1 : Heap} {result l : Nat} {x0 : LState}
    (hl : h.threads[l]? = some x0) (hr : h.threads[result]? = some x0)
    (hc : LState.cloneEnv cl h result l = .ok h1) :
    ∃ d, h1.threads[result]? = some d ∧
      ∀ env g g0, x0.Env = some env → x0.G = some g → h.globals[g]? = some g0 →
        d.Env = g0.Global := by
  simp only [LState.cloneEnv, Res.bind_eq_ok, Store.load_eq_ok] at hc
  obtain ⟨ls, ⟨a, ha, hls⟩, hc⟩ := hc
  cases ha
  rw [hl] at hls
  cases hls
  split at hc
  · rename_i henv
    cases hc
    refine ⟨x0, hr, ?_⟩
    intro env g g0 he
    rw [henv] at he
    cases he
  · rename_i env henv
    simp only [Res.bind_eq_ok, Res.pure_eq_ok, Prod.exists, Store.load_eq_ok] at hc
    obtain ⟨r, ⟨a, ha, hr'⟩, c, h2, hcl2, p, hp, t, ht, ts, hs, r2, ⟨a2, ha2, hr2⟩, gr,
      ⟨a3, ha3, hgr⟩, rfl⟩ := hc
    cases ha
    cases ha2
    rw [hr] at hr'
    cases hr'
    obtain ⟨-, e⟩ := LTable.table_Clone_ext hcl hcl2
    have hr2' := e.threads_pres _ _ hr
    rw [hr2'] at hr2
    cases hr2
    refine ⟨{ x0 with Env := gr.Global }, by simp [Store.getElem?_upd_self, hr2'], ?_⟩
    intro env' g g0 _ hG hg0
    rw [hG] at ha3
    cases ha3
    obtain ⟨g1, hg1, -, -, -, k4, -⟩ := e.globals _ g0 hg0
    rw [hg1] at hgr
    cases hgr
    exact k4

theorem LState.cloneReg_threads {h h1 : Heap} {result l : Nat}
    (hc : LState.cloneReg h result l = .ok h1) : h1.threads = h.threads := by
  simp only [LState.cloneReg, Res.bind_eq_ok] at hc
  obtain ⟨ls, -, hc⟩ := hc
  split at hc
  · cases hc
    rfl
  · simp only [Res.bind_eq_ok, Res.pure_eq_ok, Prod.exists, registry.registry_clone_eq_ok] at hc
    obtain ⟨r, -, c, h2, ⟨x, -, rfl, rfl⟩, x', -, rs, -, r2, -, x2, -, rs2, -, rfl⟩ := hc
    rfl

theorem LState.cloneCurrentFrame_threads {h h1 : Heap} {result l : Nat}
    (hc : LState.cloneCurrentFrame h result l = .ok h1) : h1.threads = h.threads := by
  simp only [LState.cloneCurrentFrame, Res.bind_eq_ok] at hc
  obtain ⟨ls, -, hc⟩ := hc
  split at hc
  · cases hc
    rfl
  · simp only [Res.bind_eq_ok, Res.pure_eq_ok, Prod.exists, callFrame.frame_clone_eq_ok] at hc
    obtain ⟨r, -, c, h2, ⟨x, -, rfl, rfl⟩, x', -, fs, -, rfl⟩ := hc
    rfl

theorem LState.cloneUvcache_threads {h h1 : Heap} {result l : Nat}
    (hc : LState.cloneUvcache h result l = .ok h1) : h1.threads = h.threads := by
  simp only [LState.cloneUvcache, Res.bind_eq_ok] at hc
  obtain ⟨ls, -, hc⟩ := hc
  split at hc
  · cases hc
    rfl
  · simp only [Res.bind_eq_ok, Res.pure_eq_ok, Prod.exists, Upvalue.upvalue_Clone_eq_ok] at hc
    obtain ⟨r, -, c, h2, ⟨x, -, rfl, rfl⟩, x', -, fs, -, rfl⟩ := hc
    rfl

theorem LState.cloneStack_env {h h1 : Heap} {result l : Nat}
    (hc : LState.cloneStack h result l = .ok h1) {a : Nat} {x : LState}
    (hx : h.threads[a]? = some x) : ∃ x', h1.threads[a]? = some x' ∧ x'.Env = x.Env := by
  simp only [LState.cloneStack, Res.bind_eq_ok] at hc
  obtain ⟨ls, -, hc⟩ := hc
  split at hc
  · cases hc
    exact ⟨x, hx, rfl⟩
  · simp only [Res.bind_eq_ok, Res.pure_eq_ok, Prod.exists, callFrameStack.stack_Clone_eq_ok] at hc
    obtain ⟨c, h2, ⟨y, -, rfl, rfl⟩, rfl⟩ := hc
    simp only [Store.getElem?_upd, hx]
    by_cases hra : result = a
    · simp [hra]
    · simp [hra]

/-- The thread record that `LState.Clone` returns: its `G` is the pointer of the source, and
when the source has an environment its `Env` is the variables table of the source's Global. -/
theorem LState.thread_Clone_spec {cl : Heap → LValue → Res (LValue × Heap)}
    (hcl : ∀ h v r h', cl h v = .ok (r, h') → Heap.Ext h h')
    {h h1 : Heap} {l : Nat} {c : LValue} {ls : LState}
    (hc : LState.Clone cl h l = .ok (c, h1)) (hl : h.threads[l]? = some ls) :
    ∃ d, h1.threads[h.threads.length]? = some d ∧ d.G = ls.G ∧
      ∀ env g g0, ls.Env = some env → ls.G = some g → h.globals[g]? = some g0 →
        d.Env = g0.Global := by
  simp only [LState.Clone, Res.bind_eq_ok, Res.pure_eq_ok, Prod.exists, Prod.mk.injEq] at hc
  obtain ⟨r, h2, h0, h3, h4, h5, h6, h7, h8, h9, h10, h11, h12, h13, h14, rfl, rfl⟩ := hc
  obtain ⟨hr, s1, x0, hx0, hl2, hr2⟩ := LState.thread_copyRecord_step (b := h) h0
  subst hr
  have hx0' : (h.threads ++ [LState.zero])[l]? = some ls := Store.Pres.append _ _ _ _ hl
  rw [hx0'] at hx0
  cases hx0
  have e23 : Heap.Ext h2 h3 := LState.cloneG_ext hcl (by
    intro ls' r hls hr
    rw [hl2] at hls
    rw [hr2] at hr
    cases hls
    cases hr
    rfl) h4
  have hl3 := e23.threads_pres _ _ hl2
  have hr3 := e23.threads_pres _ _ hr2
  obtain ⟨d5, hd5, hE5⟩ := LState.cloneEnv_spec hcl hl3 hr3 h6
  rw [← LState.cloneReg_threads h8] at hd5
  obtain ⟨d9, hd9, hE9⟩ := LState.cloneStack_env h10 hd5
  rw [← LState.cloneCurrentFrame_threads h12, ← LState.cloneUvcache_threads h14] at hd9
  refine ⟨d9, hd9, ?_, ?_⟩
  · have s35 : Heap.Step h h3 h5 := LState.thread_cloneEnv_step hcl (Nat.le_refl _) (by
      intro ls' r hls hr
      rw [hl3] at hls
      rw [hr3] at hr
      cases hls
      cases hr
      rfl) h6
    have s25 : Heap.Step h h2 h5 := (e23.toStep h).step_trans s35
    have s57 : Heap.Step h h5 h7 := LState.cloneReg_step (by
      intro ls' r hls hr
      exact (LState.link_of_keep s25.threadsKeep hl2 hr2 ls' r hls hr).2.1) h8
    have s27 := s25.step_trans s57
    have s79 : Heap.Step h h7 h9 := LState.cloneStack_step (Nat.le_refl _) h10
    have s29 := s27.step_trans s79
    obtain ⟨y, hy, ey⟩ := s29.threadsKeep _ ls hr2
    rw [← LState.cloneCurrentFrame_threads h12, ← LState.cloneUvcache_threads h14] at hy
    rw [hd9] at hy
    cases hy
    have e := congrArg LState.G ey
    exact e
  · intro env g g0 he hG hg0
    rw [hE9]
    obtain ⟨g3, hg3, -, -, -, k4, -⟩ := (s1.step_trans (e23.toStep h)).globals g g0 hg0
    rw [hE5 env g g3 he hG hg3]
    exact k4

/-! # The claims -/

/-- C4: `LoadSnapshot(sn)`, for a snapshot whose `LPtr` points to a thread, returns exactly
`sn.LPtr`; afterwards the record at that address is `sn.LData`, every other thread record is
unchanged, no thread is allocated or freed, and no other store of the heap is written. -/
theorem LoadSnapshot_overwrites_in_place (h : Heap) (sn : Snapshot) (a : Nat) (x : LState)
    (hp : sn.LPtr = some a) (hx : h.threads[a]? = some x) :
    ∃ h', LoadSnapshot h sn = .ok (sn.LPtr, h') ∧
      h'.threads[a]? = some sn.LData ∧
      (∀ b, b ≠ a → h'.threads[b]? = h.threads[b]?) ∧
      h'.threads.length = h.threads.length ∧
      h' = { h with threads := h'.threads } := by
  have hlt := Store.lt_of_getElem? hx
  have hs : Store.store h.threads sn.LPtr sn.LData = .ok (h.threads.set a sn.LData) :=
    Store.store_eq_ok.mpr ⟨a, x, hp, hx, rfl⟩
  refine ⟨{ h with threads := h.threads.set a sn.LData }, ?_, ?_, ?_, ?_, rfl⟩
  · simp [LoadSnapshot, hs, bind, Except.bind, pure, Except.pure]
  · simp [hlt]
  · intro b hb
    simp [List.getElem?_set_ne (Ne.symm hb)]
  · simp

/-- C4 at thread 0 of `demoHeap`, loading a snapshot that holds the zero record. -/
theorem LoadSnapshot_overwrites_in_place_witness :
    ∃ h', LoadSnapshot demoHeap ⟨some 0, LState.zero⟩ = .ok (some 0, h') ∧
      h'.threads[0]? = some LState.zero ∧
      (∀ b, b ≠ 0 → h'.threads[b]? = demoHeap.threads[b]?) ∧
      h'.threads.length = demoHeap.threads.length ∧
      h' = { demoHeap with threads := h'.threads } :=
  LoadSnapshot_overwrites_in_place demoHeap ⟨some 0, LState.zero⟩ 0 _ rfl rfl

theorem Heap.entries_eq_some {h : Heap} {p : Option Nat} {v : TableView} :
    h.entries p = some v ↔ ∃ a t, p = some a ∧ h.tables[a]? = some t ∧ t.view h = .ok v := by
  unfold Heap.entries
  cases p with
  | none => simp
  | some a =>
    dsimp only
    split
    · rename_i hn
      simp [hn]
    · rename_i t ht
      split
      · rename_i w hw
        simp [ht, hw]
      · rename_i e he
        simp [ht, he]

theorem Heap.Ext.entries {h h' : Heap} (e : Heap.Ext h h') {p : Option Nat} {v : TableView}
    (hv : h.entries p = some v) : h'.entries p = some v := by
  obtain ⟨a, t, rfl, ht, htv⟩ := Heap.entries_eq_some.mp hv
  obtain ⟨t', ht', -, hv'⟩ := e.table ht
  exact Heap.entries_eq_some.mpr ⟨a, t', rfl, ht', hv' v htv⟩

theorem Store.Pres.set_fresh {α : Type} {s s' : List α} (hp : Store.Pres s s') {a : Nat}
    (x : α) (ha : s.length ≤ a) : Store.Pres s (s'.set a x) := by
  intro b y hy
  have hb := Store.lt_of_getElem? hy
  rw [List.getElem?_set_ne (by omega)]
  exact hp b y hy

theorem Store.slice_ne_of_ok {α : Type} {s : List (List α)} {p : Option Nat} {xs : List α}
    (h : Store.slice s p = .ok xs) {a : Nat} (ha : s.length ≤ a) : p ≠ some a := by
  rintro rfl
  rcases Store.slice_eq_ok.mp h with ⟨hn, -⟩ | ⟨b, hb, hx⟩
  · cases hn
  · cases hb
    have := Store.lt_of_getElem? hx
    omega

theorem Store.mapOf_ne_of_ok {K V : Type} {s : List (GoMap K V)} {p : Option Nat}
    {m : GoMap K V} (h : Store.mapOf s p = .ok m) {a : Nat} (ha : s.length ≤ a) :
    p ≠ some a := by
  rintro rfl
  rcases Store.mapOf_eq_ok.mp h with ⟨hn, -⟩ | ⟨b, hb, hx⟩
  · cases hn
  · cases hb
    have := Store.lt_of_getElem? hx
    omega

/-- What `LTable.Clone` returns on a table whose containers are allocated, once the call
`tb.Metatable.Clone()` has returned `mt` in heap `h3`: the heap `h3` with the new table and
its four new containers. -/
theorem LTable.Clone_result {n : Nat} {h h3 : Heap} {tb : Nat} {t : LTable} {v : TableView}
    {mt : LValue} (ht : h.tables[tb]? = some t) (hv : t.view h = .ok v)
    (hm : LValue.Clone n { h with tables := h.tables ++ [t] } t.Metatable = .ok (mt, h3)) :
    ∃ t3, h3.tables[tb]? = some t3 ∧ t3.view h3 = .ok v ∧ t3.k2i = t.k2i ∧
      h.values.length ≤ h3.values.length ∧ h.dicts.length ≤ h3.dicts.length ∧
      h.strdicts.length ≤ h3.strdicts.length ∧ tb < h.tables.length ∧
      h.tables.length < h3.tables.length ∧
      LTable.Clone (LValue.Clone n) h tb = .ok (.table h.tables.length,
        { h3 with
          tables := h3.tables.set h.tables.length
            { Metatable := mt, array := some h3.values.length, dict := some h3.dicts.length,
              strdict := some h3.strdicts.length, keys := some (h3.values.length + 1),
              k2i := t.k2i }
          values := h3.values ++ [v.array, v.keys]
          dicts := h3.dicts ++ [v.dict]
          strdicts := h3.strdicts ++ [v.strdict] }) := by
  have e := LValue.value_Clone_ext n _ _ _ _ hm
  have ht' : (h.tables ++ [t])[tb]? = some t := Store.Pres.append _ _ _ _ ht
  obtain ⟨t3, ht3, hk3, hv3⟩ := e.table ht'
  have hv3' := hv3 v (LTable.view_mono (Store.Pres.pres_refl _) (Store.Pres.pres_refl _)
    (Store.Pres.pres_refl _) hv)
  obtain ⟨r3, hr3, hkr⟩ := e.tablesKeep h.tables.length t (List.getElem?_concat_length _ _)
  have hok := LTable.Clone_ok ht hm ht3 hv3'
  refine ⟨t3, ht3, hv3', hk3, e.values.length_le, e.dicts.length_le, e.strdicts.length_le,
    Store.lt_of_getElem? ht, Store.lt_of_getElem? hr3, ?_⟩
  rw [hok]
  congr 2
  have hu : Store.upd h3.tables h.tables.length (fun r =>
      (⟨mt, some h3.values.length, some h3.dicts.length, some h3.strdicts.length,
        some (h3.values.length + 1), r.k2i⟩ : LTable)) = h3.tables.set h.tables.length
      ⟨mt, some h3.values.length, some h3.dicts.length, some h3.strdicts.length,
        some (h3.values.length + 1), t.k2i⟩ := by
    unfold Store.upd
    rw [hr3]
    simp [hkr]
  rw [hu]

theorem LTable.getStr_of_view {h : Heap} {a : Nat} {t : LTable} {v : TableView}
    (ht : h.tables[a]? = some t) (hv : t.view h = .ok v) (key : String) :
    LTable.getStr h (some a) key = .ok (v.strdict.get key) := by
  have l1 : Store.load h.tables (some a) = .ok t := Store.load_eq_ok.mpr ⟨a, rfl, ht⟩
  have l2 := (LTable.view_eq_ok.mp hv).2.2.1
  simp [LTable.getStr, l1, l2, bind, Except.bind, pure, Except.pure]

/-! ## Aliasing between a thread and its clone, on `demoHeap` -/

/-- C1: on thread 0 of `demoHeap`, `LState.Clone` returns thread 1 whose `G` is the Global
record of the source (address 0), so both threads have the same registry table (0) and the
same variables table (1): an entry written to the registry of the source after the clone is
read back through the clone, and an entry written to the variables table through the clone
is read back through the source. -/
theorem LState_Clone_shares_Global :
    ∃ h1 h2 h3, LState.Clone (LValue.Clone 1) demoHeap 0 = .ok (.thread 1, h1) ∧
      LState.getG h1 (some 0) = .ok (some 0) ∧ LState.getG h1 (some 1) = .ok (some 0) ∧
      LState.getRegistry h1 (some 0) = .ok (some 0) ∧
      LState.getRegistry h1 (some 1) = .ok (some 0) ∧
      LState.getGlobal h1 (some 0) = .ok (some 1) ∧
      LState.getGlobal h1 (some 1) = .ok (some 1) ∧
      LTable.getStr h1 (some 0) "k" = .ok none ∧
      LTable.setStr h1 (some 0) "k" (.lnumber 5) = .ok h2 ∧
      LState.getRegistry h2 (some 1) = .ok (some 0) ∧
      LTable.getStr h2 (some 0) "k" = .ok (some (.lnumber 5)) ∧
      LTable.getStr h2 (some 1) "y" = .ok none ∧
      LTable.setStr h2 (some 1) "y" (.lnumber 6) = .ok h3 ∧
      LState.getGlobal h3 (some 0) = .ok (some 1) ∧
      LTable.getStr h3 (some 1) "y" = .ok (some (.lnumber 6)) :=
  ⟨_, _, _, rfl, rfl, rfl, rfl, rfl, rfl, rfl, rfl, rfl, rfl, rfl, rfl, rfl, rfl, rfl⟩

/-- C2: on Global 0 of `demoHeap`, whose `Registry` is table 0 and whose `Global` is table 1,
`Global.Clone` returns Global 1 whose `Registry` and `Global` fields hold the same two
addresses (the clones, tables 4 and 5, are written over tables 0 and 1 instead), so an entry
written to the registry of the source is read back through the clone. -/
theorem Global_Clone_shares_tables :
    ∃ h1 h2 c, Global.Clone (LValue.Clone 1) demoHeap 0 = .ok (1, h1) ∧
      h1.globals[1]? = some c ∧ c.Registry = some 0 ∧ c.Global = some 1 ∧
      (demoHeap.globals[0]?).map (fun g => (g.Registry, g.Global)) = some (some 0, some 1) ∧
      (h1.globals[0]?).map (fun g => (g.Registry, g.Global)) = some (some 0, some 1) ∧
      LTable.getStr h1 c.Registry "k" = .ok none ∧
      LTable.setStr h1 (some 0) "k" (.lnumber 5) = .ok h2 ∧
      LTable.getStr h2 c.Registry "k" = .ok (some (.lnumber 5)) :=
  ⟨_, _, _, rfl, rfl, rfl, rfl, rfl, rfl, rfl, rfl, rfl⟩

/-- C3: on thread 0 of `demoHeap`, after `SaveSnapshot`, overwriting the registry entry
`"r"`, the variable `"x"` and slot 0 of the register stack through the thread, and then
`LoadSnapshot`, the thread still reads the overwritten values, not the values it held at the
moment of `SaveSnapshot`. -/
theorem snapshot_does_not_roll_back :
    ∃ sn h1 h2 h3 h4 h5, SaveSnapshot 1 demoHeap (some 0) = .ok (sn, h1) ∧
      LState.getRegistry h1 (some 0) = .ok (some 0) ∧
      LState.getGlobal h1 (some 0) = .ok (some 1) ∧
      LTable.getStr h1 (some 0) "r" = .ok (some (.lnumber 1)) ∧
      LTable.getStr h1 (some 1) "x" = .ok (some (.lnumber 2)) ∧
      LState.getRegs h1 (some 0) = .ok [.lnumber 10, .lstring "99.9"] ∧
      LTable.setStr h1 (some 0) "r" (.lnumber 42) = .ok h2 ∧
      LTable.setStr h2 (some 1) "x" (.lnumber 43) = .ok h3 ∧
      LState.setReg h3 (some 0) 0 (.lstring "b") = .ok h4 ∧
      LoadSnapshot h4 sn = .ok (some 0, h5) ∧
      LState.getRegistry h5 (some 0) = .ok (some 0) ∧
      LState.getGlobal h5 (some 0) = .ok (some 1) ∧
      LTable.getStr h5 (some 0) "r" = .ok (some (.lnumber 42)) ∧
      LTable.getStr h5 (some 1) "x" = .ok (some (.lnumber 43)) ∧
      LState.getRegs h5 (some 0) = .ok [.lstring "b", .lstring "99.9"] :=
  ⟨_, _, _, _, _, _, rfl, rfl, rfl, rfl, rfl, rfl, rfl, rfl, rfl, rfl, rfl, rfl, rfl, rfl, rfl⟩

/-- C5: on thread 0 of `demoHeap`, `SaveSnapshot` returns a snapshot whose `LPtr` is the
thread and leaves the thread record itself as it was, but it writes to the records the
thread refers to: the `handler` of its register stack now is the clone (thread 1), its
Global now has another map of built-in metatables, in which the string metatable is another
table (6 instead of 2), and its registry table now has another array. -/
theorem SaveSnapshot_writes_to_the_thread :
    ∃ sn h1, SaveSnapshot 1 demoHeap (some 0) = .ok (sn, h1) ∧ sn.LPtr = some 0 ∧
      h1.threads[0]? = demoHeap.threads[0]? ∧
      (demoHeap.regs[0]?).map (fun r => r.handler) = some (some 0) ∧
      (h1.regs[0]?).map (fun r => r.handler) = some (some 1) ∧
      (demoHeap.globals[0]?).map (fun g => g.builtinMts) = some (some 0) ∧
      (h1.globals[0]?).map (fun g => g.builtinMts) = some (some 1) ∧
      (demoHeap.mtMaps[0]?).map (fun m => m.get 3) = some (some (.table 2)) ∧
      (h1.mtMaps[1]?).map (fun m => m.get 3) = some (some (.table 6)) ∧
      (demoHeap.tables[0]?).map (fun t => t.array) = some (some 0) ∧
      (h1.tables[0]?).map (fun t => t.array) = some (some 3) :=
  ⟨_, _, rfl, rfl, rfl, rfl, rfl, rfl, rfl, rfl, rfl, rfl, rfl⟩

/-- C9: on thread 0 of `demoHeap`, the clone (thread 1) has `Env` equal to the `Global` field
of its own `G`, and that table (address 1) is the variables table of the source's Global. -/
theorem LState_Clone_Env_is_source_Global :
    ∃ h1, LState.Clone (LValue.Clone 1) demoHeap 0 = .ok (.thread 1, h1) ∧
      LState.getEnv h1 (some 1) = .ok (some 1) ∧
      LState.getGlobal h1 (some 1) = .ok (some 1) ∧
      LState.getGlobal h1 (some 0) = .ok (some 1) ∧
      LState.getGlobal demoHeap (some 0) = .ok (some 1) :=
  ⟨_, rfl, rfl, rfl, rfl, rfl⟩

/-- C10: on thread 0 of `demoHeap`, the clone (thread 1) has the `reg`, `currentFrame` and
`uvcache` pointers of the source (the copies made by `clone` are written over the records of
the source), so a value written to the register stack through the source after the clone is
read back through the clone; only `stack` points to a new record. -/
theorem LState_Clone_shares_registers :
    ∃ h1 h2 l c, LState.Clone (LValue.Clone 1) demoHeap 0 = .ok (.thread 1, h1) ∧
      h1.threads[0]? = some l ∧ h1.threads[1]? = some c ∧
      l.reg = some 0 ∧ c.reg = some 0 ∧ l.currentFrame = some 0 ∧ c.currentFrame = some 0 ∧
      l.uvcache = some 0 ∧ c.uvcache = some 0 ∧ l.stack = some 0 ∧ c.stack = some 1 ∧
      LState.getRegs h1 (some 1) = .ok [.lnumber 10, .lstring "99.9"] ∧
      LState.setReg h1 (some 0) 0 (.lstring "b") = .ok h2 ∧
      LState.getRegs h2 (some 1) = .ok [.lstring "b", .lstring "99.9"] :=
  ⟨_, _, _, _, rfl, rfl, rfl, rfl, rfl, rfl, rfl, rfl, rfl, rfl, rfl, rfl, rfl, rfl⟩

/-! # Finite metatable chains: `Clone` returns -/

/-- The `Clone` of a scalar value is that value, and the heap is not touched. -/
theorem LValue.Clone_scalar {v : LValue} (hv : v.isScalar = true) (n : Nat) (h : Heap) :
    LValue.Clone n h v = .ok (v, h) := by
  cases v <;> simp [LValue.isScalar] at hv
  · simp [LValue.Clone, LNilType.Clone, LNil]
  · rename_i b
    cases b <;> simp [LValue.Clone, LBool.Clone, LTrue, LFalse]
  · simp [LValue.Clone, LNumber.Clone]
  · simp [LValue.Clone, LString.Clone]
  · simp [LValue.Clone, LChannel.Clone]

/-! ## What `LFunction.Clone` returns -/

theorem LFunction.function_copyRecord_ok {h : Heap} {fn : Nat} {f : LFunction}
    (hf : h.functions[fn]? = some f) :
    LFunction.copyRecord h fn =
      .ok (h.functions.length, { h with functions := h.functions ++ [f] }) := by
  have h1 : Store.load (h.functions ++ [LFunction.zero]) (some fn) = .ok f :=
    Store.load_mono (Store.Pres.append _ _) (Store.load_eq_ok.mpr ⟨fn, rfl, hf⟩)
  simp [LFunction.copyRecord, h1, bind, Except.bind, pure, Except.pure, Store.upd_append_new]

theorem LFunction.cloneUpvalues_ok (h : Heap) (result fn : Nat) {f : LFunction}
    {us : List (Option Nat)} (hne : fn ≠ result) (hf : h.functions[fn]? = some f)
    (hus : Store.slice h.upvalLists f.Upvalues = .ok us) :
    LFunction.cloneUpvalues h result fn =
      .ok { h with
        functions := Store.upd h.functions result
          (fun r => { r with Upvalues := some h.upvalLists.length })
        upvalLists := h.upvalLists ++ [us] } := by
  have h1 : Store.load h.functions (some fn) = .ok f := Store.load_eq_ok.mpr ⟨fn, rfl, hf⟩
  have h2 := Store.load_upd_ne (fun r => { r with Upvalues := some h.upvalLists.length }) hne hf
  have h3 := Store.slice_mono
    (Store.Pres.append h.upvalLists [List.replicate us.length (none : Option Addr)]) hus
  simp [LFunction.cloneUpvalues, Heap.makeUpvalList, Heap.copyUpvalList, h1, h2, h3, hus, bind,
    Except.bind, pure, Except.pure, Store.upd_append_new, copySlice_replicate]

theorem LFunction.function_Clone_ok {h : Heap} {fn : Nat} {f : LFunction}
    {us : List (Option Nat)} (hf : h.functions[fn]? = some f)
    (hus : Store.slice h.upvalLists f.Upvalues = .ok us) :
    LFunction.Clone h fn = .ok (.function h.functions.length,
      { h with
        functions := h.functions ++ [{ f with Upvalues := some h.upvalLists.length }]
        upvalLists := h.upvalLists ++ [us] }) := by
  have hne : fn ≠ h.functions.length := Nat.ne_of_lt (Store.lt_of_getElem? hf)
  have e1 := LFunction.function_copyRecord_ok hf
  have e2 := LFunction.cloneUpvalues_ok { h with functions := h.functions ++ [f] }
    h.functions.length fn hne (Store.Pres.append _ _ _ _ hf) hus
  simp only [Store.upd_append_new] at e2
  simp only [LFunction.Clone, e1, e2, bind, Except.bind, pure, Except.pure]

/-! ## Metatable chains -/

theorem LValue.isChain_zero {lo : Nat} {h : Heap} {v : LValue} :
    LValue.isChain lo 0 h v = true ↔ v.isScalar = true := by
  simp [LValue.isChain]

theorem LValue.isChain_table {lo n : Nat} {h : Heap} {a : Nat} :
    LValue.isChain lo (n + 1) h (.table a) = true ↔
      lo ≤ a ∧ ∃ t w, h.tables[a]? = some t ∧ t.view h = .ok w ∧
        LValue.isChain lo n h t.Metatable = true := by
  simp only [LValue.isChain, Bool.and_eq_true, decide_eq_true_eq]
  constructor
  · rintro ⟨hlo, hm⟩
    refine ⟨hlo, ?_⟩
    split at hm
    · rename_i t ht
      split at hm
      · rename_i w hw
        exact ⟨t, w, ht, hw, hm⟩
      · cases hm
    · cases hm
  · rintro ⟨hlo, t, w, ht, hw, hc⟩
    refine ⟨hlo, ?_⟩
    simp only [ht, hw]
    exact hc

theorem LValue.isChain_succ {lo n : Nat} {h : Heap} {v : LValue}
    (hc : LValue.isChain lo (n + 1) h v = true) : ∃ a, v = .table a := by
  cases v <;> simp [LValue.isChain] at hc
  exact ⟨_, rfl⟩

theorem LValue.isChain_mono {lo : Nat} {h h' : Heap}
    (ht : ∀ (a : Nat) (x : LTable), lo ≤ a → h.tables[a]? = some x → h'.tables[a]? = some x)
    (hv : Store.Pres h.values h'.values) (hd : Store.Pres h.dicts h'.dicts)
    (hs : Store.Pres h.strdicts h'.strdicts) :
    ∀ (n : Nat) (v : LValue), LValue.isChain lo n h v = true →
      LValue.isChain lo n h' v = true := by
  intro n
  induction n with
  | zero =>
    intro v hc
    exact LValue.isChain_zero.mpr (LValue.isChain_zero.mp hc)
  | succ n ih =>
    intro v hc
    obtain ⟨a, rfl⟩ := LValue.isChain_succ hc
    obtain ⟨hlo, t, w, hta, hw, hm⟩ := LValue.isChain_table.mp hc
    exact LValue.isChain_table.mpr
      ⟨hlo, t, w, ht a t hlo hta, LTable.view_mono hv hd hs hw, ih _ hm⟩

theorem LValue.isChain_weaken {lo lo' : Nat} (hl : lo' ≤ lo) {h : Heap} :
    ∀ (n : Nat) (v : LValue), LValue.isChain lo n h v = true →
      LValue.isChain lo' n h v = true := by
  intro n
  induction n with
  | zero =>
    intro v hc
    exact LValue.isChain_zero.mpr (LValue.isChain_zero.mp hc)
  | succ n ih =>
    intro v hc
    obtain ⟨a, rfl⟩ := LValue.isChain_succ hc
    obtain ⟨hlo, t, w, hta, hw, hm⟩ := LValue.isChain_table.mp hc
    exact LValue.isChain_table.mpr ⟨by omega, t, w, hta, hw, ih _ hm⟩

theorem LValue.isChain_unique {lo lo' : Nat} {h : Heap} :
    ∀ (n m : Nat) (v : LValue), LValue.isChain lo n h v = true →
      LValue.isChain lo' m h v = true → n = m := by
  intro n
  induction n with
  | zero =>
    intro m v hn hm
    cases m with
    | zero => rfl
    | succ m =>
      obtain ⟨a, rfl⟩ := LValue.isChain_succ hm
      simp [LValue.isChain, LValue.isScalar] at hn
  | succ n ih =>
    intro m v hn hm
    obtain ⟨a, rfl⟩ := LValue.isChain_succ hn
    cases m with
    | zero => simp [LValue.isChain, LValue.isScalar] at hm
    | succ m =>
      obtain ⟨-, t, w, hta, hw, hc⟩ := LValue.isChain_table.mp hn
      obtain ⟨-, t', w', hta', hw', hc'⟩ := LValue.isChain_table.mp hm
      rw [hta] at hta'
      cases hta'
      rw [ih m _ hc hc']

/-! ## Mirrored chains -/

theorem LValue.Mirror.mirror_zero {lo : Nat} {h h' : Heap} {v r : LValue} :
    LValue.Mirror lo 0 h h' v r ↔ v.isScalar = true ∧ r = v := by
  simp [LValue.Mirror]

theorem LValue.Mirror.mirror_succ {lo n : Nat} {h h' : Heap} {v r : LValue}
    (hm : LValue.Mirror lo (n + 1) h h' v r) : ∃ a a', v = .table a ∧ r = .table a' := by
  cases v <;> cases r <;> simp [LValue.Mirror] at hm
  exact ⟨_, _, rfl, rfl⟩

theorem LValue.Mirror.mirror_table {lo n : Nat} {h h' : Heap} {a a' : Nat} :
    LValue.Mirror lo (n + 1) h h' (.table a) (.table a') ↔
      lo ≤ a' ∧ ∃ t t' w, h.tables[a]? = some t ∧ h'.tables[a']? = some t' ∧
        t.view h = .ok w ∧ t'.view h' = .ok w ∧
        LValue.Mirror (a' + 1) n h h' t.Metatable t'.Metatable := by
  simp [LValue.Mirror]

/-- The new side of a mirrored chain can be moved to a heap that keeps the tables at the
addresses from `lo` on and the element containers. -/
theorem LValue.Mirror.mirror_mono {hb h h' : Heap}
    (hv : Store.Pres h.values h'.values) (hd : Store.Pres h.dicts h'.dicts)
    (hs : Store.Pres h.strdicts h'.strdicts) :
    ∀ (n lo : Nat) (v r : LValue),
      (∀ (a : Nat) (x : LTable), lo ≤ a → h.tables[a]? = some x → h'.tables[a]? = some x) →
      LValue.Mirror lo n hb h v r → LValue.Mirror lo n hb h' v r := by
  intro n
  induction n with
  | zero =>
    intro lo v r _ hm
    exact LValue.Mirror.mirror_zero.mpr (LValue.Mirror.mirror_zero.mp hm)
  | succ n ih =>
    intro lo v r ht hm
    obtain ⟨a, a', rfl, rfl⟩ := hm.mirror_succ
    obtain ⟨hlo, t, t', w, hta, hta', hw, hw', hmm⟩ := LValue.Mirror.mirror_table.mp hm
    refine LValue.Mirror.mirror_table.mpr ⟨hlo, t, t', w, hta, ht a' t' hlo hta',
      hw, LTable.view_mono hv hd hs hw', ih _ _ _ ?_ hmm⟩
    intro b x hb' hx
    exact ht b x (by omega) hx

/-- The new side of a mirrored chain is a chain of the same length, of tables allocated at
`lo` or above. -/
theorem LValue.Mirror.chain_new {hb h : Heap} :
    ∀ (n lo : Nat) (v r : LValue), LValue.Mirror lo n hb h v r →
      LValue.isChain lo n h r = true := by
  intro n
  induction n with
  | zero =>
    intro lo v r hm
    obtain ⟨hs, rfl⟩ := LValue.Mirror.mirror_zero.mp hm
    exact LValue.isChain_zero.mpr hs
  | succ n ih =>
    intro lo v r hm
    obtain ⟨a, a', rfl, rfl⟩ := hm.mirror_succ
    obtain ⟨hlo, t, t', w, hta, hta', hw, hw', hmm⟩ := LValue.Mirror.mirror_table.mp hm
    exact LValue.isChain_table.mpr ⟨hlo, t', w, hta', hw',
      LValue.isChain_weaken (by omega) _ _ (ih _ _ _ hmm)⟩

/-- The old side of a mirrored chain is a chain of the same length. -/
theorem LValue.Mirror.chain_old {hb h : Heap} :
    ∀ (n lo : Nat) (v r : LValue), LValue.Mirror lo n hb h v r →
      LValue.isChain 0 n hb v = true := by
  intro n
  induction n with
  | zero =>
    intro lo v r hm
    obtain ⟨hs, rfl⟩ := LValue.Mirror.mirror_zero.mp hm
    exact LValue.isChain_zero.mpr hs
  | succ n ih =>
    intro lo v r hm
    obtain ⟨a, a', rfl, rfl⟩ := hm.mirror_succ
    obtain ⟨hlo, t, t', w, hta, hta', hw, hw', hmm⟩ := LValue.Mirror.mirror_table.mp hm
    exact LValue.isChain_table.mpr ⟨Nat.zero_le _, t, w, hta, hw, ih _ _ _ hmm⟩

/-! ## Growing heaps -/

theorem Heap.Grow.grow_refl (h : Heap) : Heap.Grow h h :=
  ⟨rfl, Store.Pres.pres_refl _, Store.Pres.pres_refl _, Store.Pres.pres_refl _,
    Store.Pres.pres_refl _⟩

theorem Heap.Grow.grow_trans {h1 h2 h3 : Heap} (g12 : Heap.Grow h1 h2) (g23 : Heap.Grow h2 h3) :
    Heap.Grow h1 h3 :=
  ⟨g23.rest.trans g12.rest, g12.tables.pres_trans g23.tables, g12.values.pres_trans g23.values,
    g12.dicts.pres_trans g23.dicts, g12.strdicts.pres_trans g23.strdicts⟩

theorem Heap.Grow.chains {h h' : Heap} (g : Heap.Grow h h') : Heap.Chains h h' :=
  fun k v hc => LValue.isChain_mono (fun a x _ hx => g.tables a x hx) g.values g.dicts
    g.strdicts k v hc

theorem Heap.Chains.chains_refl (h : Heap) : Heap.Chains h h := fun _ _ hc => hc

theorem Heap.Chains.chains_trans {h1 h2 h3 : Heap} (c12 : Heap.Chains h1 h2)
    (c23 : Heap.Chains h2 h3) : Heap.Chains h1 h3 :=
  fun k v hc => c23 k v (c12 k v hc)

/-- Chains only depend on the tables and their element containers. -/
theorem Heap.Chains.of_eq {h h' : Heap} (ht : h'.tables = h.tables)
    (hv : h'.values = h.values) (hd : h'.dicts = h.dicts) (hs : h'.strdicts = h.strdicts) :
    Heap.Chains h h' := by
  intro k v hc
  refine LValue.isChain_mono ?_ ?_ ?_ ?_ k v hc
  · intro a x _ hx
    rw [ht]
    exact hx
  · rw [hv]
    exact Store.Pres.pres_refl _
  · rw [hd]
    exact Store.Pres.pres_refl _
  · rw [hs]
    exact Store.Pres.pres_refl _

/-- The record that `LTable.Clone` builds reads, through its four new containers, the
elements it was given. -/
theorem LTable.clone_view (h3 : Heap) (ts : List LTable) (mt : LValue) (k : Option Nat)
    (v : TableView) :
    LTable.view
      { h3 with
        tables := ts
        values := h3.values ++ [v.array, v.keys]
        dicts := h3.dicts ++ [v.dict]
        strdicts := h3.strdicts ++ [v.strdict] }
      ⟨mt, some h3.values.length, some h3.dicts.length, some h3.strdicts.length,
        some (h3.values.length + 1), k⟩ = .ok v := by
  rw [LTable.view_eq_ok]
  simp [Store.slice, Store.mapOf]
  constructor <;> simp [List.getElem_append_right]

/-- Cloning a value whose metatable chain has `k` tables, with a budget of at least `k`:
the call returns, the result mirrors the chain in newly allocated tables, and the heap only
grows. -/
theorem LValue.chain_Clone (k : Nat) :
    ∀ (m : Nat) (hb h : Heap) (v : LValue), k ≤ m → LValue.isChain 0 k hb v = true →
      Heap.Grow hb h →
      ∃ r h', LValue.Clone m h v = .ok (r, h') ∧
        LValue.Mirror h.tables.length k hb h' v r ∧ Heap.Grow h h' := by
  induction k with
  | zero =>
    intro m hb h v _ hc _
    have hs := LValue.isChain_zero.mp hc
    exact ⟨v, h, LValue.Clone_scalar hs m h, LValue.Mirror.mirror_zero.mpr ⟨hs, rfl⟩,
      Heap.Grow.grow_refl h⟩
  | succ k ih =>
    intro m hb h v hkm hc g
    obtain ⟨a, rfl⟩ := LValue.isChain_succ hc
    obtain ⟨-, t, w, hta, hw, hmc⟩ := LValue.isChain_table.mp hc
    obtain ⟨m, rfl⟩ : ∃ m', m = m' + 1 := ⟨m - 1, by omega⟩
    have hta' := g.tables a t hta
    have hw' := LTable.view_mono g.values g.dicts g.strdicts hw
    have gs : Heap.Grow hb { h with tables := h.tables ++ [t] } :=
      g.grow_trans ⟨rfl, Store.Pres.append _ _, Store.Pres.pres_refl _, Store.Pres.pres_refl _,
        Store.Pres.pres_refl _⟩
    obtain ⟨mt, h3, hm, hmir, g3⟩ := ih m hb _ t.Metatable (by omega) hmc gs
    obtain ⟨t3, ht3, hv3, -, hlv, hld, hls, htb, hlt, hok⟩ := LTable.Clone_result hta' hw' hm
    have hlen : ({ h with tables := h.tables ++ [t] } : Heap).tables.length =
        h.tables.length + 1 := by simp
    rw [hlen] at hmir
    refine ⟨.table h.tables.length, _, hok, ?_, ?_⟩
    · refine LValue.Mirror.mirror_table.mpr ⟨Nat.le_refl _, t, _, w, hta, ?_,
        hw, LTable.clone_view h3 _ mt t.k2i w, ?_⟩
      · simp [hlt]
      · refine LValue.Mirror.mirror_mono (Store.Pres.append _ _) (Store.Pres.append _ _)
          (Store.Pres.append _ _) _ _ _ _ ?_ hmir
        intro b x hb' hx
        have hne : h.tables.length ≠ b := by omega
        simp only [List.getElem?_set_ne hne]
        exact hx
    · refine ⟨g3.rest, ?_, ?_, ?_, ?_⟩
      · exact ((Store.Pres.append _ _).pres_trans g3.tables).set_fresh _ (Nat.le_refl _)
      · exact g3.values.pres_trans (Store.Pres.append _ _)
      · exact g3.dicts.pres_trans (Store.Pres.append _ _)
      · exact g3.strdicts.pres_trans (Store.Pres.append _ _)

theorem Heap.chainWithin_iff {n : Nat} {h : Heap} {v : LValue} :
    Heap.chainWithin n h v = true ↔ ∃ k, k ≤ n ∧ LValue.isChain 0 k h v = true := by
  simp only [Heap.chainWithin, List.any_eq_true, List.mem_range]
  constructor
  · rintro ⟨k, hk, hc⟩
    exact ⟨k, by omega, hc⟩
  · rintro ⟨k, hk, hc⟩
    exact ⟨k, by omega, hc⟩

theorem Heap.Chains.chainWithin {h h' : Heap} (c : Heap.Chains h h') {n : Nat} {v : LValue}
    (hc : Heap.chainWithin n h v = true) : Heap.chainWithin n h' v = true := by
  obtain ⟨k, hk, hck⟩ := Heap.chainWithin_iff.mp hc
  exact Heap.chainWithin_iff.mpr ⟨k, hk, c k v hck⟩

theorem Heap.Chains.tableOk {h h' : Heap} (c : Heap.Chains h h') {n : Nat} {p : Option Nat}
    (hc : Heap.tableOk n h p = true) : Heap.tableOk n h' p = true := by
  cases p with
  | none => rfl
  | some a => exact c.chainWithin hc

theorem Heap.Chains.mtOk {h h' : Heap} (c : Heap.Chains h h') {n : Nat} {v : LValue}
    (hc : Heap.mtOk n h v = true) : Heap.mtOk n h' v = true := by
  simp only [Heap.mtOk, Bool.or_eq_true] at hc ⊢
  rcases hc with hc | hc
  · exact Or.inl hc
  · exact Or.inr (c.chainWithin hc)

/-- `LTable.Clone` on a table whose metatable chain reaches a scalar after at most `n`
metatables, with budget `n`: the call returns the next table address, the heap only grows,
and the clone mirrors the table and its chain. -/
theorem LTable.chain_table_Clone {n : Nat} {h : Heap} {a : Nat}
    (hc : Heap.tableOk n h (some a) = true) :
    ∃ k h2, k ≤ n ∧ LTable.Clone (LValue.Clone n) h a = .ok (.table h.tables.length, h2) ∧
      LValue.Mirror h.tables.length (k + 1) h h2 (.table a) (.table h.tables.length) ∧
      Heap.Grow h h2 := by
  obtain ⟨k, hk, hck⟩ := Heap.chainWithin_iff.mp hc
  cases k with
  | zero => simp [LValue.isChain, LValue.isScalar] at hck
  | succ k =>
    obtain ⟨r, h2, hcl, hm, g⟩ :=
      LValue.chain_Clone (k + 1) (n + 1) h h (.table a) hk hck (Heap.Grow.grow_refl h)
    have hcl' : LTable.Clone (LValue.Clone n) h a = .ok (r, h2) := hcl
    obtain ⟨hr, -⟩ := LTable.table_Clone_ext (LValue.value_Clone_ext n) hcl'
    subst hr
    exact ⟨k, h2, by omega, hcl', hm, g⟩

theorem Heap.Grow.globals_eq {h h' : Heap} (g : Heap.Grow h h') : h'.globals = h.globals := by
  have e := congrArg Heap.globals g.rest
  exact e

theorem Heap.Grow.mtMaps_eq {h h' : Heap} (g : Heap.Grow h h') : h'.mtMaps = h.mtMaps := by
  have e := congrArg Heap.mtMaps g.rest
  exact e

theorem Heap.Grow.fileLists_eq {h h' : Heap} (g : Heap.Grow h h') : h'.fileLists = h.fileLists := by
  have e := congrArg Heap.fileLists g.rest
  exact e

theorem Heap.Grow.threads_eq {h h' : Heap} (g : Heap.Grow h h') : h'.threads = h.threads := by
  have e := congrArg Heap.threads g.rest
  exact e

theorem Heap.Grow.userdata_eq {h h' : Heap} (g : Heap.Grow h h') : h'.userdata = h.userdata := by
  have e := congrArg Heap.userdata g.rest
  exact e

/-- Overwriting table `rt` with the record of its clone keeps every metatable chain: the
chain through `rt` continues in the cloned metatables, which have the same length. -/
theorem Heap.Chains.in_place {h h2 : Heap} {rt k : Nat} {c : LTable} (g : Heap.Grow h h2)
    (hm : LValue.Mirror h.tables.length (k + 1) h h2 (.table rt) (.table h.tables.length))
    (hc : h2.tables[h.tables.length]? = some c) :
    Heap.Chains h { h2 with tables := h2.tables.set rt c } := by
  obtain ⟨-, t, t', w, hta, hta', hw, hw', hmm⟩ := LValue.Mirror.mirror_table.mp hm
  rw [hc] at hta'
  cases hta'
  have hrt : rt < h.tables.length := Store.lt_of_getElem? hta
  have hrt2 : rt < h2.tables.length := Store.lt_of_getElem? (g.tables rt t hta)
  have hold := LValue.Mirror.chain_old _ _ _ _ hmm
  have hnew : LValue.isChain 0 k { h2 with tables := h2.tables.set rt c } c.Metatable = true := by
    have hmono : ∀ (n : Nat) (v : LValue),
        LValue.isChain (h.tables.length + 1) n h2 v = true →
        LValue.isChain (h.tables.length + 1) n { h2 with tables := h2.tables.set rt c } v =
          true := by
      refine LValue.isChain_mono ?_ (Store.Pres.pres_refl _) (Store.Pres.pres_refl _)
        (Store.Pres.pres_refl _)
      intro b x hb hx
      have hne : rt ≠ b := by omega
      simp only [List.getElem?_set_ne hne]
      exact hx
    exact LValue.isChain_weaken (Nat.zero_le (h.tables.length + 1)) _ _
      (hmono _ _ (LValue.Mirror.chain_new _ _ _ _ hmm))
  intro j
  induction j with
  | zero =>
    intro v hj
    exact LValue.isChain_zero.mpr (LValue.isChain_zero.mp hj)
  | succ j ih =>
    intro v hj
    obtain ⟨a, rfl⟩ := LValue.isChain_succ hj
    obtain ⟨-, ta, wa, htaa, hwa, hma⟩ := LValue.isChain_table.mp hj
    by_cases har : rt = a
    · subst har
      rw [hta] at htaa
      cases htaa
      have hjk : j = k := LValue.isChain_unique _ _ _ hma hold
      subst hjk
      refine LValue.isChain_table.mpr ⟨Nat.zero_le _, c, w, ?_, ?_, hnew⟩
      · simp [hrt2]
      · exact LTable.view_mono (Store.Pres.pres_refl _) (Store.Pres.pres_refl _)
          (Store.Pres.pres_refl _) hw'
    · refine LValue.isChain_table.mpr ⟨Nat.zero_le _, ta, wa, ?_, ?_, ih _ hma⟩
      · simp only [List.getElem?_set_ne har]
        exact g.tables a ta htaa
      · exact LTable.view_mono g.values g.dicts g.strdicts hwa

/-- The statement `*p = *p.Clone().(*LTable)` on a table whose metatable chain reaches a
scalar after at most `n` metatables: the clone returns, the assertion holds, the table is
overwritten, and every metatable chain of the heap is kept. -/
theorem LTable.clone_in_place_ok {n : Nat} {h : Heap} {rt : Nat}
    (hc : Heap.tableOk n h (some rt) = true) :
    ∃ h2 c, LTable.Clone (LValue.Clone n) h rt = .ok (.table h.tables.length, h2) ∧
      Store.load h2.tables (some h.tables.length) = .ok c ∧
      Store.store h2.tables (some rt) c = .ok (h2.tables.set rt c) ∧
      Heap.Grow h h2 ∧ Heap.Chains h { h2 with tables := h2.tables.set rt c } := by
  obtain ⟨k, h2, -, hcl, hm, g⟩ := LTable.chain_table_Clone hc
  obtain ⟨-, t, c, w, hta, hc2, -, -, -⟩ := LValue.Mirror.mirror_table.mp hm
  exact ⟨h2, c, hcl, Store.load_eq_ok.mpr ⟨_, rfl, hc2⟩,
    Store.store_eq_ok.mpr ⟨rt, t, rfl, g.tables rt t hta, rfl⟩, g, Heap.Chains.in_place g hm hc2⟩

/-! ## `Global.Clone` returns on a well-formed Global -/

theorem Global.cloneRegistry_ok {n : Nat} {h : Heap} {result g : Nat} {gr r : GlobalRecord}
    (hg : h.globals[g]? = some gr) (hr : h.globals[result]? = some r)
    (hlink : r.Registry = gr.Registry) (hok : Heap.tableOk n h gr.Registry = true) :
    ∃ h', Global.cloneRegistry (LValue.Clone n) h result g = .ok h' ∧ Heap.Chains h h' ∧
      h'.globals = h.globals ∧ h'.mtMaps = h.mtMaps ∧ h'.fileLists = h.fileLists ∧
      h'.threads = h.threads ∧
      ∀ (a : Nat) (x : LTable), some a ≠ gr.Registry → h.tables[a]? = some x →
        h'.tables[a]? = some x := by
  have l1 : Store.load h.globals (some g) = .ok gr := Store.load_eq_ok.mpr ⟨g, rfl, hg⟩
  have l2 : Store.load h.globals (some result) = .ok r := Store.load_eq_ok.mpr ⟨result, rfl, hr⟩
  cases hreg : gr.Registry with
  | none =>
    refine ⟨h, ?_, Heap.Chains.chains_refl h, rfl, rfl, rfl, rfl, fun _ _ _ hx => hx⟩
    simp [Global.cloneRegistry, l1, hreg, bind, Except.bind, pure, Except.pure]
  | some rt =>
    rw [hreg] at hok hlink
    obtain ⟨h2, c, hcl, hld, hst, gw, hch⟩ := LTable.clone_in_place_ok hok
    refine ⟨{ h2 with tables := h2.tables.set rt c }, ?_, hch, gw.globals_eq, gw.mtMaps_eq,
      gw.fileLists_eq, gw.threads_eq, ?_⟩
    · simp [Global.cloneRegistry, l1, l2, hreg, hlink, hcl, hld, hst, LValue.toTable, bind,
        Except.bind, pure, Except.pure]
    · intro a x hne hx
      have hne' : rt ≠ a := fun e => hne (by rw [e])
      simp only [List.getElem?_set_ne hne']
      exact gw.tables a x hx

theorem Global.cloneGlobal_ok {n : Nat} {h : Heap} {result g : Nat} {gr r : GlobalRecord}
    (hg : h.globals[g]? = some gr) (hr : h.globals[result]? = some r)
    (hlink : r.Global = gr.Global) (hok : Heap.tableOk n h gr.Global = true) :
    ∃ h', Global.cloneGlobal (LValue.Clone n) h result g = .ok h' ∧ Heap.Chains h h' ∧
      h'.globals = h.globals ∧ h'.mtMaps = h.mtMaps ∧ h'.fileLists = h.fileLists ∧
      h'.threads = h.threads := by
  have l1 : Store.load h.globals (some g) = .ok gr := Store.load_eq_ok.mpr ⟨g, rfl, hg⟩
  have l2 : Store.load h.globals (some result) = .ok r := Store.load_eq_ok.mpr ⟨result, rfl, hr⟩
  cases hreg : gr.Global with
  | none =>
    refine ⟨h, ?_, Heap.Chains.chains_refl h, rfl, rfl, rfl, rfl⟩
    simp [Global.cloneGlobal, l1, hreg, bind, Except.bind, pure, Except.pure]
  | some rt =>
    rw [hreg] at hok hlink
    obtain ⟨h2, c, hcl, hld, hst, gw, hch⟩ := LTable.clone_in_place_ok hok
    refine ⟨{ h2 with tables := h2.tables.set rt c }, ?_, hch, gw.globals_eq, gw.mtMaps_eq,
      gw.fileLists_eq, gw.threads_eq⟩
    simp [Global.cloneGlobal, l1, l2, hreg, hlink, hcl, hld, hst, LValue.toTable, bind,
      Except.bind, pure, Except.pure]

theorem Global.cloneMt_ok {n : Nat} (m : Nat) {h : Heap} {e : Int × LValue}
    (hok : Heap.mtOk n h e.2 = true) :
    ∃ h', Global.cloneMt (LValue.Clone n) m h e = .ok h' ∧ Heap.Chains h h' ∧
      h'.globals = h.globals ∧ h'.fileLists = h.fileLists ∧ h'.threads = h.threads := by
  obtain ⟨key, v⟩ := e
  by_cases hv : v = .iface_nil
  · subst hv
    exact ⟨h, rfl, Heap.Chains.chains_refl h, rfl, rfl, rfl⟩
  · have hcw : Heap.chainWithin n h v = true := by
      simp only [Heap.mtOk, Bool.or_eq_true, beq_iff_eq] at hok
      rcases hok with hok | hok
      · exact absurd hok hv
      · exact hok
    obtain ⟨k, hk, hck⟩ := Heap.chainWithin_iff.mp hcw
    obtain ⟨c, h2, hcl, -, gw⟩ := LValue.chain_Clone k n h h v hk hck (Heap.Grow.grow_refl h)
    have hun : Global.cloneMt (LValue.Clone n) m h (key, v) =
        (do
          let (c, h) ← LValue.Clone n h v
          pure (h.mtMapSet m key c)) := by
      cases v <;> first | exact absurd rfl hv | rfl
    refine ⟨h2.mtMapSet m key c, ?_, ?_, gw.globals_eq, gw.fileLists_eq, gw.threads_eq⟩
    · rw [hun, hcl]
      rfl
    · exact gw.chains.chains_trans (Heap.Chains.of_eq rfl rfl rfl rfl)

theorem Global.cloneMts_ok {n : Nat} (m : Nat) :
    ∀ (es : List (Int × LValue)) (h : Heap), (∀ e ∈ es, Heap.mtOk n h e.2 = true) →
      ∃ h', es.foldlM (Global.cloneMt (LValue.Clone n) m) h = .ok h' ∧ Heap.Chains h h' ∧
        h'.globals = h.globals ∧ h'.fileLists = h.fileLists ∧ h'.threads = h.threads := by
  intro es
  induction es with
  | nil =>
    intro h _
    exact ⟨h, rfl, Heap.Chains.chains_refl h, rfl, rfl, rfl⟩
  | cons e rest ih =>
    intro h hok
    obtain ⟨h2, hc2, ch2, g2, f2, t2⟩ := Global.cloneMt_ok m (hok e (List.mem_cons_self _ _))
    obtain ⟨h3, hc3, ch3, g3, f3, t3⟩ := ih h2 (fun e' he' =>
      ch2.mtOk (hok e' (List.mem_cons_of_mem _ he')))
    refine ⟨h3, ?_, ch2.chains_trans ch3, g3.trans g2, f3.trans f2, t3.trans t2⟩
    simp only [List.foldlM_cons, hc2, hc3, bind, Except.bind]

theorem Store.ptrOk_slice {α : Type} {s : List (List α)} {p : Option Nat}
    (hp : Store.ptrOk s p = true) : ∃ xs, Store.slice s p = .ok xs := by
  cases p with
  | none => exact ⟨[], rfl⟩
  | some a =>
    simp only [Store.ptrOk, decide_eq_true_eq] at hp
    exact ⟨s[a], Store.slice_eq_ok.mpr (Or.inr ⟨a, rfl, List.getElem?_eq_getElem hp⟩)⟩

theorem Store.ptrOk_load {α : Type} {s : List α} {a : Nat}
    (hp : Store.ptrOk s (some a) = true) : ∃ x, s[a]? = some x := by
  simp only [Store.ptrOk, decide_eq_true_eq] at hp
  exact ⟨s[a], List.getElem?_eq_getElem hp⟩

theorem Store.range_mono {K V : Type} {s s' : List (GoMap K V)} (hp : Store.Pres s s')
    {p : Option Nat} {es : List (K × V)} (h : Store.range s p = .ok es) :
    Store.range s' p = .ok es := by
  obtain ⟨m, hm, rfl⟩ := Store.range_eq_ok.mp h
  exact Store.range_eq_ok.mpr ⟨m, Store.mapOf_mono hp hm, rfl⟩

theorem Global.global_wellFormed_iff {n : Nat} {h : Heap} {g : Nat} :
    Global.wellFormed n h g = true ↔
      ∃ gr es fs, h.globals[g]? = some gr ∧ Heap.tableOk n h gr.Registry = true ∧
        Heap.tableOk n h gr.Global = true ∧ Store.range h.mtMaps gr.builtinMts = .ok es ∧
        (∀ e ∈ es, Heap.mtOk n h e.2 = true) ∧
        Store.slice h.fileLists gr.tempFiles = .ok fs := by
  unfold Global.wellFormed
  constructor
  · intro hw
    split at hw
    · cases hw
    · rename_i gr hgr
      simp only [Bool.and_eq_true] at hw
      obtain ⟨⟨⟨h1, h2⟩, h3⟩, h4⟩ := hw
      split at h3
      · rename_i es hes
        obtain ⟨fs, hfs⟩ := Store.ptrOk_slice h4
        exact ⟨gr, es, fs, hgr, h1, h2, hes, by simpa [List.all_eq_true] using h3, hfs⟩
      · cases h3
  · rintro ⟨gr, es, fs, hgr, h1, h2, hes, h3, hfs⟩
    simp only [hgr, h1, h2, hes, Bool.and_eq_true, true_and]
    refine ⟨by simpa [List.all_eq_true] using h3, ?_⟩
    rcases Store.slice_eq_ok.mp hfs with ⟨hn, -⟩ | ⟨a, ha, hx⟩
    · rw [hn]
      rfl
    · rw [ha]
      simp [Store.ptrOk, Store.lt_of_getElem? hx]

theorem Global.global_copyRecord_ok {h : Heap} {g : Nat} {gr : GlobalRecord}
    (hg : h.globals[g]? = some gr) :
    Global.copyRecord h g = .ok (h.globals.length, { h with globals := h.globals ++ [gr] }) := by
  have h1 : Store.load (h.globals ++ [Global.zero]) (some g) = .ok gr :=
    Store.load_mono (Store.Pres.append _ _) (Store.load_eq_ok.mpr ⟨g, rfl, hg⟩)
  simp [Global.copyRecord, h1, bind, Except.bind, pure, Except.pure, Store.upd_append_new]

theorem Global.cloneBuiltinMts_ok {n : Nat} {h : Heap} {result g : Nat} {gr : GlobalRecord}
    {es : List (Int × LValue)} (hg : h.globals[g]? = some gr) (hne : g ≠ result)
    (hes : Store.range h.mtMaps gr.builtinMts = .ok es)
    (hok : ∀ e ∈ es, Heap.mtOk n h e.2 = true) :
    ∃ h', Global.cloneBuiltinMts (LValue.Clone n) h result g = .ok h' ∧ Heap.Chains h h' ∧
      h'.globals = Store.upd h.globals result
        (fun r => { r with builtinMts := some h.mtMaps.length }) ∧
      h'.fileLists = h.fileLists ∧ h'.threads = h.threads := by
  have l1 := Store.load_upd_ne (fun r => { r with builtinMts := some h.mtMaps.length }) hne hg
  have l2 := Store.range_mono (Store.Pres.append h.mtMaps [GoMap.empty]) hes
  have c0 : Heap.Chains h
      { h with
        mtMaps := h.mtMaps ++ [GoMap.empty]
        globals := Store.upd h.globals result
          (fun r => { r with builtinMts := some h.mtMaps.length }) } :=
    Heap.Chains.of_eq rfl rfl rfl rfl
  obtain ⟨h', hc, ch, g1, f1, t1⟩ := Global.cloneMts_ok (n := n) h.mtMaps.length es _
    (fun e he => c0.mtOk (hok e he))
  refine ⟨h', ?_, c0.chains_trans ch, g1, f1, t1⟩
  simp [Global.cloneBuiltinMts, Heap.makeMtMap, l1, l2, hc, bind, Except.bind]

theorem Global.cloneTempFiles_ok (h : Heap) (result g : Nat) {gr : GlobalRecord}
    {fs : List (Option Nat)} (hne : g ≠ result) (hg : h.globals[g]? = some gr)
    (hfs : Store.slice h.fileLists gr.tempFiles = .ok fs) :
    Global.cloneTempFiles h result g =
      .ok { h with
        globals := Store.upd h.globals result
          (fun r => { r with tempFiles := some h.fileLists.length })
        fileLists := h.fileLists ++ [fs] } := by
  have h1 : Store.load h.globals (some g) = .ok gr := Store.load_eq_ok.mpr ⟨g, rfl, hg⟩
  have h2 := Store.load_upd_ne (fun r => { r with tempFiles := some h.fileLists.length }) hne hg
  have h3 := Store.slice_mono
    (Store.Pres.append h.fileLists [List.replicate fs.length (none : Option Nat)]) hfs
  simp [Global.cloneTempFiles, Heap.makeFileList, Heap.copyFileList, h1, h2, h3, hfs, bind,
    Except.bind, pure, Except.pure, Store.upd_append_new, copySlice_replicate]

/-- `Global.Clone` returns on a well-formed Global: the result is a new Global record that
differs from the source's in its map of built-in metatables and its list of temporary files,
both newly allocated; the source's record is unchanged, and so are the threads. -/
theorem Global.global_Clone_ok {n : Nat} {h : Heap} {g : Nat}
    (hwf : Global.wellFormed n h g = true) :
    ∃ gr fs h1, h.globals[g]? = some gr ∧ Store.slice h.fileLists gr.tempFiles = .ok fs ∧
      Global.Clone (LValue.Clone n) h g = .ok (h.globals.length, h1) ∧ Heap.Chains h h1 ∧
      h1.globals = h.globals ++
        [{ gr with builtinMts := some h.mtMaps.length, tempFiles := some h.fileLists.length }] ∧
      h1.fileLists = h.fileLists ++ [fs] ∧ h1.threads = h.threads := by
  obtain ⟨gr, es, fs, hg, hR, hG, hes, hmt, hfs⟩ := Global.global_wellFormed_iff.mp hwf
  have hlt := Store.lt_of_getElem? hg
  have hne : g ≠ h.globals.length := Nat.ne_of_lt hlt
  have e1 := Global.global_copyRecord_ok hg
  have c12 : Heap.Chains h { h with globals := h.globals ++ [gr] } :=
    Heap.Chains.of_eq rfl rfl rfl rfl
  have hg2 : ({ h with globals := h.globals ++ [gr] } : Heap).globals[g]? = some gr :=
    Store.Pres.append _ _ _ _ hg
  have hr2 : ({ h with globals := h.globals ++ [gr] } : Heap).globals[h.globals.length]? =
      some gr := List.getElem?_concat_length _ _
  obtain ⟨h3, e3, c23, g3, m3, f3, t3, -⟩ :=
    Global.cloneRegistry_ok (n := n) hg2 hr2 rfl (c12.tableOk hR)
  have c13 := c12.chains_trans c23
  obtain ⟨h4, e4, c34, g4, m4, f4, t4⟩ :=
    Global.cloneGlobal_ok (n := n) (g3 ▸ hg2) (g3 ▸ hr2) rfl (c13.tableOk hG)
  have c14 := c13.chains_trans c34
  have hg4 : h4.globals[g]? = some gr := by
    rw [g4, g3]
    exact hg2
  have hes4 : Store.range h4.mtMaps gr.builtinMts = .ok es := by
    rw [m4, m3]
    exact hes
  obtain ⟨h5, e5, c45, g5, f5, t5⟩ :=
    Global.cloneBuiltinMts_ok (n := n) hg4 hne hes4 (fun e he => c14.mtOk (hmt e he))
  have hg5 : h5.globals[g]? = some gr := by
    rw [g5, Store.getElem?_upd_ne _ _ (Ne.symm hne)]
    exact hg4
  have hfs5 : Store.slice h5.fileLists gr.tempFiles = .ok fs := by
    rw [f5, f4, f3]
    exact hfs
  have e6 := Global.cloneTempFiles_ok h5 h.globals.length g hne hg5 hfs5
  have c56 : Heap.Chains h5
      { h5 with
        globals := Store.upd h5.globals h.globals.length
          (fun r => { r with tempFiles := some h5.fileLists.length })
        fileLists := h5.fileLists ++ [fs] } :=
    Heap.Chains.of_eq rfl rfl rfl rfl
  refine ⟨gr, fs,
    { h5 with
      globals := Store.upd h5.globals h.globals.length
        (fun r => { r with tempFiles := some h5.fileLists.length })
      fileLists := h5.fileLists ++ [fs] }, hg, hfs, ?_, ?_, ?_, ?_, ?_⟩
  · simp only [Global.Clone, e1, e3, e4, e5, e6, bind, Except.bind, pure, Except.pure]
  · exact (c14.chains_trans c45).chains_trans c56
  · show Store.upd h5.globals h.globals.length _ = _
    rw [g5, g4, g3, Store.upd_upd, Store.upd_append_new, f5, f4, f3, m4, m3]
  · show h5.fileLists ++ [fs] = _
    rw [f5, f4, f3]
  · show h5.threads = _
    rw [t5, t4, t3]

/-! ## `LState.Clone` returns on a well-formed thread -/

theorem LState.thread_wellFormed_iff {n : Nat} {h : Heap} {l : Nat} :
    LState.wellFormed n h l = true ↔
      ∃ ls g, h.threads[l]? = some ls ∧ ls.G = some g ∧ Global.wellFormed n h g = true ∧
        Heap.tableOk n h ls.Env = true ∧ Store.ptrOk h.regs ls.reg = true ∧
        Store.ptrOk h.frameStacks ls.stack = true ∧
        Store.ptrOk h.frames ls.currentFrame = true ∧
        Store.ptrOk h.upvalues ls.uvcache = true := by
  unfold LState.wellFormed
  constructor
  · intro hw
    split at hw
    · cases hw
    · rename_i ls hls
      simp only [Bool.and_eq_true] at hw
      obtain ⟨⟨⟨⟨⟨h1, h2⟩, h3⟩, h4⟩, h5⟩, h6⟩ := hw
      split at h1
      · cases h1
      · rename_i g hg
        exact ⟨ls, g, hls, hg, h1, h2, h3, h4, h5, h6⟩
  · rintro ⟨ls, g, hls, hg, h1, h2, h3, h4, h5, h6⟩
    simp [hls, hg, h1, h2, h3, h4, h5, h6]

theorem Store.ptrOk_of_exists {α β : Type} {s : List α} {s' : List β}
    (hk : ∀ (a : Nat) (x : α), s[a]? = some x → ∃ y, s'[a]? = some y) {p : Option Nat}
    (hp : Store.ptrOk s p = true) : Store.ptrOk s' p = true := by
  cases p with
  | none => rfl
  | some a =>
    obtain ⟨x, hx⟩ := Store.ptrOk_load hp
    obtain ⟨y, hy⟩ := hk a x hx
    simp [Store.ptrOk, Store.lt_of_getElem? hy]

theorem Global.wellFormed_mono {n : Nat} {h h' : Heap} {g : Nat} (c : Heap.Chains h h')
    (hg : h'.globals = h.globals) (hm : h'.mtMaps = h.mtMaps) (hf : h'.fileLists = h.fileLists)
    (hw : Global.wellFormed n h g = true) : Global.wellFormed n h' g = true := by
  obtain ⟨gr, es, fs, hgr, hR, hG, hes, hmt, hfs⟩ := Global.global_wellFormed_iff.mp hw
  refine Global.global_wellFormed_iff.mpr ⟨gr, es, fs, ?_, c.tableOk hR, c.tableOk hG, ?_,
    fun e he => c.mtOk (hmt e he), ?_⟩
  · rw [hg]
    exact hgr
  · rw [hm]
    exact hes
  · rw [hf]
    exact hfs

theorem LState.thread_copyRecord_ok {h : Heap} {l : Nat} {ls : LState} (hl : h.threads[l]? = some ls) :
    LState.copyRecord h l = .ok (h.threads.length, { h with threads := h.threads ++ [ls] }) := by
  have h1 : Store.load (h.threads ++ [LState.zero]) (some l) = .ok ls :=
    Store.load_mono (Store.Pres.append _ _) (Store.load_eq_ok.mpr ⟨l, rfl, hl⟩)
  simp [LState.copyRecord, h1, bind, Except.bind, pure, Except.pure, Store.upd_append_new]

theorem LState.cloneG_ok {n : Nat} {h : Heap} {result l g : Nat} {ls r : LState}
    (hl : h.threads[l]? = some ls) (hr : h.threads[result]? = some r) (hlink : r.G = ls.G)
    (hG : ls.G = some g) (hwf : Global.wellFormed n h g = true) :
    ∃ h', LState.cloneG (LValue.Clone n) h result l = .ok h' ∧ Heap.Chains h h' ∧
      h'.threads = h.threads := by
  obtain ⟨gr, fs, h1, hg, -, hc, ch, hgl, -, hth⟩ := Global.global_Clone_ok hwf
  have l1 : Store.load h.threads (some l) = .ok ls := Store.load_eq_ok.mpr ⟨l, rfl, hl⟩
  have l2 : Store.load h.threads (some result) = .ok r := Store.load_eq_ok.mpr ⟨result, rfl, hr⟩
  have l3 : Store.load h1.globals (some h.globals.length) =
      .ok { gr with builtinMts := some h.mtMaps.length, tempFiles := some h.fileLists.length } := by
    rw [hgl]
    exact Store.load_eq_ok.mpr ⟨_, rfl, List.getElem?_concat_length _ _⟩
  have l4 : Store.store h1.globals (some g)
      { gr with builtinMts := some h.mtMaps.length, tempFiles := some h.fileLists.length } =
      .ok (h1.globals.set g
        { gr with builtinMts := some h.mtMaps.length, tempFiles := some h.fileLists.length }) := by
    refine Store.store_eq_ok.mpr ⟨g, gr, rfl, ?_, rfl⟩
    rw [hgl]
    exact Store.Pres.append _ _ _ _ hg
  have c2 : ∀ gs : List GlobalRecord, Heap.Chains h1 { h1 with globals := gs } :=
    fun _ => Heap.Chains.of_eq rfl rfl rfl rfl
  refine ⟨{ h1 with globals := (h1.globals.set g
    { gr with builtinMts := some h.mtMaps.length, tempFiles := some h.fileLists.length }) },
    ?_, ch.chains_trans (c2 _), hth⟩
  rw [hG] at hlink
  simp [LState.cloneG, l1, l2, hG, hlink, hc, l3, l4, bind, Except.bind, pure, Except.pure]

theorem LState.thread_cloneEnv_ok {n : Nat} {h : Heap} {result l g : Nat} {ls r : LState}
    (hl : h.threads[l]? = some ls) (hr : h.threads[result]? = some r) (hlink : r.Env = ls.Env)
    (hG : r.G = some g) (hg : Store.ptrOk h.globals (some g) = true)
    (hok : Heap.tableOk n h ls.Env = true) :
    ∃ h', LState.cloneEnv (LValue.Clone n) h result l = .ok h' ∧
      h'.threads.length = h.threads.length := by
  have l1 : Store.load h.threads (some l) = .ok ls := Store.load_eq_ok.mpr ⟨l, rfl, hl⟩
  have l2 : Store.load h.threads (some result) = .ok r := Store.load_eq_ok.mpr ⟨result, rfl, hr⟩
  cases henv : ls.Env with
  | none =>
    refine ⟨h, ?_, rfl⟩
    simp [LState.cloneEnv, l1, henv, bind, Except.bind, pure, Except.pure]
  | some env =>
    rw [henv] at hok hlink
    obtain ⟨h2, c, hcl, hld, hst, gw, -⟩ := LTable.clone_in_place_ok hok
    obtain ⟨gr, hgr⟩ := Store.ptrOk_load hg
    have l3 : Store.load h2.threads (some result) = .ok r := by
      rw [gw.threads_eq]
      exact l2
    have l4 : Store.load h2.globals (some g) = .ok gr := by
      rw [gw.globals_eq]
      exact Store.load_eq_ok.mpr ⟨g, rfl, hgr⟩
    refine ⟨{ h2 with
      tables := h2.tables.set env c
      threads := Store.upd h2.threads result (fun r => { r with Env := gr.Global }) }, ?_, ?_⟩
    · simp [LState.cloneEnv, l1, l2, henv, hlink, hcl, hld, hst, l3, hG, l4, LValue.toTable, bind,
        Except.bind, pure, Except.pure]
    · simp [Store.upd_length, gw.threads_eq]

theorem LState.cloneReg_ok {h : Heap} {result l : Nat} {ls r : LState}
    (hl : h.threads[l]? = some ls) (hr : h.threads[result]? = some r) (hlink : r.reg = ls.reg)
    (hp : Store.ptrOk h.regs ls.reg = true) :
    ∃ h', LState.cloneReg h result l = .ok h' := by
  have l1 : Store.load h.threads (some l) = .ok ls := Store.load_eq_ok.mpr ⟨l, rfl, hl⟩
  have l2 : Store.load h.threads (some result) = .ok r := Store.load_eq_ok.mpr ⟨result, rfl, hr⟩
  cases hreg : ls.reg with
  | none =>
    refine ⟨h, ?_⟩
    simp [LState.cloneReg, l1, hreg, bind, Except.bind, pure, Except.pure]
  | some rg =>
    rw [hreg] at hp hlink
    obtain ⟨x, hx⟩ := Store.ptrOk_load hp
    have hlt := Store.lt_of_getElem? hx
    have l3 : Store.load h.regs (some rg) = .ok x := Store.load_eq_ok.mpr ⟨rg, rfl, hx⟩
    have l4 : Store.load (h.regs ++ [x]) (some h.regs.length) = .ok x :=
      Store.load_eq_ok.mpr ⟨_, rfl, List.getElem?_concat_length _ _⟩
    have l5 : Store.store (h.regs ++ [x]) (some rg) x = .ok ((h.regs ++ [x]).set rg x) :=
      Store.store_eq_ok.mpr ⟨rg, x, rfl, Store.Pres.append _ _ _ _ hx, rfl⟩
    have hlt2 : rg < (h.regs ++ [x]).length :=
      Store.lt_of_getElem? (Store.Pres.append _ _ _ _ hx)
    have hset : ((h.regs ++ [x]).set rg x)[rg]? = some x := by
      rw [List.getElem?_set]
      simp [Nat.lt_succ_of_lt hlt]
    have l6 : Store.load ((h.regs ++ [x]).set rg x) (some rg) = .ok x :=
      Store.load_eq_ok.mpr ⟨rg, rfl, hset⟩
    have l7 : Store.store ((h.regs ++ [x]).set rg x) (some rg) { x with handler := some result } =
        .ok (((h.regs ++ [x]).set rg x).set rg { x with handler := some result }) :=
      Store.store_eq_ok.mpr ⟨rg, x, rfl, hset, rfl⟩
    refine ⟨({ h with
      regs := ((h.regs ++ [x]).set rg x).set rg { x with handler := some result } } : Heap), ?_⟩
    simp [LState.cloneReg, registry.clone, l1, l2, hreg, hlink, l3, l4, l5, l6, l7, bind,
      Except.bind, pure, Except.pure]

theorem LState.cloneStack_ok {h : Heap} (result : Nat) {l : Nat} {ls : LState}
    (hl : h.threads[l]? = some ls) (hp : Store.ptrOk h.frameStacks ls.stack = true) :
    ∃ h', LState.cloneStack h result l = .ok h' ∧ h'.threads.length = h.threads.length := by
  have l1 : Store.load h.threads (some l) = .ok ls := Store.load_eq_ok.mpr ⟨l, rfl, hl⟩
  cases hst : ls.stack with
  | none =>
    refine ⟨h, ?_, rfl⟩
    simp [LState.cloneStack, l1, hst, bind, Except.bind, pure, Except.pure]
  | some st =>
    rw [hst] at hp
    obtain ⟨x, hx⟩ := Store.ptrOk_load hp
    have l3 : Store.load h.frameStacks (some st) = .ok x := Store.load_eq_ok.mpr ⟨st, rfl, hx⟩
    refine ⟨({ h with
      frameStacks := h.frameStacks ++ [x]
      threads := Store.upd h.threads result
        (fun r => { r with stack := some h.frameStacks.length }) } : Heap), ?_, ?_⟩
    · simp [LState.cloneStack, callFrameStack.Clone, l1, hst, l3, bind, Except.bind, pure,
        Except.pure]
    · simp [Store.upd_length]

theorem LState.cloneCurrentFrame_ok {h : Heap} {result l : Nat} {ls r : LState}
    (hl : h.threads[l]? = some ls) (hr : h.threads[result]? = some r)
    (hlink : r.currentFrame = ls.currentFrame)
    (hp : Store.ptrOk h.frames ls.currentFrame = true) :
    ∃ h', LState.cloneCurrentFrame h result l = .ok h' := by
  have l1 : Store.load h.threads (some l) = .ok ls := Store.load_eq_ok.mpr ⟨l, rfl, hl⟩
  have l2 : Store.load h.threads (some result) = .ok r := Store.load_eq_ok.mpr ⟨result, rfl, hr⟩
  cases hcf : ls.currentFrame with
  | none =>
    refine ⟨h, ?_⟩
    simp [LState.cloneCurrentFrame, l1, hcf, bind, Except.bind, pure, Except.pure]
  | some cf =>
    rw [hcf] at hp hlink
    obtain ⟨x, hx⟩ := Store.ptrOk_load hp
    have l3 : Store.load h.frames (some cf) = .ok x := Store.load_eq_ok.mpr ⟨cf, rfl, hx⟩
    have l4 : Store.load (h.frames ++ [x]) (some h.frames.length) = .ok x :=
      Store.load_eq_ok.mpr ⟨_, rfl, List.getElem?_concat_length _ _⟩
    have l5 : Store.store (h.frames ++ [x]) (some cf) x = .ok ((h.frames ++ [x]).set cf x) :=
      Store.store_eq_ok.mpr ⟨cf, x, rfl, Store.Pres.append _ _ _ _ hx, rfl⟩
    refine ⟨({ h with frames := (h.frames ++ [x]).set cf x } : Heap), ?_⟩
    simp [LState.cloneCurrentFrame, callFrame.clone, l1, l2, hcf, hlink, l3, l4, l5, bind,
      Except.bind, pure, Except.pure]

theorem LState.cloneUvcache_ok {h : Heap} {result l : Nat} {ls r : LState}
    (hl : h.threads[l]? = some ls) (hr : h.threads[result]? = some r)
    (hlink : r.uvcache = ls.uvcache) (hp : Store.ptrOk h.upvalues ls.uvcache = true) :
    ∃ h', LState.cloneUvcache h result l = .ok h' := by
  have l1 : Store.load h.threads (some l) = .ok ls := Store.load_eq_ok.mpr ⟨l, rfl, hl⟩
  have l2 : Store.load h.threads (some result) = .ok r := Store.load_eq_ok.mpr ⟨result, rfl, hr⟩
  cases huv : ls.uvcache with
  | none =>
    refine ⟨h, ?_⟩
    simp [LState.cloneUvcache, l1, huv, bind, Except.bind, pure, Except.pure]
  | some uv =>
    rw [huv] at hp hlink
    obtain ⟨x, hx⟩ := Store.ptrOk_load hp
    have l3 : Store.load h.upvalues (some uv) = .ok x := Store.load_eq_ok.mpr ⟨uv, rfl, hx⟩
    have l4 : Store.load (h.upvalues ++ [x]) (some h.upvalues.length) = .ok x :=
      Store.load_eq_ok.mpr ⟨_, rfl, List.getElem?_concat_length _ _⟩
    have l5 : Store.store (h.upvalues ++ [x]) (some uv) x =
        .ok ((h.upvalues ++ [x]).set uv x) :=
      Store.store_eq_ok.mpr ⟨uv, x, rfl, Store.Pres.append _ _ _ _ hx, rfl⟩
    refine ⟨({ h with upvalues := (h.upvalues ++ [x]).set uv x } : Heap), ?_⟩
    simp [LState.cloneUvcache, Upvalue.Clone, l1, l2, huv, hlink, l3, l4, l5, bind,
      Except.bind, pure, Except.pure]

/-- What a stretch of `LState.Clone` after `*result = *l` leaves of the two thread records:
the source is unchanged, and the result still has the `G`, `reg`, `currentFrame` and `uvcache`
pointers of the source. -/
theorem LState.facts_of_step {h h2 hk : Heap} {l : Nat} {ls : LState} (s : Heap.Step h h2 hk)
    (hl : h.threads[l]? = some ls) (hl2 : h2.threads[l]? = some ls)
    (hr2 : h2.threads[h.threads.length]? = some ls) :
    hk.threads[l]? = some ls ∧ ∃ r, hk.threads[h.threads.length]? = some r ∧
      { r with Env := ls.Env, stack := ls.stack } = ls ∧
      r.G = ls.G ∧ r.reg = ls.reg ∧ r.currentFrame = ls.currentFrame ∧
      r.uvcache = ls.uvcache := by
  refine ⟨s.threads l ls (Store.lt_of_getElem? hl) hl2, ?_⟩
  obtain ⟨r, hr, er⟩ := s.threadsKeep _ ls hr2
  have e1 := congrArg LState.G er
  have e2 := congrArg LState.reg er
  have e3 := congrArg LState.currentFrame er
  have e4 := congrArg LState.uvcache er
  exact ⟨r, hr, er, e1, e2, e3, e4⟩

/-- The whole run of `LState.Clone` after `*result = *l`, as one stretch. -/
theorem LState.thread_Clone_steps {cl : Heap → LValue → Res (LValue × Heap)}
    (hcl : ∀ h v r h', cl h v = .ok (r, h') → Heap.Ext h h')
    {h h1 : Heap} {l : Nat} {c : LValue} {ls : LState}
    (hc : LState.Clone cl h l = .ok (c, h1)) (hl : h.threads[l]? = some ls) :
    c = .thread h.threads.length ∧
      Heap.Step h { h with threads := h.threads ++ [ls] } h1 := by
  simp only [LState.Clone, Res.bind_eq_ok, Res.pure_eq_ok, Prod.exists, Prod.mk.injEq] at hc
  obtain ⟨r, h2, h0, h3, h4, h5, h6, h7, h8, h9, h10, h11, h12, h13, h14, rfl, rfl⟩ := hc
  rw [LState.thread_copyRecord_ok hl] at h0
  simp only [Except.ok.injEq, Prod.mk.injEq] at h0
  obtain ⟨rfl, rfl⟩ := h0
  have hl2 : ({ h with threads := h.threads ++ [ls] } : Heap).threads[l]? = some ls :=
    Store.Pres.append _ _ _ _ hl
  have hr2 : ({ h with threads := h.threads ++ [ls] } : Heap).threads[h.threads.length]? =
      some ls := List.getElem?_concat_length _ _
  have e23 : Heap.Ext { h with threads := h.threads ++ [ls] } h3 := LState.cloneG_ext hcl (by
    intro ls' r hls hr
    rw [hl2] at hls
    rw [hr2] at hr
    cases hls
    cases hr
    rfl) h4
  have hl3 := e23.threads_pres _ _ hl2
  have hr3 := e23.threads_pres _ _ hr2
  have s35 : Heap.Step h h3 h5 := LState.thread_cloneEnv_step hcl (Nat.le_refl _) (by
    intro ls' r hls hr
    rw [hl3] at hls
    rw [hr3] at hr
    cases hls
    cases hr
    rfl) h6
  have s25 : Heap.Step h _ h5 := (e23.toStep h).step_trans s35
  have s57 : Heap.Step h h5 h7 := LState.cloneReg_step (by
    intro ls' r hls hr
    exact (LState.link_of_keep s25.threadsKeep hl2 hr2 ls' r hls hr).2.1) h8
  have s27 := s25.step_trans s57
  have s79 : Heap.Step h h7 h9 := LState.cloneStack_step (Nat.le_refl _) h10
  have s29 := s27.step_trans s79
  have s911 : Heap.Step h h9 h11 := LState.cloneCurrentFrame_step (by
    intro ls' r hls hr
    exact (LState.link_of_keep s29.threadsKeep hl2 hr2 ls' r hls hr).2.2.1) h12
  have s211 := s29.step_trans s911
  have s1113 : Heap.Step h h11 h13 := LState.cloneUvcache_step (by
    intro ls' r hls hr
    exact (LState.link_of_keep s211.threadsKeep hl2 hr2 ls' r hls hr).2.2.2) h14
  exact ⟨rfl, s211.step_trans s1113⟩

/-- `LState.Clone` returns on a well-formed thread, and allocates one thread. -/
theorem LState.thread_Clone_ok {n : Nat} {h : Heap} {l : Nat}
    (hwf : LState.wellFormed n h l = true) :
    ∃ h1, LState.Clone (LValue.Clone n) h l = .ok (.thread h.threads.length, h1) ∧
      h1.threads.length = h.threads.length + 1 := by
  obtain ⟨ls, g, hl, hG, hgw, hEnv, hreg, hstk, hcf, huv⟩ := LState.thread_wellFormed_iff.mp hwf
  have hcl := LValue.value_Clone_ext n
  have e1 := LState.thread_copyRecord_ok hl
  have hl2 : ({ h with threads := h.threads ++ [ls] } : Heap).threads[l]? = some ls :=
    Store.Pres.append _ _ _ _ hl
  have hr2 : ({ h with threads := h.threads ++ [ls] } : Heap).threads[h.threads.length]? =
      some ls := List.getElem?_concat_length _ _
  have c12 : Heap.Chains h { h with threads := h.threads ++ [ls] } :=
    Heap.Chains.of_eq rfl rfl rfl rfl
  have hgw2 := Global.wellFormed_mono c12 rfl rfl rfl hgw
  obtain ⟨h3, e3, c23, t3⟩ := LState.cloneG_ok hl2 hr2 rfl hG hgw2
  have x23 : Heap.Ext { h with threads := h.threads ++ [ls] } h3 := LState.cloneG_ext hcl (by
    intro ls' r hls hr
    rw [hl2] at hls
    rw [hr2] at hr
    cases hls
    cases hr
    rfl) e3
  have hl3 : h3.threads[l]? = some ls := by
    rw [t3]
    exact hl2
  have hr3 : h3.threads[h.threads.length]? = some ls := by
    rw [t3]
    exact hr2
  have hg3 : Store.ptrOk h3.globals (some g) = true := by
    obtain ⟨gr, -, -, hgr, -⟩ := Global.global_wellFormed_iff.mp hgw2
    obtain ⟨gr3, hgr3, -⟩ := x23.globals g gr hgr
    simp [Store.ptrOk, Store.lt_of_getElem? hgr3]
  obtain ⟨h5, e5, t5⟩ := LState.thread_cloneEnv_ok (n := n) hl3 hr3 rfl hG hg3
    ((c12.chains_trans c23).tableOk hEnv)
  have s35 : Heap.Step h h3 h5 := LState.thread_cloneEnv_step hcl (Nat.le_refl _) (by
    intro ls' r hls hr
    rw [hl3] at hls
    rw [hr3] at hr
    cases hls
    cases hr
    rfl) e5
  have s25 : Heap.Step h _ h5 := (x23.toStep h).step_trans s35
  obtain ⟨hl5, r5, hr5, -, -, k5, -, -⟩ := LState.facts_of_step s25 hl hl2 hr2
  obtain ⟨h7, e7⟩ := LState.cloneReg_ok hl5 hr5 k5
    (Store.ptrOk_of_exists (fun a x hx => by
      obtain ⟨y, hy, -⟩ := s25.regs a x hx
      exact ⟨y, hy⟩) hreg)
  have s57 : Heap.Step h h5 h7 := LState.cloneReg_step (by
    intro ls' r hls hr
    exact (LState.link_of_keep s25.threadsKeep hl2 hr2 ls' r hls hr).2.1) e7
  have s27 := s25.step_trans s57
  obtain ⟨hl7, -⟩ := LState.facts_of_step s27 hl hl2 hr2
  obtain ⟨h9, e9, t9⟩ := LState.cloneStack_ok h.threads.length hl7
    (Store.ptrOk_of_exists (fun a x hx => ⟨x, s27.frameStacks a x hx⟩) hstk)
  have s79 : Heap.Step h h7 h9 := LState.cloneStack_step (Nat.le_refl _) e9
  have s29 := s27.step_trans s79
  obtain ⟨hl9, r9, hr9, -, -, -, k9, -⟩ := LState.facts_of_step s29 hl hl2 hr2
  obtain ⟨h11, e11⟩ := LState.cloneCurrentFrame_ok hl9 hr9 k9
    (Store.ptrOk_of_exists (fun a x hx => ⟨x, s29.frames a x hx⟩) hcf)
  have s911 : Heap.Step h h9 h11 := LState.cloneCurrentFrame_step (by
    intro ls' r hls hr
    exact (LState.link_of_keep s29.threadsKeep hl2 hr2 ls' r hls hr).2.2.1) e11
  have s211 := s29.step_trans s911
  obtain ⟨hl11, r11, hr11, -, -, -, -, k11⟩ := LState.facts_of_step s211 hl hl2 hr2
  obtain ⟨h13, e13⟩ := LState.cloneUvcache_ok hl11 hr11 k11
    (Store.ptrOk_of_exists (fun a x hx => ⟨x, s211.upvalues a x hx⟩) huv)
  refine ⟨h13, ?_, ?_⟩
  · simp only [LState.Clone, e1, e3, e5, e7, e9, e11, e13, bind, Except.bind, pure, Except.pure]
  · rw [LState.cloneUvcache_threads e13, LState.cloneCurrentFrame_threads e11, t9,
      LState.cloneReg_threads e7, t5, t3]
    simp

/-! ## A larger budget -/

theorem Heap.chainWithin_le {n m : Nat} (hnm : n ≤ m) {h : Heap} {v : LValue}
    (hc : Heap.chainWithin n h v = true) : Heap.chainWithin m h v = true := by
  obtain ⟨k, hk, hck⟩ := Heap.chainWithin_iff.mp hc
  exact Heap.chainWithin_iff.mpr ⟨k, by omega, hck⟩

theorem Heap.tableOk_le {n m : Nat} (hnm : n ≤ m) {h : Heap} {p : Option Nat}
    (hc : Heap.tableOk n h p = true) : Heap.tableOk m h p = true := by
  cases p with
  | none => rfl
  | some a => exact Heap.chainWithin_le (Nat.succ_le_succ hnm) hc

theorem Heap.mtOk_le {n m : Nat} (hnm : n ≤ m) {h : Heap} {v : LValue}
    (hc : Heap.mtOk n h v = true) : Heap.mtOk m h v = true := by
  simp only [Heap.mtOk, Bool.or_eq_true] at hc ⊢
  rcases hc with hc | hc
  · exact Or.inl hc
  · exact Or.inr (Heap.chainWithin_le hnm hc)

theorem Global.global_wellFormed_le {n m : Nat} (hnm : n ≤ m) {h : Heap} {g : Nat}
    (hw : Global.wellFormed n h g = true) : Global.wellFormed m h g = true := by
  obtain ⟨gr, es, fs, hgr, hR, hG, hes, hmt, hfs⟩ := Global.global_wellFormed_iff.mp hw
  exact Global.global_wellFormed_iff.mpr ⟨gr, es, fs, hgr, Heap.tableOk_le hnm hR,
    Heap.tableOk_le hnm hG, hes, fun e he => Heap.mtOk_le hnm (hmt e he), hfs⟩

theorem LState.thread_wellFormed_le {n m : Nat} (hnm : n ≤ m) {h : Heap} {l : Nat}
    (hw : LState.wellFormed n h l = true) : LState.wellFormed m h l = true := by
  obtain ⟨ls, g, hl, hG, hgw, hEnv, h3, h4, h5, h6⟩ := LState.thread_wellFormed_iff.mp hw
  exact LState.thread_wellFormed_iff.mpr ⟨ls, g, hl, hG, Global.global_wellFormed_le hnm hgw,
    Heap.tableOk_le hnm hEnv, h3, h4, h5, h6⟩

/-! ## A table that is its own metatable -/

/-- Cloning a table that is its own metatable exhausts every budget: each call of `Clone`
calls `Clone` on the same table again. -/
theorem LValue.Clone_self_metatable :
    ∀ (n : Nat) (h : Heap) (a : Nat) (t : LTable), h.tables[a]? = some t →
      t.Metatable = .table a → LValue.Clone n h (.table a) = .error .outOfFuel := by
  intro n
  induction n with
  | zero =>
    intro h a t _ _
    rfl
  | succ n ih =>
    intro h a t ht hmt
    show LTable.Clone (LValue.Clone n) h a = _
    have e1 := LTable.copyRecord_ok ht
    have hs := ih { h with tables := h.tables ++ [t] } a t (Store.Pres.append _ _ _ _ ht) hmt
    have l1 : Store.load (h.tables ++ [t]) (some a) = .ok t :=
      Store.load_eq_ok.mpr ⟨a, rfl, Store.Pres.append _ _ _ _ ht⟩
    simp [LTable.Clone, e1, LTable.cloneMetatable, l1, hmt, hs, bind, Except.bind]

theorem Global.cloneGlobal_diverges {n : Nat} {h : Heap} {result g gt : Nat}
    {gr r : GlobalRecord} {t : LTable} (hg : h.globals[g]? = some gr)
    (hr : h.globals[result]? = some r) (hgt : gr.Global = some gt)
    (ht : h.tables[gt]? = some t) (hmt : t.Metatable = .table gt) :
    Global.cloneGlobal (LValue.Clone n) h result g = .error .outOfFuel := by
  have l1 : Store.load h.globals (some g) = .ok gr := Store.load_eq_ok.mpr ⟨g, rfl, hg⟩
  have l2 : Store.load h.globals (some result) = .ok r := Store.load_eq_ok.mpr ⟨result, rfl, hr⟩
  have hd : LTable.Clone (LValue.Clone n) h gt = .error .outOfFuel :=
    LValue.Clone_self_metatable (n + 1) h gt t ht hmt
  simp [Global.cloneGlobal, l1, l2, hgt, hd, bind, Except.bind]

/-- `LState.Clone` does not return, whatever the budget, on a thread whose Global has a
variables table that is its own metatable. -/
theorem LState.Clone_diverges (n gt : Nat) {h : Heap} {l g : Nat} {ls : LState}
    {gr : GlobalRecord} {t : LTable} (hl : h.threads[l]? = some ls) (hG : ls.G = some g)
    (hg : h.globals[g]? = some gr) (hR : Heap.tableOk n h gr.Registry = true)
    (hgt : gr.Global = some gt) (hne : some gt ≠ gr.Registry) (ht : h.tables[gt]? = some t)
    (hmt : t.Metatable = .table gt) :
    LState.Clone (LValue.Clone n) h l = .error .outOfFuel := by
  have e1 := LState.thread_copyRecord_ok hl
  have l1 : Store.load (h.threads ++ [ls]) (some l) = .ok ls :=
    Store.load_eq_ok.mpr ⟨l, rfl, Store.Pres.append _ _ _ _ hl⟩
  have l2 : Store.load (h.threads ++ [ls]) (some h.threads.length) = .ok ls :=
    Store.load_eq_ok.mpr ⟨_, rfl, List.getElem?_concat_length _ _⟩
  have eg1 := Global.global_copyRecord_ok (h := { h with threads := h.threads ++ [ls] }) hg
  have c0 : Heap.Chains h
      { h with threads := h.threads ++ [ls], globals := h.globals ++ [gr] } :=
    Heap.Chains.of_eq rfl rfl rfl rfl
  have hg2 : (h.globals ++ [gr])[g]? = some gr := Store.Pres.append _ _ _ _ hg
  have hr2 : (h.globals ++ [gr])[h.globals.length]? = some gr := List.getElem?_concat_length _ _
  obtain ⟨h3, e3, -, g3, -, -, -, tb3⟩ := Global.cloneRegistry_ok (n := n)
    (h := { h with threads := h.threads ++ [ls], globals := h.globals ++ [gr] })
    hg2 hr2 rfl (c0.tableOk hR)
  have hg3 : h3.globals[g]? = some gr := by
    rw [g3]
    exact hg2
  have hr3 : h3.globals[h.globals.length]? = some gr := by
    rw [g3]
    exact hr2
  have hdiv := Global.cloneGlobal_diverges (n := n) hg3 hr3 hgt (tb3 gt t hne ht) hmt
  have hGC : Global.Clone (LValue.Clone n) { h with threads := h.threads ++ [ls] } g =
      .error .outOfFuel := by
    simp only [Global.Clone, eg1, bind, Except.bind]
    simp only [e3, hdiv]
  simp only [LState.Clone, e1, bind, Except.bind, LState.cloneG, l1, hG, l2, hGC]

/-- The thread record that `LState.Clone` returns has every field of the source but `Env`
and `stack`. -/
theorem LState.thread_Clone_keep {cl : Heap → LValue → Res (LValue × Heap)}
    (hcl : ∀ h v r h', cl h v = .ok (r, h') → Heap.Ext h h')
    {h h1 : Heap} {l : Nat} {c : LValue} {ls : LState}
    (hc : LState.Clone cl h l = .ok (c, h1)) (hl : h.threads[l]? = some ls) :
    ∃ d, h1.threads[h.threads.length]? = some d ∧
      { d with Env := ls.Env, stack := ls.stack } = ls := by
  obtain ⟨-, s⟩ := LState.thread_Clone_steps hcl hc hl
  obtain ⟨-, d, hd, ed, -⟩ := LState.facts_of_step s hl (Store.Pres.append _ _ _ _ hl)
    (List.getElem?_concat_length _ _)
  exact ⟨d, hd, ed⟩

/-! ## What `LUserData.Clone` returns -/

theorem Heap.entries_mono {h h' : Heap} (ht : Store.Pres h.tables h'.tables)
    (hv : Store.Pres h.values h'.values) (hd : Store.Pres h.dicts h'.dicts)
    (hs : Store.Pres h.strdicts h'.strdicts) {p : Option Nat} {w : TableView}
    (hw : h.entries p = some w) : h'.entries p = some w := by
  obtain ⟨a, t, rfl, hta, htv⟩ := Heap.entries_eq_some.mp hw
  exact Heap.entries_eq_some.mpr ⟨a, t, rfl, ht a t hta, LTable.view_mono hv hd hs htv⟩

theorem Heap.Chains.of_pres {h h' : Heap} (ht : Store.Pres h.tables h'.tables)
    (hv : Store.Pres h.values h'.values) (hd : Store.Pres h.dicts h'.dicts)
    (hs : Store.Pres h.strdicts h'.strdicts) : Heap.Chains h h' :=
  fun k v hc => LValue.isChain_mono (fun a x _ hx => ht a x hx) hv hd hs k v hc

theorem Store.upd_eq_self {α : Type} {s : List α} {a : Nat} {x : α} (f : α → α)
    (hx : s[a]? = some x) (hf : f x = x) : Store.upd s a f = s := by
  apply List.ext_getElem?
  intro n
  rw [Store.getElem?_upd]
  by_cases han : a = n
  · subst han
    simp [hx, hf]
  · simp [han]

theorem LUserData.userdata_copyRecord_ok {h : Heap} {ud : Nat} {u : LUserData}
    (hu : h.userdata[ud]? = some u) :
    LUserData.copyRecord h ud =
      .ok (h.userdata.length, { h with userdata := h.userdata ++ [u] }) := by
  have h1 : Store.load (h.userdata ++ [LUserData.zero]) (some ud) = .ok u :=
    Store.load_mono (Store.Pres.append _ _) (Store.load_eq_ok.mpr ⟨ud, rfl, hu⟩)
  simp [LUserData.copyRecord, h1, bind, Except.bind, pure, Except.pure, Store.upd_append_new]

/-- The statement on `Env` of `LUserData.Clone`, on user data whose environment is nil or a
table with a finite metatable chain: it returns; a nil environment stays nil, and otherwise
the result gets a newly allocated table with the elements of the environment. -/
theorem LUserData.userdata_cloneEnv_ok {n : Nat} {h : Heap} {result ud : Nat} {u r : LUserData}
    (hu : h.userdata[ud]? = some u) (hr : h.userdata[result]? = some r)
    (hlink : r.Env = u.Env) (hok : Heap.tableOk n h u.Env = true) :
    ∃ h' E, LUserData.cloneEnv (LValue.Clone n) h result ud = .ok h' ∧
      Store.Pres h.tables h'.tables ∧ Store.Pres h.values h'.values ∧
      Store.Pres h.dicts h'.dicts ∧ Store.Pres h.strdicts h'.strdicts ∧
      h'.userdata = Store.upd h.userdata result (fun r => { r with Env := E }) ∧
      (u.Env = none → E = none) ∧
      (∀ env, u.Env = some env → E = some h.tables.length ∧ env < h.tables.length ∧
        ∃ w, h.entries (some env) = some w ∧ h'.entries (some h.tables.length) = some w) := by
  have l1 : Store.load h.userdata (some ud) = .ok u := Store.load_eq_ok.mpr ⟨ud, rfl, hu⟩
  cases henv : u.Env with
  | none =>
    refine ⟨h, none, ?_, Store.Pres.pres_refl _, Store.Pres.pres_refl _, Store.Pres.pres_refl _,
      Store.Pres.pres_refl _, ?_, fun _ => rfl, ?_⟩
    · simp [LUserData.cloneEnv, l1, henv, bind, Except.bind, pure, Except.pure]
    · rw [Store.upd_eq_self _ hr]
      rw [henv] at hlink
      cases r
      simp only at hlink
      subst hlink
      rfl
    · intro env he
      cases he
  | some env =>
    rw [henv] at hok
    obtain ⟨k, h2, -, hcl, hm, gw⟩ := LTable.chain_table_Clone hok
    obtain ⟨-, t, t', w, hta, hta', hw, hw', -⟩ := LValue.Mirror.mirror_table.mp hm
    refine ⟨{ h2 with
      userdata := Store.upd h2.userdata result (fun r => { r with Env := some h.tables.length }) },
      some h.tables.length, ?_, gw.tables, gw.values, gw.dicts, gw.strdicts, ?_,
      (fun he => by cases he), ?_⟩
    · simp [LUserData.cloneEnv, l1, henv, hcl, LValue.toTable, bind, Except.bind, pure,
        Except.pure]
    · show Store.upd h2.userdata result _ = _
      rw [gw.userdata_eq]
    · intro env' he
      cases he
      exact ⟨rfl, Store.lt_of_getElem? hta, w,
        Heap.entries_eq_some.mpr ⟨env, t, rfl, hta, hw⟩,
        Heap.entries_eq_some.mpr ⟨_, t', rfl, hta',
          LTable.view_mono (Store.Pres.pres_refl _) (Store.Pres.pres_refl _)
            (Store.Pres.pres_refl _) hw'⟩⟩

/-- The statement on `Metatable` of `LUserData.Clone`, on user data whose metatable is the
nil interface or has a finite chain: it returns; a nil metatable stays nil, a scalar stays
the same value, and a table is replaced by a newly allocated table with the same elements. -/
theorem LUserData.userdata_cloneMetatable_ok {n : Nat} {h : Heap} {result ud : Nat} {u r : LUserData}
    (hu : h.userdata[ud]? = some u) (hr : h.userdata[result]? = some r)
    (hlink : r.Metatable = u.Metatable) (hok : Heap.mtOk n h u.Metatable = true) :
    ∃ h' M, LUserData.cloneMetatable (LValue.Clone n) h result ud = .ok h' ∧
      Store.Pres h.tables h'.tables ∧ Store.Pres h.values h'.values ∧
      Store.Pres h.dicts h'.dicts ∧ Store.Pres h.strdicts h'.strdicts ∧
      h'.userdata = Store.upd h.userdata result (fun r => { r with Metatable := M }) ∧
      (u.Metatable = .iface_nil → M = .iface_nil) ∧
      (u.Metatable.isScalar = true → M = u.Metatable) ∧
      (∀ a, u.Metatable = .table a → ∃ a' w, M = .table a' ∧ h.tables.length ≤ a' ∧
        a < h.tables.length ∧ h.entries (some a) = some w ∧
        h'.entries (some a') = some w) := by
  have l1 : Store.load h.userdata (some ud) = .ok u := Store.load_eq_ok.mpr ⟨ud, rfl, hu⟩
  by_cases hv : u.Metatable = .iface_nil
  · refine ⟨h, .iface_nil, ?_, Store.Pres.pres_refl _, Store.Pres.pres_refl _,
      Store.Pres.pres_refl _, Store.Pres.pres_refl _, ?_, fun _ => rfl, ?_, ?_⟩
    · simp [LUserData.cloneMetatable, l1, hv, bind, Except.bind, pure, Except.pure]
    · rw [Store.upd_eq_self _ hr]
      rw [hv] at hlink
      cases r
      simp only at hlink
      subst hlink
      rfl
    · intro hs
      rw [hv] at hs
      cases hs
    · intro a ha
      rw [hv] at ha
      cases ha
  · have hcw : Heap.chainWithin n h u.Metatable = true := by
      simp only [Heap.mtOk, Bool.or_eq_true, beq_iff_eq] at hok
      rcases hok with hok | hok
      · exact absurd hok hv
      · exact hok
    obtain ⟨k, hk, hck⟩ := Heap.chainWithin_iff.mp hcw
    obtain ⟨c, h2, hcl, hm, gw⟩ :=
      LValue.chain_Clone k n h h u.Metatable hk hck (Heap.Grow.grow_refl h)
    have key : LUserData.cloneMetatable (LValue.Clone n) h result ud =
        .ok { h2 with
          userdata := Store.upd h2.userdata result (fun r => { r with Metatable := c }) } := by
      have hcl' := hcl
      revert hcl' hv
      cases hmt : u.Metatable <;> intro hv hcl' <;>
        first
          | exact absurd rfl hv
          | simp [LUserData.cloneMetatable, l1, hmt, hcl', bind, Except.bind, pure, Except.pure]
    refine ⟨{ h2 with
      userdata := Store.upd h2.userdata result (fun r => { r with Metatable := c }) }, c, ?_,
      gw.tables, gw.values, gw.dicts, gw.strdicts, ?_, fun he => absurd he hv, ?_, ?_⟩
    · exact key
    · show Store.upd h2.userdata result _ = _
      rw [gw.userdata_eq]
    · intro hs
      have hk0 : k = 0 := LValue.isChain_unique _ _ _ hck
        (LValue.isChain_zero.mpr hs : LValue.isChain 0 0 h u.Metatable = true)
      subst hk0
      exact (LValue.Mirror.mirror_zero.mp hm).2
    · intro a ha
      rw [ha] at hm hck
      cases k with
      | zero => simp [LValue.isChain, LValue.isScalar] at hck
      | succ k =>
        obtain ⟨a0, a', h0, rfl⟩ := hm.mirror_succ
        cases h0
        obtain ⟨hlo, t, t', w, hta, hta', hw, hw', -⟩ := LValue.Mirror.mirror_table.mp hm
        exact ⟨a', w, rfl, hlo, Store.lt_of_getElem? hta,
          Heap.entries_eq_some.mpr ⟨_, t, rfl, hta, hw⟩,
          Heap.entries_eq_some.mpr ⟨_, t', rfl, hta',
            LTable.view_mono (Store.Pres.pres_refl _) (Store.Pres.pres_refl _)
              (Store.Pres.pres_refl _) hw'⟩⟩

/-! # The claims on termination, carried fields and the other variants -/

/-- C11, as amended: for every well-formed thread `l`, that is a thread whose `G` is non-nil
and whose environment, registry, variables table and built-in metatables each have a finite
metatable chain (it reaches a scalar value such as `LNil` after at most `n` tables, so that
every table on it carries a non-nil `Metatable` and no table repeats), `l.Clone()` returns
with every budget `m ≥ n`: the result is a thread at a new address, the only thread that is
allocated, and no nil dereference and no failed type assertion happens on the way. -/
theorem LState_Clone_returns_when_chains_are_finite (n m : Nat) (h : Heap) (l : Nat)
    (hwf : LState.wellFormed n h l = true) (hm : n ≤ m) :
    ∃ h1 d, LState.Clone (LValue.Clone m) h l = .ok (.thread h.threads.length, h1) ∧
      h1.threads[h.threads.length]? = some d ∧ h1.threads.length = h.threads.length + 1 := by
  obtain ⟨h1, hc, hlen⟩ := LState.thread_Clone_ok (LState.thread_wellFormed_le hm hwf)
  have hlt : h.threads.length < h1.threads.length := by omega
  exact ⟨h1, h1.threads[h.threads.length], hc, List.getElem?_eq_getElem hlt, hlen⟩

/-- C11 as amended, at thread 0 of `demoHeap`, whose longest chain (the string metatable) has
one table. -/
theorem LState_Clone_returns_when_chains_are_finite_witness :
    ∃ h1 d, LState.Clone (LValue.Clone 2) demoHeap 0 = .ok (.thread 1, h1) ∧
      h1.threads[1]? = some d ∧ h1.threads.length = 2 :=
  LState_Clone_returns_when_chains_are_finite 1 2 demoHeap 0 (by decide) (by decide)

/-- C11 fails as stated: in `cyclicHeap` thread 0 has a non-nil `G` and every table carries a
non-nil `Metatable`, but the variables table (table 1, also the environment of the thread) is
its own metatable; `LState.Clone` then exhausts every recursion budget, because each `Clone`
of that table calls `Clone` on it again, so the call never returns. -/
theorem LState_Clone_diverges_on_cyclic_metatable :
    LState.getG cyclicHeap (some 0) = .ok (some 0) ∧
    LState.getEnv cyclicHeap (some 0) = .ok (some 1) ∧
    LState.getGlobal cyclicHeap (some 0) = .ok (some 1) ∧
    (∀ t ∈ cyclicHeap.tables, t.Metatable ≠ .iface_nil) ∧
    (cyclicHeap.tables[1]?).map (fun t => t.Metatable) = some (.table 1) ∧
    (∀ n, LState.Clone (LValue.Clone n) cyclicHeap 0 = .error .outOfFuel) ∧
    ¬ ∃ n c h1, LState.Clone (LValue.Clone n) cyclicHeap 0 = .ok (c, h1) := by
  have hd : ∀ n, LState.Clone (LValue.Clone n) cyclicHeap 0 = .error .outOfFuel := by
    intro n
    exact LState.Clone_diverges n 1 (h := cyclicHeap) (l := 0) (g := 0)
      (rfl : cyclicHeap.threads[0]? = some _) rfl (rfl : cyclicHeap.globals[0]? = some _)
      (Heap.chainWithin_iff.mpr ⟨1, by omega, rfl⟩) rfl (by decide)
      (rfl : cyclicHeap.tables[1]? = some _) rfl
  refine ⟨rfl, rfl, rfl, by decide, rfl, hd, ?_⟩
  rintro ⟨n, c, h1, hc⟩
  rw [hd n] at hc
  cases hc

/-- C12: for every thread `l`, whenever `l.Clone()` returns, it returns a thread at a new
address whose record has the `Parent`, `Panic`, `Dead`, `Options` (so also the configured
`CallStackSize`), `stop`, `wrapped`, `hasErrorFunc`, `mainLoop` and `ctx` of `l` (`Parent` and
`ctx` are the same references); the record of `l` and of every other thread that existed
(its parent and ancestors among them) is left unchanged.  On a well-formed thread the call
does return, and the clone is the only thread it allocates. -/
theorem LState_Clone_carries_fields (n : Nat) (h : Heap) (l : Nat) (ls : LState)
    (hl : h.threads[l]? = some ls) :
    (∀ c h1, LState.Clone (LValue.Clone n) h l = .ok (c, h1) →
      c = .thread h.threads.length ∧ h1.threads[l]? = some ls ∧
      (∀ (a : Nat) (x : LState), h.threads[a]? = some x → h1.threads[a]? = some x) ∧
      ∃ d, h1.threads[h.threads.length]? = some d ∧
        d.Parent = ls.Parent ∧ d.Panic = ls.Panic ∧ d.Dead = ls.Dead ∧
        d.Options = ls.Options ∧ d.Options.CallStackSize = ls.Options.CallStackSize ∧
        d.stop = ls.stop ∧ d.wrapped = ls.wrapped ∧ d.hasErrorFunc = ls.hasErrorFunc ∧
        d.mainLoop = ls.mainLoop ∧ d.ctx = ls.ctx) ∧
    (LState.wellFormed n h l = true →
      ∃ h1, LState.Clone (LValue.Clone n) h l = .ok (.thread h.threads.length, h1) ∧
        h1.threads.length = h.threads.length + 1) := by
  refine ⟨?_, fun hwf => LState.thread_Clone_ok hwf⟩
  intro c h1 hc
  obtain ⟨hc1, e⟩ := LState.thread_Clone_ext (LValue.value_Clone_ext n) hc
  obtain ⟨d, hd, ed⟩ := LState.thread_Clone_keep (LValue.value_Clone_ext n) hc hl
  have e1 := congrArg LState.Parent ed
  have e2 := congrArg LState.Panic ed
  have e3 := congrArg LState.Dead ed
  have e4 := congrArg LState.Options ed
  have e5 := congrArg LState.stop ed
  have e6 := congrArg LState.wrapped ed
  have e7 := congrArg LState.hasErrorFunc ed
  have e8 := congrArg LState.mainLoop ed
  have e9 := congrArg LState.ctx ed
  have e4' : d.Options = ls.Options := e4
  exact ⟨hc1, e.threads_pres _ _ hl, e.threads_pres, d, hd, e1, e2, e3, e4,
    by rw [e4'], e5, e6, e7, e8, e9⟩

/-- C12 at thread 0 of `demoHeap`, which was configured with a call-stack size of 1024. -/
theorem LState_Clone_carries_fields_witness :
    ∃ h1 d l, LState.Clone (LValue.Clone 1) demoHeap 0 = .ok (.thread 1, h1) ∧
      h1.threads[1]? = some d ∧ h1.threads[0]? = some l ∧ demoHeap.threads[0]? = some l ∧
      d.Parent = l.Parent ∧ d.Panic = l.Panic ∧ d.Dead = l.Dead ∧ d.Options = l.Options ∧
      d.Options.CallStackSize = 1024 ∧ d.stop = l.stop ∧ d.wrapped = l.wrapped ∧
      d.hasErrorFunc = l.hasErrorFunc ∧ d.mainLoop = l.mainLoop ∧ d.ctx = l.ctx := by
  obtain ⟨hfields, hret⟩ := LState_Clone_carries_fields 1 demoHeap 0 _
    (rfl : demoHeap.threads[0]? = some _)
  obtain ⟨h1, hc, -⟩ := hret (by decide)
  obtain ⟨-, hl1, -, d, hd, e1, e2, e3, e4, e5, e6, e7, e8, e9, e10⟩ := hfields _ h1 hc
  exact ⟨h1, d, _, hc, hd, hl1, rfl, e1, e2, e3, e4, e5, e6, e7, e8, e9, e10⟩

/-- C13: the `Clone` of `LNil` is `LNil`, of `LTrue` is `LTrue`, of `LFalse` is `LFalse`, and
the `Clone` of a boolean, a number, a string or a channel is that same value; so for every
scalar value `v`, `v.Clone()` returns `v` itself, with the same `Type()`, and leaves the heap
as it was. -/
theorem scalar_Clone_is_the_value :
    LNilType.Clone = LNil ∧ LBool.Clone true = LTrue ∧ LBool.Clone false = LFalse ∧
    (∀ b, LBool.Clone b = .lbool b) ∧ (∀ x, LNumber.Clone x = .lnumber x) ∧
    (∀ s, LString.Clone s = .lstring s) ∧ (∀ c, LChannel.Clone c = .channel c) ∧
    (∀ v, v.isScalar = true → ∀ n h, LValue.Clone n h v = .ok (v, h)) ∧
    (∀ v, v.isScalar = true → ∀ n h r h', LValue.Clone n h v = .ok (r, h') →
      r = v ∧ r.Type = v.Type ∧ h' = h) := by
  refine ⟨rfl, rfl, rfl, ?_, fun _ => rfl, fun _ => rfl, fun _ => rfl,
    fun v hv n h => LValue.Clone_scalar hv n h, ?_⟩
  · intro b
    cases b <;> rfl
  · intro v hv n h r h' hc
    rw [LValue.Clone_scalar hv n h] at hc
    simp only [Except.ok.injEq, Prod.mk.injEq] at hc
    obtain ⟨rfl, rfl⟩ := hc
    exact ⟨rfl, rfl, rfl⟩

/-- C14: for every function `fn` (with an allocated upvalue list), `fn.Clone()` returns a
function at a new address whose record has the `IsG`, `Env`, `Proto` and `GFunction` of `fn`
and whose `Upvalues` is a list that was not allocated before, holding the same boxes in the
same order (a nil slot stays nil); `fn` is unchanged, and whatever is then written to the
list of the clone leaves the upvalues of `fn` as they were. -/
theorem LFunction_Clone_new_record_same_upvalues (n : Nat) (h : Heap) (fn : Nat)
    (f : LFunction) (us : List (Option Nat)) (hf : h.functions[fn]? = some f)
    (hus : Store.slice h.upvalLists f.Upvalues = .ok us) :
    ∃ h1 c ul, LFunction.Clone h fn = .ok (.function h.functions.length, h1) ∧
      LValue.Clone (n + 1) h (.function fn) = .ok (.function h.functions.length, h1) ∧
      h.functions.length ≠ fn ∧
      h1.functions[h.functions.length]? = some c ∧ h1.functions[fn]? = some f ∧
      c.IsG = f.IsG ∧ c.Env = f.Env ∧ c.Proto = f.Proto ∧ c.GFunction = f.GFunction ∧
      c.Upvalues = some ul ∧ h.upvalLists.length ≤ ul ∧ f.Upvalues ≠ some ul ∧
      Store.slice h1.upvalLists c.Upvalues = .ok us ∧
      Store.slice h1.upvalLists f.Upvalues = .ok us ∧
      (∀ xs, Store.slice (h1.upvalLists.set ul xs) f.Upvalues = .ok us) := by
  have hok := LFunction.function_Clone_ok hf hus
  have hlt := Store.lt_of_getElem? hf
  have hne : f.Upvalues ≠ some h.upvalLists.length :=
    Store.slice_ne_of_ok hus (Nat.le_refl _)
  refine ⟨_, { f with Upvalues := some h.upvalLists.length }, h.upvalLists.length, hok, hok,
    by omega, by simp, ?_, rfl, rfl, rfl, rfl, rfl, Nat.le_refl _, hne, ?_, ?_, ?_⟩
  · exact Store.Pres.append _ _ _ _ hf
  · simp [Store.slice]
  · exact Store.slice_mono (Store.Pres.append _ _) hus
  · intro xs
    exact Store.slice_mono ((Store.Pres.append _ _).set_fresh xs (Nat.le_refl _)) hus

/-- C14 at function 0 of `objHeap`, which has two upvalue slots, the second nil. -/
theorem LFunction_Clone_new_record_same_upvalues_witness :
    ∃ h1 c, LFunction.Clone objHeap 0 = .ok (.function 1, h1) ∧
      h1.functions[1]? = some c ∧ c.Upvalues = some 1 ∧
      Store.slice h1.upvalLists c.Upvalues = .ok [some 0, none] ∧
      Store.slice h1.upvalLists (some 0) = .ok [some 0, none] := by
  obtain ⟨h1, c, ul, e1, -, -, e4, -, -, -, -, -, e10, -, -, e13, e14, -⟩ :=
    LFunction_Clone_new_record_same_upvalues 0 objHeap 0 ⟨false, some 1, some 7, none, some 0⟩
      [some 0, none] rfl rfl
  have e1' : LFunction.Clone objHeap 0 = .ok (.function 1, h1) := e1
  have hc : h1.functions[1]? = some c := e4
  have hul : ul = 1 := by
    have : LFunction.Clone objHeap 0 = .ok (.function 1,
        { objHeap with
          functions := objHeap.functions ++ [⟨false, some 1, some 7, none, some 1⟩]
          upvalLists := objHeap.upvalLists ++ [[some 0, none]] }) := rfl
    rw [this] at e1'
    simp only [Except.ok.injEq, Prod.mk.injEq, true_and] at e1'
    subst e1'
    simp [objHeap] at hc
    subst hc
    simpa using e10.symm
  subst hul
  exact ⟨h1, c, e1', hc, e10, e13, e14⟩

/-- C16, as amended: for every table `tb` (with allocated containers) whose metatable chain is
finite and ends in a scalar value (following `Metatable` through exactly `n` tables reaches
`LNil` or another boolean, number, string or channel value), `tb.Clone()` returns with every
budget `m ≥ n`, and the metatable chain of the clone mirrors that of `tb`: it consists of
exactly `n` tables, all allocated by the call at increasing new addresses, the `i`-th holding
the same elements as the `i`-th metatable of `tb`, and it ends in the same scalar value.  The
chain of `tb` itself is left as it was. -/
theorem LTable_Clone_metatable_chain (n m : Nat) (h : Heap) (tb : Nat) (t : LTable)
    (w : TableView) (ht : h.tables[tb]? = some t) (hw : t.view h = .ok w)
    (hchain : LValue.isChain 0 n h t.Metatable = true) (hm : n ≤ m) :
    ∃ h1 c, LTable.Clone (LValue.Clone m) h tb = .ok (.table h.tables.length, h1) ∧
      h1.tables[h.tables.length]? = some c ∧ c.view h1 = .ok w ∧
      LValue.Mirror (h.tables.length + 1) n h h1 t.Metatable c.Metatable ∧
      LValue.isChain (h.tables.length + 1) n h1 c.Metatable = true ∧
      LValue.isChain 0 n h1 t.Metatable = true := by
  have hck : LValue.isChain 0 (n + 1) h (.table tb) = true :=
    LValue.isChain_table.mpr ⟨Nat.zero_le _, t, w, ht, hw, hchain⟩
  obtain ⟨r, h1, hcl, hmir, g⟩ :=
    LValue.chain_Clone (n + 1) (m + 1) h h (.table tb) (by omega) hck (Heap.Grow.grow_refl h)
  have hcl' : LTable.Clone (LValue.Clone m) h tb = .ok (r, h1) := hcl
  obtain ⟨hr, -⟩ := LTable.table_Clone_ext (LValue.value_Clone_ext m) hcl'
  subst hr
  obtain ⟨-, t0, c, w0, ht0, hc, hw0, hcw, hmm⟩ := LValue.Mirror.mirror_table.mp hmir
  rw [ht] at ht0
  cases ht0
  rw [hw] at hw0
  cases hw0
  exact ⟨h1, c, hcl', hc, hcw, hmm, LValue.Mirror.chain_new _ _ _ _ hmm,
    g.chains n _ hchain⟩

/-- C16 as amended, at table 5 of `objHeap`, whose chain of metatables is table 4, table 2,
`LNil`: the clone is table 7 and its chain has two tables allocated at addresses from 8 on. -/
theorem LTable_Clone_metatable_chain_witness :
    ∃ h1 c, LTable.Clone (LValue.Clone 2) objHeap 5 = .ok (.table 7, h1) ∧
      h1.tables[7]? = some c ∧
      c.view h1 = .ok ⟨[.lnumber 1, .lnumber 2], GoMap.empty, GoMap.empty, []⟩ ∧
      LValue.Mirror 8 2 objHeap h1 (.table 4) c.Metatable ∧
      LValue.isChain 8 2 h1 c.Metatable = true ∧
      LValue.isChain 0 2 h1 (.table 4) = true :=
  LTable_Clone_metatable_chain 2 2 objHeap 5 ⟨.table 4, some 3, none, none, none, none⟩
    ⟨[.lnumber 1, .lnumber 2], GoMap.empty, GoMap.empty, []⟩ rfl rfl rfl (Nat.le_refl 2)

/-- C16 fails as stated: table 6 of `objHeap` has a finite metatable chain, of no table,
that reaches the non-table value function 0; `LTable.Clone` returns table 7 whose metatable
is not that same value but function 1, a new function record made by `LFunction.Clone`. -/
theorem LTable_Clone_clones_function_metatable :
    ∃ h1 t c, objHeap.tables[6]? = some t ∧ t.Metatable = .function 0 ∧
      LTable.Clone (LValue.Clone 1) objHeap 6 = .ok (.table 7, h1) ∧
      h1.tables[7]? = some c ∧ c.Metatable = .function 1 ∧ c.Metatable ≠ t.Metatable :=
  ⟨_, _, _, rfl, rfl, rfl, rfl, rfl, by decide⟩

/-- C17: on table 1 of `demoHeap`, whose key index is the map at address 0, `LTable.Clone`
returns table 4 with new `strdict` and `keys` containers but with the same key index (address
0, no map is allocated for it): an entry added to the key index through the clone is read
back through the source, and an entry added through the source is read back through the
clone. -/
theorem LTable_Clone_shares_k2i :
    ∃ h1 h2 h3 c t1, LTable.Clone (LValue.Clone 0) demoHeap 1 = .ok (.table 4, h1) ∧
      h1.tables[4]? = some c ∧ h1.tables[1]? = some t1 ∧
      t1.strdict = some 1 ∧ c.strdict = some 4 ∧ t1.keys = some 2 ∧ c.keys = some 4 ∧
      t1.k2i = some 0 ∧ c.k2i = some 0 ∧ h1.k2is.length = demoHeap.k2is.length ∧
      LTable.getK2i h1 (some 1) (.lstring "y") = .ok none ∧
      LTable.setK2i h1 (some 4) (.lstring "y") 1 = .ok h2 ∧
      LTable.getK2i h2 (some 1) (.lstring "y") = .ok (some 1) ∧
      LTable.getK2i h2 (some 4) (.lstring "z") = .ok none ∧
      LTable.setK2i h2 (some 1) (.lstring "z") 2 = .ok h3 ∧
      LTable.getK2i h3 (some 4) (.lstring "z") = .ok (some 2) :=
  ⟨_, _, _, _, _, rfl, rfl, rfl, rfl, rfl, rfl, rfl, rfl, rfl, rfl, rfl, rfl, rfl, rfl, rfl, rfl⟩

/-- C19: `Type` returns the tag of the variant; `String` of the tag is the matching name and
its index is inside the table of 9 names for every tag that `Type` returns; `assertString`
succeeds exactly on an `LString`, returning its text, `assertFloat64` exactly on an `LNumber`,
returning its value, and `assertFunction` exactly on an `LFunction`, returning that same
function; on every other value the accessor fails with the zero value. -/
theorem Type_String_and_accessors_agree :
    LValue.Type LNil = .ok LTNil ∧ (∀ b, LValue.Type (.lbool b) = .ok LTBool) ∧
    (∀ x, LValue.Type (.lnumber x) = .ok LTNumber) ∧
    (∀ s, LValue.Type (.lstring s) = .ok LTString) ∧
    (∀ p, LValue.Type (.function p) = .ok LTFunction) ∧
    (∀ p, LValue.Type (.userdata p) = .ok LTUserData) ∧
    (∀ p, LValue.Type (.thread p) = .ok LTThread) ∧
    (∀ p, LValue.Type (.table p) = .ok LTTable) ∧
    (∀ c, LValue.Type (.channel c) = .ok LTChannel) ∧
    LValueType.String LTNil = .ok "nil" ∧ LValueType.String LTBool = .ok "boolean" ∧
    LValueType.String LTNumber = .ok "number" ∧ LValueType.String LTString = .ok "string" ∧
    LValueType.String LTFunction = .ok "function" ∧
    LValueType.String LTUserData = .ok "userdata" ∧
    LValueType.String LTThread = .ok "thread" ∧ LValueType.String LTTable = .ok "table" ∧
    LValueType.String LTChannel = .ok "channel" ∧
    lValueNames.length = 9 ∧
    (∀ v, v ≠ .iface_nil → ∃ ty s, LValue.Type v = .ok ty ∧ 0 ≤ ty ∧
      ty.toNat < lValueNames.length ∧ LValueType.String ty = .ok s) ∧
    (∀ v s, LValue.assertString v = .ok (s, true) ↔ v = .lstring s) ∧
    (∀ v x, LValue.assertFloat64 v = .ok (x, true) ↔ v = .lnumber x) ∧
    (∀ v p, LValue.assertFunction v = .ok (p, true) ↔ ∃ a, p = some a ∧ v = .function a) ∧
    (∀ v, v ≠ .iface_nil → (∀ s, v ≠ .lstring s) → LValue.assertString v = .ok ("", false)) ∧
    (∀ v, v ≠ .iface_nil → (∀ x, v ≠ .lnumber x) → LValue.assertFloat64 v = .ok (0, false)) ∧
    (∀ v, v ≠ .iface_nil → (∀ a, v ≠ .function a) →
      LValue.assertFunction v = .ok (none, false)) := by
  refine ⟨rfl, fun _ => rfl, fun _ => rfl, fun _ => rfl, fun _ => rfl, fun _ => rfl,
    fun _ => rfl, fun _ => rfl, fun _ => rfl, rfl, rfl, rfl, rfl, rfl, rfl, rfl, rfl, rfl, rfl,
    ?_, ?_, ?_, ?_, ?_, ?_, ?_⟩
  · intro v hv
    cases v with
    | iface_nil => exact absurd rfl hv
    | lnil => exact ⟨LTNil, "nil", rfl, by decide, by decide, rfl⟩
    | lbool b => exact ⟨LTBool, "boolean", rfl, by decide, by decide, rfl⟩
    | lnumber x => exact ⟨LTNumber, "number", rfl, by decide, by decide, rfl⟩
    | lstring s => exact ⟨LTString, "string", rfl, by decide, by decide, rfl⟩
    | function p => exact ⟨LTFunction, "function", rfl, by decide, by decide, rfl⟩
    | userdata p => exact ⟨LTUserData, "userdata", rfl, by decide, by decide, rfl⟩
    | thread p => exact ⟨LTThread, "thread", rfl, by decide, by decide, rfl⟩
    | table p => exact ⟨LTTable, "table", rfl, by decide, by decide, rfl⟩
    | channel c => exact ⟨LTChannel, "channel", rfl, by decide, by decide, rfl⟩
  · intro v s
    cases v <;> simp [LValue.assertString]
  · intro v x
    cases v <;> simp [LValue.assertFloat64]
  · intro v p
    cases v <;> simp [LValue.assertFunction]
    exact eq_comm
  · intro v hv hs
    cases v <;> simp_all [LValue.assertString]
  · intro v hv hs
    cases v <;> simp_all [LValue.assertFloat64]
  · intro v hv hs
    cases v <;> simp_all [LValue.assertFunction]

/-- C20: `LVIsFalse(v)` is true exactly when `v` is `LNil` or `LFalse`, and `LVAsBool(v)` is
its negation; so every number (zero included), every string (the empty string included),
`LTrue`, and every table, function, user data, thread and channel is truthy. -/
theorem LVIsFalse_LVAsBool_truthiness :
    (∀ v, LVIsFalse v = true ↔ (v = LNil ∨ v = LFalse)) ∧
    (∀ v, LVAsBool v = !LVIsFalse v) ∧
    (∀ x, LVAsBool (.lnumber x) = true) ∧ LVAsBool (.lnumber 0) = true ∧
    (∀ s, LVAsBool (.lstring s) = true) ∧ LVAsBool (.lstring "") = true ∧
    LVAsBool LTrue = true ∧
    (∀ p, LVAsBool (.table p) = true) ∧ (∀ p, LVAsBool (.function p) = true) ∧
    (∀ p, LVAsBool (.userdata p) = true) ∧ (∀ p, LVAsBool (.thread p) = true) ∧
    (∀ c, LVAsBool (.channel c) = true) ∧
    LVAsBool LNil = false ∧ LVAsBool LFalse = false := by
  refine ⟨?_, ?_, ?_, ?_, ?_, ?_, ?_, ?_, ?_, ?_, ?_, ?_, ?_, ?_⟩
  · intro v
    cases v <;> simp [LVIsFalse, LNil, LFalse]
  · intro v
    simp [LVIsFalse, LVAsBool, bne, Bool.not_or]
  all_goals simp [LVAsBool, LNil, LFalse, LTrue]

/-! ## The back-reference of the register stack -/

/-- The statements on `reg` of `LState.Clone`, when the result still has the `reg` pointer of
the source: the register stack they both point to gets the result as its handler. -/
theorem LState.cloneReg_handler {h h1 : Heap} {result l rg : Nat} {ls r : LState}
    (hl : h.threads[l]? = some ls) (hr : h.threads[result]? = some r)
    (hlink : r.reg = ls.reg) (hreg : ls.reg = some rg)
    (hc : LState.cloneReg h result l = .ok h1) :
    ∃ x, h1.regs[rg]? = some x ∧ x.handler = some result := by
  simp only [LState.cloneReg, Res.bind_eq_ok, Store.load_eq_ok] at hc
  obtain ⟨ls', ⟨a, ha, hls⟩, hc⟩ := hc
  cases ha
  rw [hl] at hls
  cases hls
  rw [hreg] at hc hlink
  simp only [Res.bind_eq_ok, Res.pure_eq_ok, Prod.exists, Store.load_eq_ok,
    Store.store_eq_ok, registry.registry_clone_eq_ok] at hc
  obtain ⟨r', ⟨a, ha, hr'⟩, c, h2, ⟨x, hx, rfl, rfl⟩, x', ⟨a2, ha2, hx'⟩, rs,
    ⟨a3, y, ha3, hy, rfl⟩, r2, ⟨a4, ha4, hr2⟩, x2, ⟨a5, ha5, hx2⟩, rs2,
    ⟨a6, y2, ha6, hy2, rfl⟩, rfl⟩ := hc
  cases ha
  cases ha4
  rw [hr] at hr'
  cases hr'
  rw [hr] at hr2
  cases hr2
  rw [hlink] at ha5 ha6
  cases ha5
  cases ha6
  have hlt := Store.lt_of_getElem? hy2
  refine ⟨{ x2 with handler := some result }, ?_, rfl⟩
  rw [List.getElem?_set, if_pos rfl, if_pos hlt]

theorem LState.cloneStack_regs {h h1 : Heap} {result l : Nat}
    (hc : LState.cloneStack h result l = .ok h1) : h1.regs = h.regs := by
  simp only [LState.cloneStack, Res.bind_eq_ok] at hc
  obtain ⟨ls, -, hc⟩ := hc
  split at hc
  · cases hc
    rfl
  · simp only [Res.bind_eq_ok, Res.pure_eq_ok, Prod.exists, callFrameStack.stack_Clone_eq_ok] at hc
    obtain ⟨c, h2, ⟨y, -, rfl, rfl⟩, rfl⟩ := hc
    rfl

theorem LState.cloneCurrentFrame_regs {h h1 : Heap} {result l : Nat}
    (hc : LState.cloneCurrentFrame h result l = .ok h1) : h1.regs = h.regs := by
  simp only [LState.cloneCurrentFrame, Res.bind_eq_ok] at hc
  obtain ⟨ls, -, hc⟩ := hc
  split at hc
  · cases hc
    rfl
  · simp only [Res.bind_eq_ok, Res.pure_eq_ok, Prod.exists, callFrame.frame_clone_eq_ok] at hc
    obtain ⟨r, -, c, h2, ⟨x, -, rfl, rfl⟩, x', -, fs, -, rfl⟩ := hc
    rfl

theorem LState.cloneUvcache_regs {h h1 : Heap} {result l : Nat}
    (hc : LState.cloneUvcache h result l = .ok h1) : h1.regs = h.regs := by
  simp only [LState.cloneUvcache, Res.bind_eq_ok] at hc
  obtain ⟨ls, -, hc⟩ := hc
  split at hc
  · cases hc
    rfl
  · simp only [Res.bind_eq_ok, Res.pure_eq_ok, Prod.exists, Upvalue.upvalue_Clone_eq_ok] at hc
    obtain ⟨r, -, c, h2, ⟨x, -, rfl, rfl⟩, x', -, fs, -, rfl⟩ := hc
    rfl

/-- After `LState.Clone` on a thread with a register stack, the source and the result point to
the same register stack, and its handler is the result. -/
theorem LState.thread_Clone_handler {cl : Heap → LValue → Res (LValue × Heap)}
    (hcl : ∀ h v r h', cl h v = .ok (r, h') → Heap.Ext h h')
    {h h1 : Heap} {l rg : Nat} {c : LValue} {ls : LState}
    (hc : LState.Clone cl h l = .ok (c, h1)) (hl : h.threads[l]? = some ls)
    (hreg : ls.reg = some rg) :
    ∃ d x, h1.threads[l]? = some ls ∧ h1.threads[h.threads.length]? = some d ∧
      d.reg = some rg ∧ h1.regs[rg]? = some x ∧ x.handler = some h.threads.length := by
  obtain ⟨-, s⟩ := LState.thread_Clone_steps hcl hc hl
  simp only [LState.Clone, Res.bind_eq_ok, Res.pure_eq_ok, Prod.exists, Prod.mk.injEq] at hc
  obtain ⟨r, h2, h0, h3, h4, h5, h6, h7, h8, h9, h10, h11, h12, h13, h14, rfl, rfl⟩ := hc
  rw [LState.thread_copyRecord_ok hl] at h0
  simp only [Except.ok.injEq, Prod.mk.injEq] at h0
  obtain ⟨rfl, rfl⟩ := h0
  have hl2 : ({ h with threads := h.threads ++ [ls] } : Heap).threads[l]? = some ls :=
    Store.Pres.append _ _ _ _ hl
  have hr2 : ({ h with threads := h.threads ++ [ls] } : Heap).threads[h.threads.length]? =
      some ls := List.getElem?_concat_length _ _
  have e23 : Heap.Ext { h with threads := h.threads ++ [ls] } h3 := LState.cloneG_ext hcl (by
    intro ls' r hls hr
    rw [hl2] at hls
    rw [hr2] at hr
    cases hls
    cases hr
    rfl) h4
  have hl3 := e23.threads_pres _ _ hl2
  have hr3 := e23.threads_pres _ _ hr2
  have s35 : Heap.Step h h3 h5 := LState.thread_cloneEnv_step hcl (Nat.le_refl _) (by
    intro ls' r hls hr
    rw [hl3] at hls
    rw [hr3] at hr
    cases hls
    cases hr
    rfl) h6
  have s25 : Heap.Step h _ h5 := (e23.toStep h).step_trans s35
  obtain ⟨hl5, r5, hr5, -, -, k5, -, -⟩ := LState.facts_of_step s25 hl hl2 hr2
  obtain ⟨x, hx, hxh⟩ := LState.cloneReg_handler hl5 hr5 k5 hreg h8
  obtain ⟨hl13, d, hd, -, -, kd, -, -⟩ := LState.facts_of_step s hl hl2 hr2
  refine ⟨d, x, hl13, hd, kd.trans hreg, ?_, hxh⟩
  rw [LState.cloneUvcache_regs h14, LState.cloneCurrentFrame_regs h12, LState.cloneStack_regs h10]
  exact hx

/-- C21: for every thread `l` with a non-nil `reg`, whenever `l.Clone()` returns, it returns a
thread at a new address, the handler of the clone's register stack is the clone, and the
handler of the register stack of `l` is the clone too, not `l` (both threads point to the
same register stack); on a well-formed thread the call does return. -/
theorem LState_Clone_handler_of_source_is_the_clone (n : Nat) (h : Heap) (l rg : Nat)
    (ls : LState) (hl : h.threads[l]? = some ls) (hreg : ls.reg = some rg) :
    (∀ c h1, LState.Clone (LValue.Clone n) h l = .ok (c, h1) →
      c = .thread h.threads.length ∧
      LState.getHandler h1 (some h.threads.length) = .ok (some h.threads.length) ∧
      LState.getHandler h1 (some l) = .ok (some h.threads.length) ∧
      LState.getHandler h1 (some l) ≠ .ok (some l)) ∧
    (LState.wellFormed n h l = true →
      ∃ h1, LState.Clone (LValue.Clone n) h l = .ok (.thread h.threads.length, h1)) := by
  refine ⟨?_, fun hwf => ?_⟩
  · intro c h1 hc
    obtain ⟨hc1, -⟩ := LState.thread_Clone_ext (LValue.value_Clone_ext n) hc
    obtain ⟨d, x, hl1, hd, hdr, hx, hxh⟩ :=
      LState.thread_Clone_handler (LValue.value_Clone_ext n) hc hl hreg
    have l1 : Store.load h1.threads (some l) = .ok ls := Store.load_eq_ok.mpr ⟨l, rfl, hl1⟩
    have l2 : Store.load h1.threads (some h.threads.length) = .ok d :=
      Store.load_eq_ok.mpr ⟨_, rfl, hd⟩
    have l3 : Store.load h1.regs (some rg) = .ok x := Store.load_eq_ok.mpr ⟨rg, rfl, hx⟩
    have g1 : LState.getHandler h1 (some l) = .ok (some h.threads.length) := by
      simp [LState.getHandler, l1, hreg, l3, hxh, bind, Except.bind, pure, Except.pure]
    have g2 : LState.getHandler h1 (some h.threads.length) = .ok (some h.threads.length) := by
      simp [LState.getHandler, l2, hdr, l3, hxh, bind, Except.bind, pure, Except.pure]
    refine ⟨hc1, g2, g1, ?_⟩
    rw [g1]
    intro he
    simp only [Except.ok.injEq, Option.some.injEq] at he
    exact Nat.ne_of_lt (Store.lt_of_getElem? hl) he.symm
  · obtain ⟨h1, hc, -⟩ := LState.thread_Clone_ok hwf
    exact ⟨h1, hc⟩

/-- C21 at thread 0 of `demoHeap`, whose register stack has thread 0 as its handler: after
the clone (thread 1) both threads point to register stack 0, whose handler is thread 1. -/
theorem LState_Clone_handler_of_source_is_the_clone_witness :
    ∃ h1 l c, LState.getHandler demoHeap (some 0) = .ok (some 0) ∧
      LState.Clone (LValue.Clone 1) demoHeap 0 = .ok (.thread 1, h1) ∧
      h1.threads[0]? = some l ∧ h1.threads[1]? = some c ∧ l.reg = some 0 ∧ c.reg = some 0 ∧
      LState.getHandler h1 (some 1) = .ok (some 1) ∧
      LState.getHandler h1 (some 0) = .ok (some 1) ∧
      LState.getHandler h1 (some 0) ≠ .ok (some 0) := by
  obtain ⟨hf, -⟩ := LState_Clone_handler_of_source_is_the_clone 1 demoHeap 0 0 _
    (rfl : demoHeap.threads[0]? = some _) rfl
  obtain ⟨-, g2, g1, g3⟩ := hf (.thread 1) _
    (rfl : LState.Clone (LValue.Clone 1) demoHeap 0 = .ok (.thread 1, _))
  exact ⟨_, _, _, rfl, rfl, rfl, rfl, rfl, rfl, g2, g1, g3⟩

/-! # What a call of `Clone` that returns has made -/

/-! ## Clones of tables -/

theorem LValue.Clone_iface_nil (m : Nat) (h : Heap) :
    LValue.Clone m h .iface_nil = .error .nilDeref := by
  cases m <;> rfl

/-- A call of `LTable.Clone` that returns was made on an allocated table, and its call of
`Clone` on the metatable of that table returned. -/
theorem LTable.Clone_returned {m : Nat} {h h1 : Heap} {tb : Nat} {r : LValue}
    (hc : LTable.Clone (LValue.Clone m) h tb = .ok (r, h1)) :
    ∃ t mt h3, h.tables[tb]? = some t ∧
      LValue.Clone m { h with tables := h.tables ++ [t] } t.Metatable = .ok (mt, h3) := by
  simp only [LTable.Clone, Res.bind_eq_ok, Res.pure_eq_ok, Prod.exists, Prod.mk.injEq] at hc
  obtain ⟨r0, h2, h0, h3', h4, -⟩ := hc
  obtain ⟨hr, -, t, ht, rfl⟩ := LTable.table_copyRecord_step (b := h) h0
  subst hr
  simp only [LTable.cloneMetatable, Res.bind_eq_ok, Res.pure_eq_ok, Prod.exists,
    Store.load_eq_ok] at h4
  obtain ⟨t2, ⟨a, ha, ht2⟩, mt, h3, hm, -⟩ := h4
  cases ha
  have ht2' : (h.tables ++ [t])[tb]? = some t := Store.copy_link ht
  have ht2'' : (h.tables ++ [t])[tb]? = some t2 := ht2
  rw [ht2'] at ht2''
  cases ht2''
  by_cases hlt : tb < h.tables.length
  · rw [List.getElem?_append_left hlt] at ht
    exact ⟨t, mt, h3, ht, hm⟩
  · have hlen := Store.lt_of_getElem? ht
    simp only [List.length_append, List.length_singleton] at hlen
    have htb : tb = h.tables.length := by omega
    subst htb
    simp only [List.getElem?_concat_length, Option.some.injEq] at ht
    subst ht
    rw [show LTable.zero.Metatable = .iface_nil from rfl, LValue.Clone_iface_nil] at hm
    cases hm

/-- On a table whose metatable chain reaches a scalar value after `n` tables, `LTable.Clone`
returns with every budget `m ≥ n`. -/
theorem LTable.table_Clone_returns {n m : Nat} {h : Heap} {tb : Nat} {t : LTable}
    {v : TableView} (ht : h.tables[tb]? = some t) (hv : t.view h = .ok v)
    (hchain : LValue.isChain 0 n h t.Metatable = true) (hm : n ≤ m) :
    ∃ h1, LTable.Clone (LValue.Clone m) h tb = .ok (.table h.tables.length, h1) := by
  have hck : LValue.isChain 0 (n + 1) h (.table tb) = true :=
    LValue.isChain_table.mpr ⟨Nat.zero_le _, t, v, ht, hv, hchain⟩
  obtain ⟨r, h1, hcl, -, -⟩ :=
    LValue.chain_Clone (n + 1) (m + 1) h h (.table tb) (by omega) hck (Heap.Grow.grow_refl h)
  have hcl' : LTable.Clone (LValue.Clone m) h tb = .ok (r, h1) := hcl
  obtain ⟨hr, -⟩ := LTable.table_Clone_ext (LValue.value_Clone_ext m) hcl'
  subst hr
  exact ⟨h1, hcl'⟩

theorem GoMap.get_set_self {K V : Type} [DecidableEq K] (m : GoMap K V) (k : K) (x : V) :
    (m.set k x).get k = some x := by
  simp only [GoMap.get, GoMap.set]
  rw [List.find?_append]
  have hnone : List.find? (fun e => decide (e.1 = k))
      (List.filter (fun e => decide (e.1 ≠ k)) m.entries) = none := by
    rw [List.find?_eq_none]
    intro e he
    simp only [List.mem_filter, decide_eq_true_eq] at he
    simpa using he.2
  rw [hnone]
  simp

/-- The heap a returning call of `LTable.Clone` leaves, on a table whose containers are
allocated: the heap `h3` in which the call of `Clone` on the metatable returned, with the new
table and its four new containers. -/
theorem LTable.Clone_shape {m : Nat} {h h1 : Heap} {tb : Nat} {t : LTable} {v : TableView}
    {r : LValue} (ht : h.tables[tb]? = some t) (hv : t.view h = .ok v)
    (hc : LTable.Clone (LValue.Clone m) h tb = .ok (r, h1)) :
    ∃ mt h3 t3, Heap.Ext { h with tables := h.tables ++ [t] } h3 ∧
      h3.tables[tb]? = some t3 ∧ t3.view h3 = .ok v ∧
      h.values.length ≤ h3.values.length ∧ h.dicts.length ≤ h3.dicts.length ∧
      h.strdicts.length ≤ h3.strdicts.length ∧ tb < h.tables.length ∧
      h.tables.length < h3.tables.length ∧ r = .table h.tables.length ∧
      h1 = { h3 with
        tables := h3.tables.set h.tables.length
          { Metatable := mt, array := some h3.values.length, dict := some h3.dicts.length,
            strdict := some h3.strdicts.length, keys := some (h3.values.length + 1),
            k2i := t.k2i }
        values := h3.values ++ [v.array, v.keys]
        dicts := h3.dicts ++ [v.dict]
        strdicts := h3.strdicts ++ [v.strdict] } := by
  obtain ⟨t', mt, h3, ht', hm⟩ := LTable.Clone_returned hc
  rw [ht] at ht'
  cases ht'
  obtain ⟨t3, ht3, hv3, -, hlv, hld, hls, htb, hlt, hok⟩ := LTable.Clone_result ht hv hm
  rw [hc] at hok
  simp only [Except.ok.injEq, Prod.mk.injEq] at hok
  exact ⟨mt, h3, t3, LValue.value_Clone_ext m _ _ _ _ hm, ht3, hv3, hlv, hld, hls, htb, hlt,
    hok.1, hok.2⟩

theorem Store.two_fst {α : Type} (s : List α) (x y : α) : (s ++ [x, y])[s.length]? = some x := by
  rw [List.getElem?_append_right (Nat.le_refl _)]
  simp

theorem Store.two_snd {α : Type} (s : List α) (x y : α) :
    (s ++ [x, y])[s.length + 1]? = some y := by
  rw [List.getElem?_append_right (Nat.le_succ _)]
  simp

theorem Store.set_two_fst {α : Type} (s : List α) (x y a b : α) :
    (((s ++ [x, y]).set s.length a).set (s.length + 1) b)[s.length]? = some a := by
  rw [List.getElem?_set_ne (by omega)]
  simp [List.getElem_append_right]

theorem Store.set_two_snd {α : Type} (s : List α) (x y a b : α) :
    (((s ++ [x, y]).set s.length a).set (s.length + 1) b)[s.length + 1]? = some b := by
  simp [List.getElem_append_right]

theorem Store.set_one_new {α : Type} (s : List α) (x a : α) :
    ((s ++ [x]).set s.length a)[s.length]? = some a := by
  simp

/-- The elements of the table `LTable.Clone` has made, read in the heap it leaves. -/
theorem LTable.clone_view_new (h3 : Heap) (mt : LValue) (k : Option Nat)
    (xs ks : List LValue) (d : GoMap LValue LValue) (s : GoMap String LValue)
    (vs : List (List LValue)) (ds : List (GoMap LValue LValue))
    (ss : List (GoMap String LValue)) (ts : List LTable)
    (hvs : vs[h3.values.length]? = some xs) (hks : vs[h3.values.length + 1]? = some ks)
    (hds : ds[h3.dicts.length]? = some d) (hss : ss[h3.strdicts.length]? = some s) :
    LTable.view { h3 with tables := ts, values := vs, dicts := ds, strdicts := ss }
      ⟨mt, some h3.values.length, some h3.dicts.length, some h3.strdicts.length,
        some (h3.values.length + 1), k⟩ = .ok ⟨xs, d, s, ks⟩ := by
  rw [LTable.view_eq_ok]
  simp [Store.slice, Store.mapOf, hvs, hks, hds, hss]

/-- C7, as amended: for every table `tb` (with allocated containers) whose metatable chain is
finite (following `Metatable` from `tb` reaches a scalar value such as `LNil` after `n`
tables), `tb.Clone()` returns, with every budget `m ≥ n`; and whenever `tb.Clone()` returns
(also on a table with another metatable, such as a function), the result is a table at a new
address whose array, dict, strdict and keys are containers that were not allocated before and
differ from those of `tb`; `tb` still holds its elements; whatever is then written to the
four containers of the clone is what the clone holds and leaves the elements of `tb`
unchanged, and whatever is written to a container of `tb` leaves the elements of the clone
unchanged. -/
theorem LTable_Clone_new_containers (n m : Nat) (h : Heap) (tb : Nat) (t : LTable)
    (v : TableView) (ht : h.tables[tb]? = some t) (hv : t.view h = .ok v) :
    (∀ r h1, LTable.Clone (LValue.Clone m) h tb = .ok (r, h1) →
      r = .table h.tables.length ∧ h.tables.length ≠ tb ∧
      ∃ c t1 ca cd cs ck,
        h1.tables[h.tables.length]? = some c ∧ h1.tables[tb]? = some t1 ∧
        c.array = some ca ∧ c.dict = some cd ∧ c.strdict = some cs ∧ c.keys = some ck ∧
        h.values.length ≤ ca ∧ h.values.length ≤ ck ∧ ca ≠ ck ∧
        h.dicts.length ≤ cd ∧ h.strdicts.length ≤ cs ∧
        t1.array ≠ some ca ∧ t1.array ≠ some ck ∧ t1.keys ≠ some ca ∧ t1.keys ≠ some ck ∧
        t1.dict ≠ some cd ∧ t1.strdict ≠ some cs ∧
        c.view h1 = .ok v ∧ t1.view h1 = .ok v ∧
        (∀ xs ks d s,
          c.view
            { h1 with
              values := (h1.values.set ca xs).set ck ks
              dicts := h1.dicts.set cd d
              strdicts := h1.strdicts.set cs s } = .ok ⟨xs, d, s, ks⟩ ∧
          t1.view
            { h1 with
              values := (h1.values.set ca xs).set ck ks
              dicts := h1.dicts.set cd d
              strdicts := h1.strdicts.set cs s } = .ok v) ∧
        (∀ a xs, t1.array = some a ∨ t1.keys = some a →
          c.view { h1 with values := h1.values.set a xs } = .ok v) ∧
        (∀ a d, t1.dict = some a → c.view { h1 with dicts := h1.dicts.set a d } = .ok v) ∧
        (∀ a s, t1.strdict = some a →
          c.view { h1 with strdicts := h1.strdicts.set a s } = .ok v)) ∧
    (LValue.isChain 0 n h t.Metatable = true → n ≤ m →
      ∃ h1, LTable.Clone (LValue.Clone m) h tb = .ok (.table h.tables.length, h1)) := by
  refine ⟨?_, fun hchain hm => LTable.table_Clone_returns ht hv hchain hm⟩
  intro r h1 hc
  obtain ⟨mt, h3, t3, -, ht3, hv3, hlv, hld, hls, htb, hlt, hr, rfl⟩ :=
    LTable.Clone_shape ht hv hc
  have hne : h.tables.length ≠ tb := by omega
  obtain ⟨va, vd, vs, vk⟩ := LTable.view_eq_ok.mp hv3
  have na1 := Store.slice_ne_of_ok va (Nat.le_refl h3.values.length)
  have na2 := Store.slice_ne_of_ok va (Nat.le_succ h3.values.length)
  have nk1 := Store.slice_ne_of_ok vk (Nat.le_refl h3.values.length)
  have nk2 := Store.slice_ne_of_ok vk (Nat.le_succ h3.values.length)
  have nd := Store.mapOf_ne_of_ok vd (Nat.le_refl h3.dicts.length)
  have ns := Store.mapOf_ne_of_ok vs (Nat.le_refl h3.strdicts.length)
  have hck : h.values.length ≤ h3.values.length + 1 := Nat.le_succ_of_le hlv
  have hcak : h3.values.length ≠ h3.values.length + 1 := Nat.ne_of_lt (Nat.lt_succ_self _)
  refine ⟨hr, hne, ⟨mt, some h3.values.length, some h3.dicts.length, some h3.strdicts.length,
    some (h3.values.length + 1), t.k2i⟩, t3, h3.values.length, h3.dicts.length,
    h3.strdicts.length, h3.values.length + 1, ?_, ?_, rfl, rfl, rfl, rfl, hlv, hck,
    hcak, hld, hls, na1, na2, nk1, nk2, nd, ns, ?_, ?_, ?_, ?_, ?_, ?_⟩
  · simp [hlt]
  · simp [List.getElem?_set_ne hne, ht3]
  · exact LTable.clone_view_new h3 mt t.k2i _ _ _ _ _ _ _ _ (Store.two_fst _ _ _)
      (Store.two_snd _ _ _) (List.getElem?_concat_length _ _) (List.getElem?_concat_length _ _)
  · exact LTable.view_mono (Store.Pres.append _ _) (Store.Pres.append _ _)
      (Store.Pres.append _ _) hv3
  · intro xs ks d s
    refine ⟨?_, ?_⟩
    · exact LTable.clone_view_new h3 mt t.k2i _ _ _ _ _ _ _ _ (Store.set_two_fst _ _ _ _ _)
        (Store.set_two_snd _ _ _ _ _) (Store.set_one_new _ _ _) (Store.set_one_new _ _ _)
    · exact LTable.view_mono
        (((Store.Pres.append _ _).set_fresh xs (Nat.le_refl _)).set_fresh ks (Nat.le_succ _))
        ((Store.Pres.append _ _).set_fresh d (Nat.le_refl _))
        ((Store.Pres.append _ _).set_fresh s (Nat.le_refl _)) hv3
  · intro a xs ha
    have h1 : a ≠ h3.values.length := by
      rintro rfl
      rcases ha with ha | ha
      · exact na1 ha
      · exact nk1 ha
    have h2 : a ≠ h3.values.length + 1 := by
      rintro rfl
      rcases ha with ha | ha
      · exact na2 ha
      · exact nk2 ha
    exact LTable.clone_view_new h3 mt t.k2i _ _ _ _ _ _ _ _
      (by rw [List.getElem?_set_ne h1]; exact Store.two_fst _ _ _)
      (by rw [List.getElem?_set_ne h2]; exact Store.two_snd _ _ _)
      (List.getElem?_concat_length _ _) (List.getElem?_concat_length _ _)
  · intro a d ha
    have h1 : a ≠ h3.dicts.length := by
      rintro rfl
      exact nd ha
    exact LTable.clone_view_new h3 mt t.k2i _ _ _ _ _ _ _ _ (Store.two_fst _ _ _)
      (Store.two_snd _ _ _)
      (by rw [List.getElem?_set_ne h1]; exact List.getElem?_concat_length _ _)
      (List.getElem?_concat_length _ _)
  · intro a s ha
    have h1 : a ≠ h3.strdicts.length := by
      rintro rfl
      exact ns ha
    exact LTable.clone_view_new h3 mt t.k2i _ _ _ _ _ _ _ _ (Store.two_fst _ _ _)
      (Store.two_snd _ _ _) (List.getElem?_concat_length _ _)
      (by rw [List.getElem?_set_ne h1]; exact List.getElem?_concat_length _ _)

/-- C7 at table 5 of `objHeap`, whose array holds two numbers and whose chain of metatables
is table 4, table 2, `LNil` (the clone is table 7, with containers of its own), and at table
6, whose metatable is a function (the call returns with budget 1, and the clone, table 7, has
containers of its own). -/
theorem LTable_Clone_new_containers_witness :
    (∃ h1, LTable.Clone (LValue.Clone 2) objHeap 5 = .ok (.table 7, h1) ∧
      ∃ c t1 ca cd cs ck,
        h1.tables[7]? = some c ∧ h1.tables[5]? = some t1 ∧
        c.array = some ca ∧ c.dict = some cd ∧ c.strdict = some cs ∧ c.keys = some ck ∧
        4 ≤ ca ∧ 4 ≤ ck ∧ ca ≠ ck ∧ 0 ≤ cd ∧ 5 ≤ cs ∧
        t1.array ≠ some ca ∧ t1.array ≠ some ck ∧ t1.keys ≠ some ca ∧ t1.keys ≠ some ck ∧
        t1.dict ≠ some cd ∧ t1.strdict ≠ some cs ∧
        c.view h1 = .ok ⟨[.lnumber 1, .lnumber 2], GoMap.empty, GoMap.empty, []⟩ ∧
        t1.view h1 = .ok ⟨[.lnumber 1, .lnumber 2], GoMap.empty, GoMap.empty, []⟩ ∧
        (∀ xs ks d s,
          c.view
            { h1 with
              values := (h1.values.set ca xs).set ck ks
              dicts := h1.dicts.set cd d
              strdicts := h1.strdicts.set cs s } = .ok ⟨xs, d, s, ks⟩ ∧
          t1.view
            { h1 with
              values := (h1.values.set ca xs).set ck ks
              dicts := h1.dicts.set cd d
              strdicts := h1.strdicts.set cs s } =
            .ok ⟨[.lnumber 1, .lnumber 2], GoMap.empty, GoMap.empty, []⟩) ∧
        (∀ a xs, t1.array = some a ∨ t1.keys = some a →
          c.view { h1 with values := h1.values.set a xs } =
            .ok ⟨[.lnumber 1, .lnumber 2], GoMap.empty, GoMap.empty, []⟩) ∧
        (∀ a d, t1.dict = some a → c.view { h1 with dicts := h1.dicts.set a d } =
          .ok ⟨[.lnumber 1, .lnumber 2], GoMap.empty, GoMap.empty, []⟩) ∧
        (∀ a s, t1.strdict = some a → c.view { h1 with strdicts := h1.strdicts.set a s } =
          .ok ⟨[.lnumber 1, .lnumber 2], GoMap.empty, GoMap.empty, []⟩)) ∧
    (∃ h1 c t1, LTable.Clone (LValue.Clone 1) objHeap 6 = .ok (.table 7, h1) ∧
      h1.tables[7]? = some c ∧ h1.tables[6]? = some t1 ∧
      c.array ≠ t1.array ∧ c.keys ≠ t1.keys ∧ c.dict ≠ t1.dict ∧ c.strdict ≠ t1.strdict ∧
      c.view h1 = .ok ⟨[], GoMap.empty, GoMap.empty, []⟩ ∧
      t1.view h1 = .ok ⟨[], GoMap.empty, GoMap.empty, []⟩) := by
  constructor
  · obtain ⟨hA, hB⟩ := LTable_Clone_new_containers 2 2 objHeap 5
      ⟨.table 4, some 3, none, none, none, none⟩
      ⟨[.lnumber 1, .lnumber 2], GoMap.empty, GoMap.empty, []⟩ rfl rfl
    obtain ⟨h1, hc⟩ := hB rfl (Nat.le_refl 2)
    obtain ⟨-, -, hw⟩ := hA _ h1 hc
    exact ⟨h1, hc, hw⟩
  · obtain ⟨hA, -⟩ := LTable_Clone_new_containers 0 1 objHeap 6
      ⟨.function 0, none, none, none, none, none⟩ ⟨[], GoMap.empty, GoMap.empty, []⟩ rfl rfl
    obtain ⟨-, -, c, t1, ca, cd, cs, ck, e1, e2, ea, ed, es, ek, -, -, -, -, -, na, -, -, nk,
        nd, ns, v1, v2, -⟩ :=
      hA _ _ (rfl : LTable.Clone (LValue.Clone 1) objHeap 6 = .ok (.table 7, _))
    refine ⟨_, c, t1, rfl, e1, e2, ?_, ?_, ?_, ?_, v1, v2⟩
    · rw [ea]
      exact Ne.symm na
    · rw [ek]
      exact Ne.symm nk
    · rw [ed]
      exact Ne.symm nd
    · rw [es]
      exact Ne.symm ns

/-- C7 fails as stated: table 1 of `cyclicHeap` has allocated containers and a non-nil
`Metatable` (as has every table of that heap), but its metatable is table 1 itself;
`LTable.Clone` then exhausts every recursion budget, because each `Clone` of that table calls
`Clone` on it again, so the call never returns and there is no clone. -/
theorem LTable_Clone_diverges_on_own_metatable :
    (cyclicHeap.tables[1]?).map (fun t => t.Metatable) = some (.table 1) ∧
    (∀ t ∈ cyclicHeap.tables, t.Metatable ≠ .iface_nil) ∧
    cyclicHeap.entries (some 1) =
      some ⟨[], GoMap.empty, ⟨[("x", .lnumber 2)], by decide⟩, [.lstring "x"]⟩ ∧
    (∀ n, LTable.Clone (LValue.Clone n) cyclicHeap 1 = .error .outOfFuel) ∧
    ¬ ∃ n r h1, LTable.Clone (LValue.Clone n) cyclicHeap 1 = .ok (r, h1) := by
  have hd : ∀ n, LTable.Clone (LValue.Clone n) cyclicHeap 1 = .error .outOfFuel :=
    fun n => LValue.Clone_self_metatable (n + 1) cyclicHeap 1 _ rfl rfl
  refine ⟨rfl, by decide, rfl, hd, ?_⟩
  rintro ⟨n, r, h1, hc⟩
  rw [hd n] at hc
  cases hc

theorem LTable.setStr_eq_ok {h h2 : Heap} {a : Nat} {key : String} {x : LValue}
    (hs : LTable.setStr h (some a) key x = .ok h2) :
    ∃ t sa m, h.tables[a]? = some t ∧ t.strdict = some sa ∧ h.strdicts[sa]? = some m ∧
      h2 = { h with strdicts := h.strdicts.set sa (m.set key x) } := by
  simp only [LTable.setStr, Res.bind_eq_ok, Res.pure_eq_ok, Store.load_eq_ok,
    Store.store_eq_ok] at hs
  obtain ⟨t, ⟨a0, ha0, ht⟩, m, ⟨sa, hsa, hm⟩, ms, ⟨sa', y, hsa', -, rfl⟩, rfl⟩ := hs
  cases ha0
  rw [hsa] at hsa'
  cases hsa'
  exact ⟨t, sa, m, ht, hsa, hm, rfl⟩

/-- C8, as amended: for every table `tb` (with allocated containers) whose metatable chain is
finite (following `Metatable` from `tb` reaches a scalar value such as `LNil` after `n`
tables), `c := tb.Clone()` returns, with every budget `m ≥ n`; and whenever it returns, `c`
holds the same element values as `tb`, one level deep: the array and the key list of `c` are
the same lists of values as those of `tb`, and its dict and strdict are the same maps, so `c`
and `tb` give the same value for every key.  The elements are not copied: an element that is
a table `a` is that same table, one that existed before the call, in `c` and in `tb`; the
call leaves the elements of `a` as they were, and after an entry is written to `a`, `c` still
holds the same elements (among them `a`, under the same key) and a read of `a` gives the
entry written. -/
theorem LTable_Clone_same_elements (n m : Nat) (h : Heap) (tb : Nat) (t : LTable)
    (v : TableView) (ht : h.tables[tb]? = some t) (hv : t.view h = .ok v) :
    (∀ r h1, LTable.Clone (LValue.Clone m) h tb = .ok (r, h1) →
      r = .table h.tables.length ∧
      ∃ c t1, h1.tables[h.tables.length]? = some c ∧ h1.tables[tb]? = some t1 ∧
        c.view h1 = .ok v ∧ t1.view h1 = .ok v ∧
        (∀ key, LTable.getStr h1 (some h.tables.length) key = .ok (v.strdict.get key) ∧
          LTable.getStr h1 (some tb) key = .ok (v.strdict.get key)) ∧
        (∀ key a w, v.strdict.get key = some (.table a) → h.entries (some a) = some w →
          LTable.getStr h1 (some tb) key = .ok (some (.table a)) ∧
          LTable.getStr h1 (some h.tables.length) key = .ok (some (.table a)) ∧
          h1.entries (some a) = some w ∧
          ∀ k2 x h2, LTable.setStr h1 (some a) k2 x = .ok h2 →
            LTable.getStr h2 (some h.tables.length) key = .ok (some (.table a)) ∧
            LTable.getStr h2 (some a) k2 = .ok (some x)) ∧
        (∀ a w, h.entries (some a) = some w →
          h1.entries (some a) = some w ∧
          ∀ k2 x h2, LTable.setStr h1 (some a) k2 x = .ok h2 →
            h2.entries (some h.tables.length) = some v ∧
            LTable.getStr h2 (some a) k2 = .ok (some x))) ∧
    (LValue.isChain 0 n h t.Metatable = true → n ≤ m →
      ∃ h1, LTable.Clone (LValue.Clone m) h tb = .ok (.table h.tables.length, h1)) := by
  refine ⟨?_, fun hchain hm => LTable.table_Clone_returns ht hv hchain hm⟩
  intro r h1 hc
  obtain ⟨mt, h3, t3, e, ht3, hv3, -, -, -, htb, hlt, hr, rfl⟩ := LTable.Clone_shape ht hv hc
  have hne : h.tables.length ≠ tb := by omega
  have hcv := LTable.clone_view_new h3 mt t.k2i v.array v.keys v.dict v.strdict
    (h3.values ++ [v.array, v.keys]) (h3.dicts ++ [v.dict]) (h3.strdicts ++ [v.strdict])
    (h3.tables.set h.tables.length
      ⟨mt, some h3.values.length, some h3.dicts.length, some h3.strdicts.length,
        some (h3.values.length + 1), t.k2i⟩)
    (Store.two_fst _ _ _) (Store.two_snd _ _ _) (List.getElem?_concat_length _ _)
    (List.getElem?_concat_length _ _)
  have hcv' : LTable.view _ _ = .ok v := hcv
  have htv : LTable.view
      { h3 with
        tables := h3.tables.set h.tables.length
          ⟨mt, some h3.values.length, some h3.dicts.length, some h3.strdicts.length,
            some (h3.values.length + 1), t.k2i⟩
        values := h3.values ++ [v.array, v.keys]
        dicts := h3.dicts ++ [v.dict]
        strdicts := h3.strdicts ++ [v.strdict] } t3 = .ok v :=
    LTable.view_mono (Store.Pres.append _ _) (Store.Pres.append _ _) (Store.Pres.append _ _) hv3
  have hcl : (h3.tables.set h.tables.length
      ⟨mt, some h3.values.length, some h3.dicts.length, some h3.strdicts.length,
        some (h3.values.length + 1), t.k2i⟩)[h.tables.length]? = some
      ⟨mt, some h3.values.length, some h3.dicts.length, some h3.strdicts.length,
        some (h3.values.length + 1), t.k2i⟩ := by
    simp [hlt]
  have htl : (h3.tables.set h.tables.length
      ⟨mt, some h3.values.length, some h3.dicts.length, some h3.strdicts.length,
        some (h3.values.length + 1), t.k2i⟩)[tb]? = some t3 := by
    simp [List.getElem?_set_ne hne, ht3]
  have hgc := fun key => LTable.getStr_of_view hcl hcv' key
  have hgt := fun key => LTable.getStr_of_view htl htv key
  -- a table that existed before the call
  have hold : ∀ a w, h.entries (some a) = some w →
      a < h.tables.length ∧
      Heap.entries
        { h3 with
          tables := h3.tables.set h.tables.length
            ⟨mt, some h3.values.length, some h3.dicts.length, some h3.strdicts.length,
              some (h3.values.length + 1), t.k2i⟩
          values := h3.values ++ [v.array, v.keys]
          dicts := h3.dicts ++ [v.dict]
          strdicts := h3.strdicts ++ [v.strdict] } (some a) = some w ∧
      ∀ k2 x h2, LTable.setStr
          { h3 with
            tables := h3.tables.set h.tables.length
              ⟨mt, some h3.values.length, some h3.dicts.length, some h3.strdicts.length,
                some (h3.values.length + 1), t.k2i⟩
            values := h3.values ++ [v.array, v.keys]
            dicts := h3.dicts ++ [v.dict]
            strdicts := h3.strdicts ++ [v.strdict] } (some a) k2 x = .ok h2 →
        h2.entries (some h.tables.length) = some v ∧
        (∀ key, LTable.getStr h2 (some h.tables.length) key = .ok (v.strdict.get key)) ∧
        LTable.getStr h2 (some a) k2 = .ok (some x) := by
    intro a w hw
    obtain ⟨a0, ta, ha0, hta, hwa⟩ := Heap.entries_eq_some.mp hw
    cases ha0
    have hlta := Store.lt_of_getElem? hta
    have hna : h.tables.length ≠ a := by omega
    obtain ⟨ta3, hta3, -, hv3a⟩ := e.table (Store.Pres.append _ _ _ _ hta : (h.tables ++ [t])[a]? = some ta)
    have hwa3 := hv3a w (LTable.view_mono (Store.Pres.pres_refl _) (Store.Pres.pres_refl _)
      (Store.Pres.pres_refl _) hwa)
    have hta1 : (h3.tables.set h.tables.length
        ⟨mt, some h3.values.length, some h3.dicts.length, some h3.strdicts.length,
          some (h3.values.length + 1), t.k2i⟩)[a]? = some ta3 := by
      simp [List.getElem?_set_ne hna, hta3]
    refine ⟨hlta, Heap.entries_eq_some.mpr ⟨a, ta3, rfl, hta1,
      LTable.view_mono (Store.Pres.append _ _) (Store.Pres.append _ _) (Store.Pres.append _ _)
        hwa3⟩, ?_⟩
    intro k2 x h2 hs
    obtain ⟨t', sa, m0, ht', hsa, hm0, rfl⟩ := LTable.setStr_eq_ok hs
    have ht'' : (h3.tables.set h.tables.length
        ⟨mt, some h3.values.length, some h3.dicts.length, some h3.strdicts.length,
          some (h3.values.length + 1), t.k2i⟩)[a]? = some t' := ht'
    rw [hta1] at ht''
    cases ht''
    have hsa3 := (LTable.view_eq_ok.mp hwa3).2.2.1
    have hsne : ta3.strdict ≠ some h3.strdicts.length :=
      Store.mapOf_ne_of_ok hsa3 (Nat.le_refl _)
    have hsne' : sa ≠ h3.strdicts.length := by
      rintro rfl
      exact hsne hsa
    have hm0' : (h3.strdicts ++ [v.strdict])[sa]? = some m0 := hm0
    have hsalt : sa < (h3.strdicts ++ [v.strdict]).length := Store.lt_of_getElem? hm0'
    have hcv2 := LTable.clone_view_new h3 mt t.k2i v.array v.keys v.dict v.strdict
      (h3.values ++ [v.array, v.keys]) (h3.dicts ++ [v.dict])
      ((h3.strdicts ++ [v.strdict]).set sa (m0.set k2 x))
      (h3.tables.set h.tables.length
        ⟨mt, some h3.values.length, some h3.dicts.length, some h3.strdicts.length,
          some (h3.values.length + 1), t.k2i⟩)
      (Store.two_fst _ _ _) (Store.two_snd _ _ _) (List.getElem?_concat_length _ _)
      (by rw [List.getElem?_set_ne hsne']; exact List.getElem?_concat_length _ _)
    have hcv2' : LTable.view _ _ = .ok v := hcv2
    refine ⟨Heap.entries_eq_some.mpr ⟨_, _, rfl, hcl, hcv2'⟩,
      fun key => LTable.getStr_of_view hcl hcv2' key, ?_⟩
    have l1 : Store.load (h3.tables.set h.tables.length
        ⟨mt, some h3.values.length, some h3.dicts.length, some h3.strdicts.length,
          some (h3.values.length + 1), t.k2i⟩) (some a) = .ok ta3 :=
      Store.load_eq_ok.mpr ⟨a, rfl, hta1⟩
    have l2 : Store.mapOf ((h3.strdicts ++ [v.strdict]).set sa (m0.set k2 x)) ta3.strdict =
        .ok (m0.set k2 x) := by
      have hsalt' : sa < h3.strdicts.length + 1 := by simpa using hsalt
      have hget : ((h3.strdicts ++ [v.strdict]).set sa (m0.set k2 x))[sa]? =
          some (m0.set k2 x) := by
        simp [hsalt']
      rw [hsa]
      simp only [Store.mapOf, hget]
    simp [LTable.getStr, l1, l2, bind, Except.bind, pure, Except.pure, GoMap.get_set_self]
  refine ⟨hr, _, t3, hcl, htl, hcv', htv, fun key => ⟨hgc key, hgt key⟩, ?_, ?_⟩
  · intro key a w hk hw
    obtain ⟨-, hw1, hmut⟩ := hold a w hw
    refine ⟨by rw [hgt key, hk], by rw [hgc key, hk], hw1, ?_⟩
    intro k2 x h2 hs
    obtain ⟨-, hg2, hx⟩ := hmut k2 x h2 hs
    exact ⟨by rw [hg2 key, hk], hx⟩
  · intro a w hw
    obtain ⟨-, hw1, hmut⟩ := hold a w hw
    refine ⟨hw1, ?_⟩
    intro k2 x h2 hs
    obtain ⟨he, -, hx⟩ := hmut k2 x h2 hs
    exact ⟨he, hx⟩

/-- C8 at table 4 of `objHeap`, whose metatable is table 2 and whose only element, under the
key `"__index"`, is the table 2: the clone (table 7) holds that same table 2, and an entry
written to table 2 afterwards is read back through the element of the clone. -/
theorem LTable_Clone_same_elements_witness :
    ∃ h1 h2 c t1, LTable.Clone (LValue.Clone 1) objHeap 4 = .ok (.table 7, h1) ∧
      h1.tables[7]? = some c ∧ h1.tables[4]? = some t1 ∧
      c.view h1 = .ok ⟨[], GoMap.empty, ⟨[("__index", .table 2)], by decide⟩, []⟩ ∧
      t1.view h1 = .ok ⟨[], GoMap.empty, ⟨[("__index", .table 2)], by decide⟩, []⟩ ∧
      LTable.getStr h1 (some 4) "__index" = .ok (some (.table 2)) ∧
      LTable.getStr h1 (some 7) "__index" = .ok (some (.table 2)) ∧
      LTable.getStr h1 (some 2) "z" = .ok none ∧
      LTable.setStr h1 (some 2) "z" (.lnumber 9) = .ok h2 ∧
      LTable.getStr h2 (some 7) "__index" = .ok (some (.table 2)) ∧
      LTable.getStr h2 (some 2) "z" = .ok (some (.lnumber 9)) := by
  obtain ⟨hA, hB⟩ := LTable_Clone_same_elements 1 1 objHeap 4
    ⟨.table 2, none, none, some 4, none, none⟩
    ⟨[], GoMap.empty, ⟨[("__index", .table 2)], by decide⟩, []⟩ rfl rfl
  obtain ⟨h1, hc⟩ := hB rfl (Nat.le_refl 1)
  have hc0 : LTable.Clone (LValue.Clone 1) objHeap 4 = .ok (.table 7, _) := rfl
  obtain ⟨-, rfl⟩ := Prod.mk.inj (Except.ok.inj (hc.symm.trans hc0))
  obtain ⟨-, c, t1, k1, k2, k3, k4, -, k6, -⟩ := hA _ _ hc0
  obtain ⟨g1, g2, -, g5⟩ := k6 "__index" 2
    ⟨[], GoMap.empty, ⟨[("len", .lnumber 4)], by decide⟩, []⟩ rfl rfl
  obtain ⟨m1, m2⟩ := g5 "z" (.lnumber 9) _ rfl
  exact ⟨_, _, c, t1, hc0, k1, k2, k3, k4, g1, g2, rfl, rfl, m1, m2⟩

/-- C8 fails as stated: table 1 of `cyclicHeap` holds the element `"x"` and has a non-nil
`Metatable`, namely table 1 itself (after `setmetatable(t, t)`); `LTable.Clone` then calls
`Clone` on table 1 again and again and exhausts every recursion budget, so there is no clone
`c` to hold the elements. -/
theorem LTable_Clone_of_own_metatable_has_no_result :
    LTable.getStr cyclicHeap (some 1) "x" = .ok (some (.lnumber 2)) ∧
    (cyclicHeap.tables[1]?).map (fun t => t.Metatable) = some (.table 1) ∧
    (∀ n, LTable.Clone (LValue.Clone n) cyclicHeap 1 = .error .outOfFuel) ∧
    ¬ ∃ n c h1, LTable.Clone (LValue.Clone n) cyclicHeap 1 = .ok (c, h1) := by
  have hd : ∀ n, LTable.Clone (LValue.Clone n) cyclicHeap 1 = .error .outOfFuel :=
    fun n => LValue.Clone_self_metatable (n + 1) cyclicHeap 1 _ rfl rfl
  refine ⟨rfl, rfl, hd, ?_⟩
  rintro ⟨n, c, h1, hc⟩
  rw [hd n] at hc
  cases hc

/-! ## Clones of user data -/

theorem LValue.Clone_table_returned {m : Nat} {h h1 : Heap} {a : Nat} {r : LValue}
    (hc : LValue.Clone m h (.table a) = .ok (r, h1)) :
    ∃ k t, m = k + 1 ∧ h.tables[a]? = some t ∧
      LTable.Clone (LValue.Clone k) h a = .ok (r, h1) := by
  cases m with
  | zero => cases hc
  | succ k =>
    have hc' : LTable.Clone (LValue.Clone k) h a = .ok (r, h1) := hc
    obtain ⟨t, -, -, ht, -⟩ := LTable.Clone_returned hc'
    exact ⟨k, t, rfl, ht, hc'⟩

/-- What a returning call of `LTable.Clone` makes of the tables: the result is a table at a
new address holding the elements of the source, the source is an allocated table, and every
table that existed keeps its elements. -/
theorem LTable.Clone_entries {m : Nat} {h h1 : Heap} {tb : Nat} {r : LValue}
    (hc : LTable.Clone (LValue.Clone m) h tb = .ok (r, h1)) :
    r = .table h.tables.length ∧ tb < h.tables.length ∧ Heap.Ext h h1 ∧
      (∀ p w, h.entries p = some w → h1.entries p = some w) ∧
      ∀ w, h.entries (some tb) = some w → h1.entries (some h.tables.length) = some w := by
  obtain ⟨hr, e⟩ := LTable.table_Clone_ext (LValue.value_Clone_ext m) hc
  obtain ⟨t, -, -, ht, -⟩ := LTable.Clone_returned hc
  refine ⟨hr, Store.lt_of_getElem? ht, e, fun p w hw => e.entries hw, ?_⟩
  intro w hw
  obtain ⟨a, t', ha, ht', hv⟩ := Heap.entries_eq_some.mp hw
  cases ha
  rw [ht] at ht'
  cases ht'
  obtain ⟨c1, hc1, -, hv1⟩ := LTable.table_Clone_spec (LValue.value_Clone_ext m) hc ht
  exact Heap.entries_eq_some.mpr ⟨_, c1, rfl, hc1, hv1 w hv⟩

theorem LTable.Keep.keep_length_le {s s' : List LTable} (hk : LTable.Keep s s') :
    s.length ≤ s'.length := by
  by_contra hlt
  have hlt' : s'.length < s.length := by omega
  obtain ⟨t', ht', -⟩ := hk s'.length s[s'.length] (List.getElem?_eq_getElem hlt')
  have := Store.lt_of_getElem? ht'
  omega

/-- The statement on `Env` of `LUserData.Clone`, on a run that returns: a nil environment
stays nil, and otherwise the result gets a table at a new address with the elements of the
environment; the source record and the elements of every table that existed are kept. -/
theorem LUserData.userdata_cloneEnv_spec {m : Nat} {h h' : Heap} {result ud : Nat}
    {u r : LUserData} (hu : h.userdata[ud]? = some u) (hr : h.userdata[result]? = some r)
    (hne : ud ≠ result) (hlink : r.Env = u.Env)
    (hc : LUserData.cloneEnv (LValue.Clone m) h result ud = .ok h') :
    ∃ E, h'.userdata[ud]? = some u ∧ h'.userdata[result]? = some { r with Env := E } ∧
      h.tables.length ≤ h'.tables.length ∧
      (∀ p w, h.entries p = some w → h'.entries p = some w) ∧
      (u.Env = none → E = none) ∧
      (∀ env, u.Env = some env → E = some h.tables.length ∧ env < h.tables.length ∧
        ∀ w, h.entries (some env) = some w → h'.entries (some h.tables.length) = some w) := by
  simp only [LUserData.cloneEnv, Res.bind_eq_ok, Store.load_eq_ok] at hc
  obtain ⟨u', ⟨a, ha, hu'⟩, hc⟩ := hc
  cases ha
  rw [hu] at hu'
  cases hu'
  cases henv : u.Env with
  | none =>
    rw [henv] at hc
    simp only [Res.pure_eq_ok] at hc
    subst hc
    refine ⟨none, hu, ?_, Nat.le_refl _, fun _ _ hw => hw, fun _ => rfl,
      fun env he => by cases he⟩
    rw [hr]
    rw [henv] at hlink
    cases r
    simp only at hlink
    subst hlink
    rfl
  | some env =>
    rw [henv] at hc
    simp only [Res.bind_eq_ok, Res.pure_eq_ok, Prod.exists, LValue.toTable_eq_ok] at hc
    obtain ⟨c, h2, hcl, p, hp, rfl⟩ := hc
    obtain ⟨hr2, hlt, e, hold, hnew⟩ := LTable.Clone_entries hcl
    subst hr2
    cases hp
    have hu2 := e.userdata_pres _ _ hu
    have hr2 := e.userdata_pres _ _ hr
    refine ⟨some h.tables.length, ?_, ?_, e.tablesKeep.keep_length_le, ?_, ?_, ?_⟩
    · show (Store.upd h2.userdata result _)[ud]? = some u
      rw [Store.getElem?_upd_ne _ _ (Ne.symm hne)]
      exact hu2
    · show (Store.upd h2.userdata result _)[result]? = _
      rw [Store.getElem?_upd_self, hr2]
      rfl
    · intro q w hw
      exact hold q w hw
    · intro he
      cases he
    · intro env' he
      cases he
      exact ⟨rfl, hlt, fun w hw => hnew w hw⟩

/-- The statement on `Metatable` of `LUserData.Clone`, on a run that returns: a nil metatable
stays nil, a scalar stays the same value, and a table is replaced by a table at a new address
with the same elements; the source record and the elements of every table that existed are
kept. -/
theorem LUserData.userdata_cloneMetatable_spec {m : Nat} {h h' : Heap} {result ud : Nat}
    {u r : LUserData} (hu : h.userdata[ud]? = some u) (hr : h.userdata[result]? = some r)
    (hne : ud ≠ result) (hlink : r.Metatable = u.Metatable)
    (hc : LUserData.cloneMetatable (LValue.Clone m) h result ud = .ok h') :
    ∃ M, h'.userdata[ud]? = some u ∧ h'.userdata[result]? = some { r with Metatable := M } ∧
      (∀ p w, h.entries p = some w → h'.entries p = some w) ∧
      (u.Metatable = .iface_nil → M = .iface_nil) ∧
      (u.Metatable.isScalar = true → M = u.Metatable) ∧
      (∀ a, u.Metatable = .table a → M = .table h.tables.length ∧ a < h.tables.length ∧
        ∀ w, h.entries (some a) = some w → h'.entries (some h.tables.length) = some w) := by
  simp only [LUserData.cloneMetatable, Res.bind_eq_ok, Store.load_eq_ok] at hc
  obtain ⟨u', ⟨a, ha, hu'⟩, hc⟩ := hc
  cases ha
  rw [hu] at hu'
  cases hu'
  by_cases hnil : u.Metatable = .iface_nil
  · rw [hnil] at hc
    simp only [Res.pure_eq_ok] at hc
    subst hc
    refine ⟨.iface_nil, hu, ?_, fun _ _ hw => hw, fun _ => rfl, ?_, ?_⟩
    · rw [hr]
      rw [hnil] at hlink
      cases r
      simp only at hlink
      subst hlink
      rfl
    · intro hs
      rw [hnil] at hs
      cases hs
    · intro a ha
      rw [hnil] at ha
      cases ha
  · have hc' : ∃ c h2, LValue.Clone m h u.Metatable = .ok (c, h2) ∧
        h' = { h2 with
          userdata := Store.upd h2.userdata result (fun r => { r with Metatable := c }) } := by
      revert hc hnil
      cases u.Metatable <;> intro hc hnil <;>
        first
          | exact absurd rfl hnil
          | (simp only [Res.bind_eq_ok, Res.pure_eq_ok, Prod.exists] at hc
             obtain ⟨c, h2, hcl, rfl⟩ := hc
             exact ⟨c, h2, hcl, rfl⟩)
    obtain ⟨c, h2, hcl, rfl⟩ := hc'
    have e := LValue.value_Clone_ext m _ _ _ _ hcl
    have hu2 := e.userdata_pres _ _ hu
    have hr2 := e.userdata_pres _ _ hr
    refine ⟨c, ?_, ?_, fun p w hw => e.entries hw, fun he => absurd he hnil, ?_, ?_⟩
    · show (Store.upd h2.userdata result _)[ud]? = some u
      rw [Store.getElem?_upd_ne _ _ (Ne.symm hne)]
      exact hu2
    · show (Store.upd h2.userdata result _)[result]? = _
      rw [Store.getElem?_upd_self, hr2]
      rfl
    · intro hs
      rw [LValue.Clone_scalar hs m h] at hcl
      simp only [Except.ok.injEq, Prod.mk.injEq] at hcl
      exact hcl.1.symm
    · intro a ha
      rw [ha] at hcl
      obtain ⟨k, t, -, -, hcl'⟩ := LValue.Clone_table_returned hcl
      obtain ⟨hr', hlt, -, -, hnew⟩ := LTable.Clone_entries hcl'
      exact ⟨hr', hlt, fun w hw => hnew w hw⟩

/-- `LUserData.Clone` returns on user data whose environment is nil or a table with a finite
metatable chain and whose metatable is the nil interface or has a finite chain. -/
theorem LUserData.userdata_Clone_returns {n : Nat} {h : Heap} {ud : Nat} {u : LUserData}
    (hu : h.userdata[ud]? = some u) (hEnv : Heap.tableOk n h u.Env = true)
    (hMt : Heap.mtOk n h u.Metatable = true) :
    ∃ h1, LUserData.Clone (LValue.Clone n) h ud = .ok (.userdata h.userdata.length, h1) := by
  have e1 := LUserData.userdata_copyRecord_ok hu
  have hu2 : (h.userdata ++ [u])[ud]? = some u := Store.Pres.append _ _ _ _ hu
  have hr2 : (h.userdata ++ [u])[h.userdata.length]? = some u := List.getElem?_concat_length _ _
  have c12 : Heap.Chains h { h with userdata := h.userdata ++ [u] } :=
    Heap.Chains.of_eq rfl rfl rfl rfl
  obtain ⟨h3, E, e3, pt3, pv3, pd3, ps3, hud3, -, -⟩ :=
    LUserData.userdata_cloneEnv_ok (n := n) (h := { h with userdata := h.userdata ++ [u] })
      hu2 hr2 rfl (c12.tableOk hEnv)
  have hud3' : h3.userdata = h.userdata ++ [{ u with Env := E }] := by
    rw [hud3]
    exact Store.upd_append_new _ _ _
  have hu3 : h3.userdata[ud]? = some u := by
    rw [hud3']
    exact Store.Pres.append _ _ _ _ hu
  have hr3 : h3.userdata[h.userdata.length]? = some { u with Env := E } := by
    rw [hud3']
    exact List.getElem?_concat_length _ _
  have c23 : Heap.Chains { h with userdata := h.userdata ++ [u] } h3 :=
    Heap.Chains.of_pres pt3 pv3 pd3 ps3
  obtain ⟨h5, M, e5, -⟩ :=
    LUserData.userdata_cloneMetatable_ok (n := n) hu3 hr3 rfl ((c12.chains_trans c23).mtOk hMt)
  exact ⟨h5, by simp only [LUserData.Clone, e1, e3, e5, bind, Except.bind, pure, Except.pure]⟩

/-- C15, as amended: for every user data `ud` whose `Env` is nil or a table whose metatable
chain reaches a scalar value such as `LNil` within `n` metatables, and whose `Metatable` is
nil or has such a chain of at most `n` tables, `ud.Clone()` returns, with every budget
`m ≥ n`; and whenever `ud.Clone()` returns (also on user data with another metatable, such as
a function), the result is user data at a new address with the same `Value` (the host payload
is carried, not copied); `ud` is unchanged; a nil `Env` stays nil and a nil `Metatable` stays
nil; when `Env` is non-nil the clone's `Env` is a table that was not allocated before,
different from `ud.Env`, holding the same elements; when `Metatable` is a table the clone's
`Metatable` is a table that was not allocated before, different from it, holding the same
elements (and a scalar metatable stays the same value); the tables of `ud` keep their
elements. -/
theorem LUserData_Clone_new_record (n m : Nat) (h : Heap) (ud : Nat) (u : LUserData)
    (hu : h.userdata[ud]? = some u) :
    (∀ r h1, LUserData.Clone (LValue.Clone m) h ud = .ok (r, h1) →
      r = .userdata h.userdata.length ∧ h.userdata.length ≠ ud ∧
      ∃ c, h1.userdata[h.userdata.length]? = some c ∧ h1.userdata[ud]? = some u ∧
        c.Value = u.Value ∧
        (u.Env = none → c.Env = none) ∧
        (∀ env, u.Env = some env → ∃ env', c.Env = some env' ∧ h.tables.length ≤ env' ∧
          env' ≠ env ∧ ∀ w, h.entries (some env) = some w →
            h1.entries (some env') = some w ∧ h1.entries (some env) = some w) ∧
        (u.Metatable = .iface_nil → c.Metatable = .iface_nil) ∧
        (u.Metatable.isScalar = true → c.Metatable = u.Metatable) ∧
        (∀ a, u.Metatable = .table a → ∃ a', c.Metatable = .table a' ∧
          h.tables.length ≤ a' ∧ a' ≠ a ∧
          ∀ w, h.entries (some a) = some w →
            h1.entries (some a') = some w ∧ h1.entries (some a) = some w)) ∧
    (Heap.tableOk n h u.Env = true → Heap.mtOk n h u.Metatable = true → n ≤ m →
      ∃ h1, LUserData.Clone (LValue.Clone m) h ud = .ok (.userdata h.userdata.length, h1)) := by
  refine ⟨?_, fun hEnv hMt hm =>
    LUserData.userdata_Clone_returns hu (Heap.tableOk_le hm hEnv) (Heap.mtOk_le hm hMt)⟩
  intro r h1 hc
  have hlt := Store.lt_of_getElem? hu
  have hne : ud ≠ h.userdata.length := Nat.ne_of_lt hlt
  simp only [LUserData.Clone, Res.bind_eq_ok, Res.pure_eq_ok, Prod.exists, Prod.mk.injEq] at hc
  obtain ⟨r0, h2, h0, h3, h4, h5, h6, rfl, rfl⟩ := hc
  rw [LUserData.userdata_copyRecord_ok hu] at h0
  simp only [Except.ok.injEq, Prod.mk.injEq] at h0
  obtain ⟨rfl, rfl⟩ := h0
  have hu2 : (h.userdata ++ [u])[ud]? = some u := Store.Pres.append _ _ _ _ hu
  have hr2 : (h.userdata ++ [u])[h.userdata.length]? = some u := List.getElem?_concat_length _ _
  obtain ⟨E, hu3, hr3, hlen3, hold3, hEn, hEs⟩ :=
    LUserData.userdata_cloneEnv_spec (h := { h with userdata := h.userdata ++ [u] })
      hu2 hr2 hne rfl h4
  obtain ⟨M, hu5, hr5, hold5, hMn, hMsc, hMs⟩ :=
    LUserData.userdata_cloneMetatable_spec hu3 hr3 hne rfl h6
  have hlen3' : h.tables.length ≤ h3.tables.length := hlen3
  refine ⟨rfl, Ne.symm hne, { u with Env := E, Metatable := M }, hr5, hu5, rfl, hEn, ?_, hMn,
    hMsc, ?_⟩
  · intro env he
    obtain ⟨hE, hlt', hw3⟩ := hEs env he
    refine ⟨h.tables.length, hE, Nat.le_refl _, Ne.symm (Nat.ne_of_lt hlt'), ?_⟩
    intro w hw
    exact ⟨hold5 _ w (hw3 w hw), hold5 _ w (hold3 _ w hw)⟩
  · intro a ha
    obtain ⟨hM, hlt', hw5⟩ := hMs a ha
    refine ⟨h3.tables.length, hM, hlen3', Ne.symm (Nat.ne_of_lt hlt'), ?_⟩
    intro w hw
    exact ⟨hw5 w (hold3 _ w hw), hold5 _ w (hold3 _ w hw)⟩

/-- C15 at user data 0 of `objHeap`, whose environment is table 3 and whose metatable is
table 2 (the clone is user data 2, with new tables for both), at user data 1, which has
neither (the clone has neither, and the call returns with budget 0), and at user data 2 of
`fnMetaHeap`, whose metatable is a function (the call returns with budget 1, and the clone
carries the payload). -/
theorem LUserData_Clone_new_record_witness :
    (∃ h1 c, LUserData.Clone (LValue.Clone 1) objHeap 0 = .ok (.userdata 2, h1) ∧
      h1.userdata[2]? = some c ∧ h1.userdata[0]? = some ⟨some 11, some 3, .table 2⟩ ∧
      c.Value = some 11 ∧
      (∃ env', c.Env = some env' ∧ 7 ≤ env' ∧ env' ≠ 3 ∧
        h1.entries (some env') = objHeap.entries (some 3) ∧
        h1.entries (some 3) = objHeap.entries (some 3)) ∧
      (∃ a', c.Metatable = .table a' ∧ 7 ≤ a' ∧ a' ≠ 2 ∧
        h1.entries (some a') = objHeap.entries (some 2) ∧
        h1.entries (some 2) = objHeap.entries (some 2))) ∧
    (∃ h1 c, LUserData.Clone (LValue.Clone 0) objHeap 1 = .ok (.userdata 2, h1) ∧
      h1.userdata[2]? = some c ∧ h1.userdata[1]? = some ⟨some 12, none, .iface_nil⟩ ∧
      c.Value = some 12 ∧ c.Env = none ∧ c.Metatable = .iface_nil) ∧
    (∃ h1 c, LUserData.Clone (LValue.Clone 1) fnMetaHeap 2 = .ok (.userdata 3, h1) ∧
      h1.userdata[3]? = some c ∧ h1.userdata[2]? = some ⟨some 13, none, .function 0⟩ ∧
      c.Value = some 13 ∧ c.Env = none) := by
  refine ⟨?_, ?_, ?_⟩
  · obtain ⟨hA, hB⟩ := LUserData_Clone_new_record 1 1 objHeap 0 ⟨some 11, some 3, .table 2⟩ rfl
    obtain ⟨h1, hc⟩ := hB (by decide) (by decide) (Nat.le_refl 1)
    obtain ⟨-, -, c, e1, e2, e3, -, e5, -, -, e8⟩ := hA _ h1 hc
    obtain ⟨env', k1, k2, k3, k4⟩ := e5 3 rfl
    obtain ⟨k5, k6⟩ := k4 _ (rfl : objHeap.entries (some 3) = some _)
    obtain ⟨a', m1, m2, m3, m4⟩ := e8 2 rfl
    obtain ⟨m5, m6⟩ := m4 _ (rfl : objHeap.entries (some 2) = some _)
    exact ⟨h1, c, hc, e1, e2, e3, ⟨env', k1, k2, k3, k5, k6⟩, ⟨a', m1, m2, m3, m5, m6⟩⟩
  · obtain ⟨hA, hB⟩ := LUserData_Clone_new_record 0 0 objHeap 1 ⟨some 12, none, .iface_nil⟩ rfl
    obtain ⟨h1, hc⟩ := hB (by decide) (by decide) (Nat.le_refl 0)
    obtain ⟨-, -, c, e1, e2, e3, e4, -, e6, -⟩ := hA _ h1 hc
    exact ⟨h1, c, hc, e1, e2, e3, e4 rfl, e6 rfl⟩
  · obtain ⟨hA, -⟩ := LUserData_Clone_new_record 0 1 fnMetaHeap 2 ⟨some 13, none, .function 0⟩
      rfl
    obtain ⟨-, -, c, e1, e2, e3, e4, -⟩ :=
      hA _ _ (rfl : LUserData.Clone (LValue.Clone 1) fnMetaHeap 2 = .ok (.userdata 3, _))
    exact ⟨_, c, rfl, e1, e2, e3, e4 rfl⟩

/-- `LUserData.Clone` does not return, whatever the budget, on user data whose environment
is a table that is its own metatable. -/
theorem LUserData.userdata_Clone_diverges (n : Nat) {h : Heap} {ud env : Nat} {u : LUserData}
    {t : LTable} (hu : h.userdata[ud]? = some u) (hE : u.Env = some env)
    (ht : h.tables[env]? = some t) (hmt : t.Metatable = .table env) :
    LUserData.Clone (LValue.Clone n) h ud = .error .outOfFuel := by
  have e1 := LUserData.userdata_copyRecord_ok hu
  have l1 : Store.load (h.userdata ++ [u]) (some ud) = .ok u :=
    Store.load_eq_ok.mpr ⟨ud, rfl, Store.Pres.append _ _ _ _ hu⟩
  have hd : LTable.Clone (LValue.Clone n) { h with userdata := h.userdata ++ [u] } env =
      .error .outOfFuel :=
    LValue.Clone_self_metatable (n + 1) { h with userdata := h.userdata ++ [u] } env t ht hmt
  simp [LUserData.Clone, e1, LUserData.cloneEnv, l1, hE, hd, bind, Except.bind]

/-- C15 fails as stated: user data 0 of `cyclicEnvHeap` has a non-nil `Env`, table 1, which
is its own metatable (after `setmetatable(t, t)`); `LUserData.Clone` calls `Clone` on that
table, which calls `Clone` on it again and again and exhausts every recursion budget, so the
call never returns and there is no clone. -/
theorem LUserData_Clone_diverges_on_cyclic_Env :
    (cyclicEnvHeap.userdata[0]?).map (fun u => (u.Env, u.Metatable)) = some (some 1, LNil) ∧
    (cyclicEnvHeap.tables[1]?).map (fun t => t.Metatable) = some (.table 1) ∧
    (∀ t ∈ cyclicEnvHeap.tables, t.Metatable ≠ .iface_nil) ∧
    (∀ n, LUserData.Clone (LValue.Clone n) cyclicEnvHeap 0 = .error .outOfFuel) ∧
    ¬ ∃ n r h1, LUserData.Clone (LValue.Clone n) cyclicEnvHeap 0 = .ok (r, h1) := by
  have hd : ∀ n, LUserData.Clone (LValue.Clone n) cyclicEnvHeap 0 = .error .outOfFuel :=
    fun n => LUserData.userdata_Clone_diverges n (h := cyclicEnvHeap) (t := ⟨.table 1, none, none, some 1, some 2, some 0⟩)
      (rfl : cyclicEnvHeap.userdata[0]? = some ⟨some 11, some 1, LNil⟩) rfl rfl rfl
  refine ⟨rfl, rfl, by decide, hd, ?_⟩
  rintro ⟨n, r, h1, hc⟩
  rw [hd n] at hc
  cases hc

/-! ## The list of temporary files of a cloned Global -/

/-- A returning call of `Global.Clone`, up to its last statement: the heap `h7` in which the
list of temporary files is cloned. -/
theorem Global.Clone_steps {cl : Heap → LValue → Res (LValue × Heap)}
    (hcl : ∀ h v r h', cl h v = .ok (r, h') → Heap.Ext h h')
    {h h1 : Heap} {g c : Nat} {gr : GlobalRecord} (hg : h.globals[g]? = some gr)
    (hc : Global.Clone cl h g = .ok (c, h1)) :
    c = h.globals.length ∧
      ∃ h7, Heap.Step h { h with globals := h.globals ++ [gr] } h7 ∧
        Global.cloneTempFiles h7 h.globals.length g = .ok h1 := by
  simp only [Global.Clone, Res.bind_eq_ok, Res.pure_eq_ok, Prod.exists, Prod.mk.injEq] at hc
  obtain ⟨r, h2, h0, h3, h4, h5, h6, h7, h8, h9, h10, rfl, rfl⟩ := hc
  obtain ⟨hr, s1, x0, hx0, hg2, hr2⟩ := Global.global_copyRecord_step (b := h) h0
  subst hr
  rw [Global.global_copyRecord_ok hg] at h0
  simp only [Except.ok.injEq, Prod.mk.injEq, true_and] at h0
  subst h0
  have e3 : Heap.Ext _ h3 := Global.cloneRegistry_ext hcl (by
    intro gr' r hgr hr
    rw [hg2] at hgr
    rw [hr2] at hr
    cases hgr
    cases hr
    rfl) h4
  obtain ⟨g3, hg3, -, -, -, hG3, -⟩ := e3.globals g x0 hg2
  obtain ⟨r3, hr3, -, -, -, hR3, -⟩ := e3.globals _ x0 hr2
  have e5 : Heap.Ext h3 h5 := Global.cloneGlobal_ext hcl (by
    intro gr' r hgr hr
    rw [hg3] at hgr
    rw [hr3] at hr
    cases hgr
    cases hr
    rw [hR3, hG3]) h6
  have s13 : Heap.Step h h h3 := s1.step_trans (e3.toStep h)
  have s15 : Heap.Step h h h5 := s13.step_trans (e5.toStep h)
  have hm5 : h.mtMaps.length ≤ h5.mtMaps.length :=
    (Store.PresBelow.pres s15.mtMaps).length_le
  have s57 := Global.cloneBuiltinMts_step (b := h) hcl hm5 h8
  exact ⟨rfl, h7, ((e3.toStep h).step_trans (e5.toStep h)).step_trans s57, h10⟩

/-- The statements on `tempFiles` of `Global.Clone`, on a run that returns: the list of the
source was readable, and the result gets a new list with the same handles. -/
theorem Global.cloneTempFiles_spec {h h1 : Heap} {result g : Nat} {gr : GlobalRecord}
    (hne : g ≠ result) (hg : h.globals[g]? = some gr)
    (hc : Global.cloneTempFiles h result g = .ok h1) :
    ∃ fs, Store.slice h.fileLists gr.tempFiles = .ok fs ∧
      h1 = { h with
        globals := Store.upd h.globals result
          (fun r => { r with tempFiles := some h.fileLists.length })
        fileLists := h.fileLists ++ [fs] } := by
  have hc0 := hc
  simp only [Global.cloneTempFiles, Res.bind_eq_ok, Store.load_eq_ok] at hc0
  obtain ⟨gr', ⟨a, ha, hgr'⟩, fs, hfs, -⟩ := hc0
  cases ha
  rw [hg] at hgr'
  cases hgr'
  have hok := Global.cloneTempFiles_ok h result g hne hg hfs
  rw [hc] at hok
  exact ⟨fs, hfs, Except.ok.inj hok⟩

/-- `Global.Clone` does not return, whatever the budget, on a Global whose variables table is
its own metatable. -/
theorem Global.global_Clone_diverges (n gt : Nat) {h : Heap} {g : Nat} {gr : GlobalRecord}
    {t : LTable} (hg : h.globals[g]? = some gr) (hR : Heap.tableOk n h gr.Registry = true)
    (hgt : gr.Global = some gt) (hne : some gt ≠ gr.Registry) (ht : h.tables[gt]? = some t)
    (hmt : t.Metatable = .table gt) :
    Global.Clone (LValue.Clone n) h g = .error .outOfFuel := by
  have eg1 := Global.global_copyRecord_ok hg
  have c0 : Heap.Chains h { h with globals := h.globals ++ [gr] } :=
    Heap.Chains.of_eq rfl rfl rfl rfl
  have hg2 : (h.globals ++ [gr])[g]? = some gr := Store.Pres.append _ _ _ _ hg
  have hr2 : (h.globals ++ [gr])[h.globals.length]? = some gr := List.getElem?_concat_length _ _
  obtain ⟨h3, e3, -, g3, -, -, -, tb3⟩ := Global.cloneRegistry_ok (n := n)
    (h := { h with globals := h.globals ++ [gr] }) hg2 hr2 rfl (c0.tableOk hR)
  have hg3 : h3.globals[g]? = some gr := by
    rw [g3]
    exact hg2
  have hr3 : h3.globals[h.globals.length]? = some gr := by
    rw [g3]
    exact hr2
  have hdiv := Global.cloneGlobal_diverges (n := n) hg3 hr3 hgt (tb3 gt t hne ht) hmt
  simp only [Global.Clone, eg1, bind, Except.bind]
  simp only [e3, hdiv]

/-- C18, as amended: for every well-formed Global `g`, one whose registry, variables table and
built-in metatables have metatable chains that reach a scalar value such as `LNil` within `n`
tables, `g.Clone()` returns, with every budget `m ≥ n`, and `g` keeps its record and its list
of temporary files with the handles it held before the call; and whenever `g.Clone()` returns
(also on another Global), the result is a Global at a new address whose `tempFiles` is a list
that was not allocated before, of the same length as the list of `g` and holding the same
file handles in the same order (the handles themselves are not copied); it is not the list of
`g`, and whatever is then written to it is what the clone holds and leaves the list of `g` as
it was. -/
theorem Global_Clone_new_tempFiles (n m : Nat) (h : Heap) (g : Nat) (gr : GlobalRecord)
    (hg : h.globals[g]? = some gr) :
    (∀ c h1, Global.Clone (LValue.Clone m) h g = .ok (c, h1) →
      c = h.globals.length ∧ h.globals.length ≠ g ∧
      ∃ d g1 fl fs, h1.globals[h.globals.length]? = some d ∧ h1.globals[g]? = some g1 ∧
        d.tempFiles = some fl ∧ h.fileLists.length ≤ fl ∧ g1.tempFiles ≠ some fl ∧
        Store.slice h1.fileLists d.tempFiles = .ok fs ∧
        Store.slice h1.fileLists g1.tempFiles = .ok fs ∧
        (∀ xs, Store.slice (h1.fileLists.set fl xs) d.tempFiles = .ok xs ∧
          Store.slice (h1.fileLists.set fl xs) g1.tempFiles = .ok fs)) ∧
    (Global.wellFormed n h g = true → n ≤ m →
      ∃ h1 fs, Global.Clone (LValue.Clone m) h g = .ok (h.globals.length, h1) ∧
        Store.slice h.fileLists gr.tempFiles = .ok fs ∧ h1.globals[g]? = some gr ∧
        Store.slice h1.fileLists gr.tempFiles = .ok fs) := by
  have hlt := Store.lt_of_getElem? hg
  have hne : g ≠ h.globals.length := Nat.ne_of_lt hlt
  constructor
  · intro c h1 hc
    obtain ⟨hc1, h7, s, h10⟩ := Global.Clone_steps (LValue.value_Clone_ext m) hg hc
    obtain ⟨g7, hg7, -⟩ := s.globals g gr (Store.Pres.append _ _ _ _ hg)
    obtain ⟨r7, hr7, -⟩ := s.globals h.globals.length gr (List.getElem?_concat_length _ _)
    obtain ⟨fs, hfs, rfl⟩ := Global.cloneTempFiles_spec hne hg7 h10
    have hlen : h.fileLists.length ≤ h7.fileLists.length := s.fileLists.length_le
    have hne7 : g7.tempFiles ≠ some h7.fileLists.length :=
      Store.slice_ne_of_ok hfs (Nat.le_refl _)
    refine ⟨hc1, Ne.symm hne, { r7 with tempFiles := some h7.fileLists.length }, g7,
      h7.fileLists.length, fs, ?_, ?_, rfl, hlen, hne7, ?_, ?_, ?_⟩
    · show (Store.upd h7.globals h.globals.length _)[h.globals.length]? = _
      rw [Store.getElem?_upd_self, hr7]
      rfl
    · show (Store.upd h7.globals h.globals.length _)[g]? = _
      rw [Store.getElem?_upd_ne _ _ (Ne.symm hne)]
      exact hg7
    · simp [Store.slice]
    · exact Store.slice_mono (Store.Pres.append _ _) hfs
    · intro xs
      refine ⟨?_, Store.slice_mono ((Store.Pres.append _ _).set_fresh xs (Nat.le_refl _)) hfs⟩
      simp [Store.slice]
  · intro hwf hm
    obtain ⟨gr', fs, h1, hg', hfs, hc, -, hgl, hfl, -⟩ :=
      Global.global_Clone_ok (Global.global_wellFormed_le hm hwf)
    rw [hg] at hg'
    cases hg'
    refine ⟨h1, fs, hc, hfs, ?_, ?_⟩
    · rw [hgl]
      exact Store.Pres.append _ _ _ _ hg
    · rw [hfl]
      exact Store.slice_mono (Store.Pres.append _ _) hfs

/-- C18 at Global 0 of `demoHeap`, which has one open temporary file (handle 5): the clone is
Global 1, its list is list 1, holding that same handle, and closing the handle in the list of
the clone leaves the list of Global 0 as it was. -/
theorem Global_Clone_new_tempFiles_witness :
    ∃ h1 d, Global.Clone (LValue.Clone 1) demoHeap 0 = .ok (1, h1) ∧
      h1.globals[1]? = some d ∧
      h1.globals[0]? = some ⟨some 0, some 0, some 0, some 1, some 0, some 0, 0⟩ ∧
      (∃ fl, d.tempFiles = some fl ∧ 1 ≤ fl ∧
        (∀ xs, Store.slice (h1.fileLists.set fl xs) d.tempFiles = .ok xs ∧
          Store.slice (h1.fileLists.set fl xs) (some 0) = .ok [some 5])) ∧
      Store.slice demoHeap.fileLists (some 0) = .ok [some 5] ∧
      Store.slice h1.fileLists d.tempFiles = .ok [some 5] ∧
      Store.slice h1.fileLists (some 0) = .ok [some 5] := by
  obtain ⟨hA, hB⟩ := Global_Clone_new_tempFiles 1 1 demoHeap 0
    ⟨some 0, some 0, some 0, some 1, some 0, some 0, 0⟩ rfl
  obtain ⟨h1, fs, hc, hfs, hg1, hfs1⟩ := hB (by decide) (Nat.le_refl 1)
  obtain ⟨-, -, d, g1, fl, fs', e1, e2, e3, e4, -, e6, e7, e8⟩ := hA _ h1 hc
  rw [hg1] at e2
  cases e2
  have hfs0 : fs = [some 5] := Except.ok.inj (hfs.symm.trans rfl)
  subst hfs0
  have hfs' : fs' = [some 5] := Except.ok.inj (e7.symm.trans hfs1)
  subst hfs'
  exact ⟨h1, d, hc, e1, hg1, ⟨fl, e3, e4, e8⟩, rfl, e6, hfs1⟩

/-- C18 fails as stated: Global 0 of `cyclicHeap` has a list of temporary files (holding the
handle 5), but its variables table (table 1) is its own metatable, as after
`setmetatable(_G, _G)`; `Global.Clone` clones that table before it reaches the list, each
`Clone` of the table calls `Clone` on it again, and every recursion budget is exhausted: the
call never returns, so there is no clone and no new list. -/
theorem Global_Clone_diverges_on_cyclic_metatable :
    (cyclicHeap.globals[0]?).map (fun g => (g.Registry, g.Global, g.tempFiles)) =
      some (some 0, some 1, some 0) ∧
    Store.slice cyclicHeap.fileLists (some 0) = .ok [some 5] ∧
    (cyclicHeap.tables[1]?).map (fun t => t.Metatable) = some (.table 1) ∧
    (∀ t ∈ cyclicHeap.tables, t.Metatable ≠ .iface_nil) ∧
    (∀ n, Global.Clone (LValue.Clone n) cyclicHeap 0 = .error .outOfFuel) ∧
    ¬ ∃ n c h1, Global.Clone (LValue.Clone n) cyclicHeap 0 = .ok (c, h1) := by
  have hd : ∀ n, Global.Clone (LValue.Clone n) cyclicHeap 0 = .error .outOfFuel := by
    intro n
    exact Global.global_Clone_diverges n 1 (h := cyclicHeap) (g := 0)
      (rfl : cyclicHeap.globals[0]? = some _)
      (Heap.chainWithin_iff.mpr ⟨1, by omega, rfl⟩) rfl (by decide)
      (rfl : cyclicHeap.tables[1]? = some _) rfl
  refine ⟨rfl, rfl, rfl, by decide, hd, ?_⟩
  rintro ⟨n, c, h1, hc⟩
  rw [hd n] at hc
  cases hc

/-! ## The round trip through a snapshot -/

theorem SaveSnapshot_eq_ok {m : Nat} {h h1 : Heap} {l : Nat} {sn : Snapshot}
    (hs : SaveSnapshot m h (some l) = .ok (sn, h1)) :
    ∃ d, LState.Clone (LValue.Clone m) h l = .ok (.thread h.threads.length, h1) ∧
      h1.threads[h.threads.length]? = some d ∧ sn = { LPtr := some l, LData := d } := by
  simp only [SaveSnapshot, Res.bind_eq_ok, Res.pure_eq_ok, Prod.exists, Prod.mk.injEq,
    LValue.toThread_eq_ok, Store.load_eq_ok] at hs
  obtain ⟨c, h1', hc, p, hp, d, ⟨a, ha, hd⟩, rfl, rfl⟩ := hs
  cases ha
  obtain ⟨hc1, -⟩ := LState.thread_Clone_ext (LValue.value_Clone_ext m) hc
  subst hp
  cases hc1
  exact ⟨d, hc, hd, rfl⟩

/-- `SaveSnapshot` returns on a well-formed thread. -/
theorem SaveSnapshot_returns {n : Nat} {h : Heap} {l : Nat}
    (hwf : LState.wellFormed n h l = true) :
    ∃ sn h1, SaveSnapshot n h (some l) = .ok (sn, h1) := by
  obtain ⟨h1, hc, hlen⟩ := LState.thread_Clone_ok hwf
  have hlt : h.threads.length < h1.threads.length := by omega
  have hload : Store.load h1.threads (some h.threads.length) =
      .ok h1.threads[h.threads.length] :=
    Store.load_eq_ok.mpr ⟨_, rfl, List.getElem?_eq_getElem hlt⟩
  refine ⟨{ LPtr := some l, LData := h1.threads[h.threads.length] }, h1, ?_⟩
  simp [SaveSnapshot, hc, LValue.toThread, hload, bind, Except.bind, pure, Except.pure]

/-- C6, as amended: for every thread `l` with a non-nil `G` and a non-nil `Env` whose
environment table holds the same elements as the variables table of its Global (which is the
case when the two are the same table, as thread construction leaves them): when `l` is
well-formed, that is when its environment, registry, variables table and built-in metatables
have metatable chains that reach a scalar value such as `LNil` within `n` tables,
`SaveSnapshot(l)` returns, with every budget `m ≥ n`; and whenever `SaveSnapshot(l)` returns,
`LoadSnapshot` of the snapshot returns `l`, and afterwards `l.Env`, `l.G.Registry` and
`l.G.Global` each denote a table with the elements the table of the same field had before the
two calls. -/
theorem snapshot_round_trip (n m : Nat) (h : Heap) (l g : Nat) (ls : LState)
    (gr : GlobalRecord) (hl : h.threads[l]? = some ls) (hG : ls.G = some g)
    (hg : h.globals[g]? = some gr) (hEnv : ls.Env ≠ none)
    (hsame : h.entries ls.Env = h.entries gr.Global) :
    (∀ sn h1, SaveSnapshot m h (some l) = .ok (sn, h1) →
      ∃ h2 ls' g' gr', LoadSnapshot h1 sn = .ok (some l, h2) ∧
        h2.threads[l]? = some ls' ∧ ls'.G = some g' ∧ h2.globals[g']? = some gr' ∧
        (∀ v, h.entries ls.Env = some v → h2.entries ls'.Env = some v) ∧
        (∀ v, h.entries gr.Registry = some v → h2.entries gr'.Registry = some v) ∧
        (∀ v, h.entries gr.Global = some v → h2.entries gr'.Global = some v)) ∧
    (LState.wellFormed n h l = true → n ≤ m →
      ∃ sn h1, SaveSnapshot m h (some l) = .ok (sn, h1)) := by
  refine ⟨?_, fun hwf hm => SaveSnapshot_returns (LState.thread_wellFormed_le hm hwf)⟩
  intro sn h1 hs
  obtain ⟨d', hc, hd', rfl⟩ := SaveSnapshot_eq_ok hs
  obtain ⟨-, e⟩ := LState.thread_Clone_ext (LValue.value_Clone_ext m) hc
  obtain ⟨d, hd, hdG, hdE⟩ := LState.thread_Clone_spec (LValue.value_Clone_ext m) hc hl
  rw [hd'] at hd
  cases hd
  obtain ⟨env, henv⟩ := Option.ne_none_iff_exists'.mp hEnv
  have hdEnv : d'.Env = gr.Global := hdE env g gr henv hG hg
  have hl1 := e.threads_pres _ _ hl
  obtain ⟨gr', hgr', -, -, kR, kG, -⟩ := e.globals g gr hg
  have hstore : Store.store h1.threads (some l) d' = .ok (h1.threads.set l d') :=
    Store.store_eq_ok.mpr ⟨l, ls, rfl, hl1, rfl⟩
  have hload2 : LoadSnapshot h1 { LPtr := some l, LData := d' } =
      .ok (some l, { h1 with threads := h1.threads.set l d' }) := by
    simp [LoadSnapshot, hstore, bind, Except.bind, pure, Except.pure]
  have hent : ∀ (p : Option Nat) (v : TableView), h.entries p = some v →
      Heap.entries { h1 with threads := h1.threads.set l d' } p = some v := by
    intro p v hv
    have h1v := e.entries hv
    obtain ⟨a, t, rfl, ht, htv⟩ := Heap.entries_eq_some.mp h1v
    exact Heap.entries_eq_some.mpr ⟨a, t, rfl, ht,
      LTable.view_mono (Store.Pres.pres_refl _) (Store.Pres.pres_refl _) (Store.Pres.pres_refl _) htv⟩
  refine ⟨_, d', g, gr', hload2, ?_, hdG.trans hG, hgr', ?_, ?_, ?_⟩
  · simp [Store.lt_of_getElem? hl1]
  · intro v hv
    rw [hdEnv]
    rw [hsame] at hv
    exact hent _ v hv
  · intro v hv
    rw [kR]
    exact hent _ v hv
  · intro v hv
    rw [kG]
    exact hent _ v hv

/-- C6 as amended, at thread 0 of `demoHeap`, whose environment is the variables table: the
round trip returns thread 0, whose environment, registry and variables table hold the
elements they held before. -/
theorem snapshot_round_trip_witness :
    ∃ sn h1 h2 ls' g' gr', SaveSnapshot 1 demoHeap (some 0) = .ok (sn, h1) ∧
      LoadSnapshot h1 sn = .ok (some 0, h2) ∧
      h2.threads[0]? = some ls' ∧ ls'.G = some g' ∧ h2.globals[g']? = some gr' ∧
      demoHeap.entries (some 1) =
        some ⟨[], GoMap.empty, ⟨[("x", .lnumber 2)], by decide⟩, [.lstring "x"]⟩ ∧
      demoHeap.entries (some 0) =
        some ⟨[.lnumber 7], GoMap.empty, ⟨[("r", .lnumber 1)], by decide⟩, [.lstring "r"]⟩ ∧
      h2.entries ls'.Env = demoHeap.entries (some 1) ∧
      h2.entries gr'.Registry = demoHeap.entries (some 0) ∧
      h2.entries gr'.Global = demoHeap.entries (some 1) := by
  obtain ⟨hA, hB⟩ := snapshot_round_trip 1 1 demoHeap 0 0 _ _
    (rfl : demoHeap.threads[0]? = some _) rfl (rfl : demoHeap.globals[0]? = some _)
    (by decide) rfl
  obtain ⟨sn, h1, hs⟩ := hB (by decide) (Nat.le_refl 1)
  obtain ⟨h2, ls', g', gr', e1, e2, e3, e4, e5, e6, e7⟩ := hA sn h1 hs
  exact ⟨sn, h1, h2, ls', g', gr', hs, e1, e2, e3, e4, rfl, rfl, e5 _ rfl, e6 _ rfl, e7 _ rfl⟩

/-- C6 fails as stated, on two threads with a non-nil `G` and a non-nil `Env`.  On thread 0
of `demoHeapEnv`, whose environment (table 3, holding `"e"`) is not the variables table of its
Global (table 1), `LoadSnapshot(SaveSnapshot(l))` returns the thread with `Env` pointing to
table 1, which has no entry `"e"`.  On thread 0 of `cyclicHeap`, whose environment is the
variables table and is its own metatable (as after `setmetatable(_G, _G)`), `SaveSnapshot`
exhausts every recursion budget, so it never returns and there is no round trip. -/
theorem snapshot_round_trip_changes_Env_or_diverges :
    (∃ sn h1 h2, SaveSnapshot 1 demoHeapEnv (some 0) = .ok (sn, h1) ∧
      LoadSnapshot h1 sn = .ok (some 0, h2) ∧
      LState.getG demoHeapEnv (some 0) = .ok (some 0) ∧
      LState.getEnv demoHeapEnv (some 0) = .ok (some 3) ∧
      LTable.getStr demoHeapEnv (some 3) "e" = .ok (some (.lnumber 3)) ∧
      LState.getEnv h2 (some 0) = .ok (some 1) ∧
      LTable.getStr h2 (some 1) "e" = .ok none ∧
      demoHeapEnv.entries (some 3) ≠ h2.entries (some 1)) ∧
    (LState.getG cyclicHeap (some 0) = .ok (some 0) ∧
      LState.getEnv cyclicHeap (some 0) = .ok (some 1) ∧
      LState.getGlobal cyclicHeap (some 0) = .ok (some 1) ∧
      (cyclicHeap.tables[1]?).map (fun t => t.Metatable) = some (.table 1) ∧
      (∀ n, SaveSnapshot n cyclicHeap (some 0) = .error .outOfFuel) ∧
      ¬ ∃ n sn h1, SaveSnapshot n cyclicHeap (some 0) = .ok (sn, h1)) := by
  have hd : ∀ n, SaveSnapshot n cyclicHeap (some 0) = .error .outOfFuel := by
    intro n
    have hc := LState.Clone_diverges n 1 (h := cyclicHeap) (l := 0) (g := 0)
      (rfl : cyclicHeap.threads[0]? = some _) rfl (rfl : cyclicHeap.globals[0]? = some _)
      (Heap.chainWithin_iff.mpr ⟨1, by omega, rfl⟩) rfl (by decide)
      (rfl : cyclicHeap.tables[1]? = some _) rfl
    simp [SaveSnapshot, hc, bind, Except.bind]
  refine ⟨⟨_, _, _, rfl, rfl, rfl, rfl, rfl, rfl, rfl, by decide⟩, rfl, rfl, rfl, rfl, hd, ?_⟩
  rintro ⟨n, sn, h1, hs⟩
  rw [hd n] at hs
  cases hs
